import Mathlib

/-!
# Verification of the formcalc formula engine

A shallow embedding, in Lean 4, of the core of the `formcalc` repository:
the `Value` type, the expression/statement AST, the tree-walking evaluator,
the lexer and recursive-descent parser, the dependency scanner of
`Formula::new`, the layered topological sort of `DAGraph`, and the `Engine`
orchestrator.  Rust `f64` numbers are modelled as exact rationals (`ℚ`);
every numeric computation appearing in a proved statement is exact in IEEE
double precision as well (small integers and decimal literals).  Rust
`HashMap`s are modelled as association lists whose `set` shadows older
entries, which is observationally the insert-replace semantics.  Iteration
order of Rust `HashMap`s is unspecified; the embedding fixes one
deterministic order, and every property proved below is order-insensitive
(membership of layers, of the detached list, and of the caches).

Recursions that the Rust code performs with loops or unbounded recursion are
modelled with an explicit fuel argument so that all definitions compute by
kernel reduction; the fuel bounds chosen are provably sufficient (for the
topological sort this is established by `topoLoop_fuel_stable`).
-/

set_option linter.unusedSectionVars false

namespace FormCalc

/-- `Value` from `src/value/mod.rs`: tagged union of string, number (`f64`,
modelled as `ℚ`) and boolean. -/
inductive Value where
  | str (s : String)
  | num (n : ℚ)
  | bool (b : Bool)
deriving DecidableEq, Repr

/-- Textual form of a number, as Rust's `f64::to_string` produces it on the
values this development evaluates: an integral value prints without a decimal
point (`1.0.to_string() = "1"`).  Non-integral rationals (where the `f64`
shortest-round-trip form is not representable exactly) fall back to the
rational's own print form; no proved statement depends on that branch. -/
def numToString (n : ℚ) : String :=
  if n.den = 1 then toString n.num else toString n

/-- `Value::get` from `src/value/mod.rs`: the textual form of a value. -/
def Value.get : Value → String
  | .str s => s
  | .num n => numToString n
  | .bool b => if b then "true" else "false"

/-- `Value::as_bool`. -/
def Value.asBool : Value → Option Bool
  | .bool b => some b
  | _ => none

/-- `PartialOrd for Value` from `src/value/mod.rs`: ordering is defined only
between same-kind values.  (`ℚ` has no NaN, so the number case is total here;
string order is codepoint-lexicographic, which agrees with Rust's byte order
on the ASCII strings this development compares; `false < true` as in Rust.)
Defined after the boolean comparison helpers below. -/
def valueCmpWith (ratLt : ℚ → ℚ → Bool) (strLt : String → String → Bool) :
    Value → Value → Option Ordering
  | .num a, .num b =>
      some (if ratLt a b then Ordering.lt else if a = b then Ordering.eq else Ordering.gt)
  | .str a, .str b =>
      some (if strLt a b then Ordering.lt else if a = b then Ordering.eq else Ordering.gt)
  | .bool a, .bool b =>
      some (if !a && b then Ordering.lt else if a = b then Ordering.eq else Ordering.gt)
  | _, _ => none

/-- `CalculatorError` from `src/error/mod.rs`. -/
inductive CalcError where
  | evalError (msg : String)
  | parseError (msg : String)
  | errorCall (msg : String)
  | typeError (msg : String)
  | functionNotFound (msg : String)
  | variableNotFound (msg : String)
  | formulaNotFound (msg : String)
  | invalidArgument (msg : String)
  | dependencyError (msg : String)
  | dateParseError (msg : String)
  | divisionByZero
deriving DecidableEq, Repr

/-- The `Display` form of a `CalculatorError` (the `#[error(...)]` strings of
`src/error/mod.rs`), used by the engine when recording per-formula errors. -/
def CalcError.display : CalcError → String
  | .evalError m => "Evaluation error: " ++ m
  | .parseError m => "Parse error: " ++ m
  | .errorCall m => "Error function called: " ++ m
  | .typeError m => "Type error: " ++ m
  | .functionNotFound m => "Function not found: " ++ m
  | .variableNotFound m => "Variable not found: " ++ m
  | .formulaNotFound m => "Formula not found: " ++ m
  | .invalidArgument m => "Invalid argument: " ++ m
  | .dependencyError m => "Dependency error: " ++ m
  | .dateParseError m => "Date parsing error: " ++ m
  | .divisionByZero => "Division by zero"

/-- The body of the loop of `to_snake_case` in `src/function/mod.rs`: the
characters contributed for the character `ch` found at index `i` of `cs`
(an underscore is inserted before an uppercase character that is neither
first nor inside an uppercase run, then the lowercased character). -/
def snakePiece (cs : List Char) (i : Nat) (ch : Char) : List Char :=
  if ch.isUpper then
    (if 0 < i ∧ ((cs.getD (i - 1) ' ').isLower
        ∨ (i + 1 < cs.length ∧ (cs.getD (i + 1) ' ').isLower))
      then ['_'] else []) ++ [ch.toLower]
  else [ch]

/-- `to_snake_case` from `src/function/mod.rs` (ASCII fragment: Rust's
Unicode-aware `is_uppercase`/`is_lowercase`/`to_lowercase` agree with the
`Char.isUpper`/`Char.isLower`/`Char.toLower` used here on ASCII input). -/
def to_snake_case (s : String) : String :=
  let cs := s.toList
  String.mk (((List.range cs.length).map (fun i => snakePiece cs i (cs.getD i ' '))).flatten)

/-- `build_function_id` from `src/function/mod.rs`:
`snake_case(name) + "_" + num_args`. -/
def build_function_id (name : String) (numArgs : Nat) : String :=
  to_snake_case name ++ "_" ++ toString numArgs

/-! ## Exact rational model of the `f64` operations

The library's `Rat.add` and friends are `@[irreducible]`, so the arithmetic
used by the embedding is written directly through `mkRat`, which computes by
kernel reduction.  Each operation agrees with the mathematical rational
operation; bridge lemmas below relate them to `ℚ`'s own arithmetic. -/

/-- `f64` addition (exact on ℚ). -/
def ratAdd (a b : ℚ) : ℚ :=
  mkRat (a.num * Int.ofNat b.den + b.num * Int.ofNat a.den) (a.den * b.den)

/-- `f64` multiplication (exact on ℚ). -/
def ratMul (a b : ℚ) : ℚ := mkRat (a.num * b.num) (a.den * b.den)

/-- `f64` negation (exact on ℚ). -/
def ratNeg (a : ℚ) : ℚ := mkRat (-a.num) a.den

/-- `f64` subtraction (exact on ℚ). -/
def ratSub (a b : ℚ) : ℚ := ratAdd a (ratNeg b)

/-- `f64` division (exact on ℚ); the evaluator only reaches it with a
non-zero divisor (`Expr::Divide` tests the divisor first). -/
def ratDiv (a b : ℚ) : ℚ :=
  let n := a.num * Int.ofNat b.den
  let d := Int.ofNat a.den * b.num
  if d < 0 then mkRat (-n) (-d).toNat else mkRat n d.toNat

/-- Embed an integer into the rational model. -/
def intToRat (n : Int) : ℚ := mkRat n 1

/-- Rust `as usize` on an `f64`: truncate toward zero, negative values and
values below one collapse to `0`.  (Saturation at `usize::MAX` is
irrelevant: every use feeds `skip`/`take`/padding, which clamp anyway.) -/
def rustUsize (q : ℚ) : Nat := if q.num ≤ 0 then 0 else (Rat.floor q).toNat

/-- Rust `as i32` / `as i64` on an `f64`: truncate toward zero. -/
def rustTruncInt (q : ℚ) : Int :=
  if q.num < 0 then -(Rat.floor (ratNeg q)) else Rat.floor q

/-- `a^n` for natural `n`, by repeated `ratMul`. -/
def powNat (a : ℚ) : Nat → ℚ
  | 0 => mkRat 1 1
  | n + 1 => ratMul a (powNat a n)

/-- `f64::powf`, modelled on the integer exponents where IEEE `pow` is exact
on the values this development evaluates; a non-integer exponent (whose IEEE
result is irrational in general) is mapped to `0` and is reached by no claim. -/
def rustPowf (a b : ℚ) : ℚ :=
  if b.den = 1 then
    if 0 ≤ b.num then powNat a b.num.toNat
    else ratDiv (mkRat 1 1) (powNat a (-b.num).toNat)
  else mkRat 0 1

/-- `f64::round`: round half away from zero. -/
def ratRound (q : ℚ) : Int :=
  if q.num < 0 then -(Rat.floor (ratAdd (ratNeg q) (mkRat 1 2)))
  else Rat.floor (ratAdd q (mkRat 1 2))

/-- `10f64.powi d` as used by `Rnd`. -/
def ratPow10 (d : Int) : ℚ :=
  if 0 ≤ d then mkRat (Int.ofNat (10 ^ d.toNat)) 1 else mkRat 1 (10 ^ (-d).toNat)

/-- Rust `%` on `f64`: remainder truncated toward zero.  `x % 0.0` is IEEE
NaN, which has no rational counterpart; it is mapped to `0` and is reached by
no claim (the spec and claims only concern `Divide`'s zero test). -/
def rustRem (a b : ℚ) : ℚ :=
  if b.num = 0 then mkRat 0 1
  else ratSub a (ratMul b (intToRat (rustTruncInt (ratDiv a b))))

/-- Codepoint-lexicographic order on char lists (Rust's byte order on `String`
agrees with it on ASCII), written as a boolean so it computes. -/
def charsLt : List Char → List Char → Bool
  | [], [] => false
  | [], _ :: _ => true
  | _ :: _, [] => false
  | a :: as, b :: bs =>
      if a.toNat < b.toNat then true
      else if b.toNat < a.toNat then false
      else charsLt as bs

/-- `PartialOrd for Value`, instantiated with the computing comparisons. -/
def valueCmp : Value → Value → Option Ordering :=
  valueCmpWith Rat.blt (fun a b => charsLt a.toList b.toList)

/-! ## The AST of `src/parser/ast.rs` -/

/-- `Expr` from `src/parser/ast.rs`.  `DifferenceInMonths` (the token name of
`src/parser/lexer.rs`) and `GetDiffMonths` (the node name the evaluator
matches) denote the same binary built-in; the AST node is named
`getDiffMonths` here, per the design note of the spec. -/
inductive Expr where
  | number (n : ℚ)
  | string (s : String)
  | bool (b : Bool)
  | identifier (name : String)
  | add (l r : Expr)
  | subtract (l r : Expr)
  | multiply (l r : Expr)
  | divide (l r : Expr)
  | power (l r : Expr)
  | modulo (l r : Expr)
  | equal (l r : Expr)
  | notEqual (l r : Expr)
  | lessThan (l r : Expr)
  | greaterThan (l r : Expr)
  | lessThanOrEqual (l r : Expr)
  | greaterThanOrEqual (l r : Expr)
  | and (l r : Expr)
  | or (l r : Expr)
  | not (e : Expr)
  | unaryMinus (e : Expr)
  | functionCall (name : String) (args : List Expr)
  | max (l r : Expr)
  | min (l r : Expr)
  | rnd (l r : Expr)
  | ceil (e : Expr)
  | floor (e : Expr)
  | exp (e : Expr)
  | year (e : Expr)
  | month (e : Expr)
  | day (e : Expr)
  | substr (a b c : Expr)
  | addDays (a b : Expr)
  | getDiffDays (a b : Expr)
  | paddedString (a b : Expr)
  | getDiffMonths (a b : Expr)
  | getOutputFrom (a : Expr)

/-- `Statement` from `src/parser/ast.rs`. -/
inductive Statement where
  | returnS (e : Expr)
  | ifS (condition : Expr) (thenBlock : Statement)
      (elseIfs : List (Expr × Statement)) (elseBlock : Option Statement)
  | errorS (e : Expr)

/-- `Program` from `src/parser/ast.rs`. -/
structure Program where
  statement : Statement

/-! ## The evaluator of `src/parser/evaluator.rs` -/

/-- The calendar fields `chrono` exposes of a parsed `NaiveDateTime` that the
evaluator reads (`year()`, `month()`, `day()`). -/
structure DateRec where
  year : Int
  month : Int
  day : Int
deriving DecidableEq, Repr

/-- Modelled from the spec: the operations the evaluator delegates to code
outside this repository — the `chrono` crate's date parsing, formatting and
arithmetic, and the IEEE transcendental `exp` (whose values are not rational).
They are parameters of the evaluator; no claim in this development depends on
their behaviour. -/
structure ExternOps where
  parseDate : String → Except CalcError DateRec
  addDaysFmt : DateRec → Int → String
  diffDays : DateRec → DateRec → Int
  fexp : ℚ → ℚ

/-- A host-registered function: `Function::execute` from
`src/function/mod.rs`. -/
def FuncImpl : Type := List Value → Except CalcError Value

/-- The read-only part of the caches cloned into an `Evaluator`
(`src/parser/evaluator.rs`): the variable cache, the formula-result cache and
the function registry.  The function-result cache is mutated during
evaluation and is threaded explicitly.  Rust `HashMap`s are association
lists whose `set` prepends (insert-replace semantics under first-match
lookup). -/
structure Env where
  xops : ExternOps
  variableCache : List (String × Value)
  formulaResultCache : List (String × Value)
  functionCache : List (String × FuncImpl)

/-- The result-with-cache pair every evaluation step produces: mutations of
the shared function-result cache persist even when evaluation fails. -/
abbrev EvalRes := Except CalcError Value × List (String × Value)

/-- Sequencing of evaluation steps: errors short-circuit but keep the cache
mutations already performed (shared-cache semantics of the Rust code). -/
def bindE (r : EvalRes) (f : Value → List (String × Value) → EvalRes) : EvalRes :=
  match r with
  | (Except.ok v, c) => f v c
  | (Except.error e, c) => (Except.error e, c)

/-- The `(Value::Number, Value::Number)` match arm shared by the binary
numeric operators: anything else is a type error with the given message. -/
def numBin (msg : String) (op : ℚ → ℚ → EvalRes) (lv rv : Value)
    (c : List (String × Value)) : EvalRes :=
  match lv, rv with
  | Value.num a, Value.num b => op a b
  | _, _ => (Except.error (CalcError.typeError msg), c)

/-- Evaluate a list of expressions left to right, threading the
function-result cache (the argument loop of `Expr::FunctionCall`). -/
def evalSeq (ev : Expr → List (String × Value) → EvalRes) :
    List Expr → List (String × Value) →
    Except CalcError (List Value) × List (String × Value)
  | [], c => (Except.ok [], c)
  | a :: as, c =>
      match ev a c with
      | (Except.error e, c1) => (Except.error e, c1)
      | (Except.ok v, c1) =>
          match evalSeq ev as c1 with
          | (Except.error e, c2) => (Except.error e, c2)
          | (Except.ok vs, c2) => (Except.ok (v :: vs), c2)

/-- `Evaluator::evaluate_expr` from `src/parser/evaluator.rs`.  The fuel
argument only serves to present the recursion through the nested
`List Expr` of `FunctionCall` structurally; a fuel of `sizeOf e` always
suffices (every step consumes one unit and moves to a proper subterm), and
every caller below supplies at least that. -/
def evalExpr (env : Env) : Nat → Expr → List (String × Value) → EvalRes
  | 0, _, c => (Except.error (CalcError.evalError "fuel exhausted"), c)
  | n + 1, e, c =>
    match e with
    | Expr.number q => (Except.ok (Value.num q), c)
    | Expr.string s => (Except.ok (Value.str s), c)
    | Expr.bool b => (Except.ok (Value.bool b), c)
    | Expr.identifier name =>
        match env.variableCache.lookup name with
        | some v => (Except.ok v, c)
        | none => (Except.error (CalcError.variableNotFound name), c)
    | Expr.add l r =>
        bindE (evalExpr env n l c) fun lv c1 =>
        bindE (evalExpr env n r c1) fun rv c2 =>
        match lv, rv with
        | Value.num a, Value.num b => (Except.ok (Value.num (ratAdd a b)), c2)
        | a, b => (Except.ok (Value.str (a.get ++ b.get)), c2)
    | Expr.subtract l r =>
        bindE (evalExpr env n l c) fun lv c1 =>
        bindE (evalExpr env n r c1) fun rv c2 =>
        numBin "Subtraction requires numbers"
          (fun a b => (Except.ok (Value.num (ratSub a b)), c2)) lv rv c2
    | Expr.multiply l r =>
        bindE (evalExpr env n l c) fun lv c1 =>
        bindE (evalExpr env n r c1) fun rv c2 =>
        numBin "Multiplication requires numbers"
          (fun a b => (Except.ok (Value.num (ratMul a b)), c2)) lv rv c2
    | Expr.divide l r =>
        bindE (evalExpr env n l c) fun lv c1 =>
        bindE (evalExpr env n r c1) fun rv c2 =>
        numBin "Division requires numbers"
          (fun a b =>
            if b.num = 0 then (Except.error CalcError.divisionByZero, c2)
            else (Except.ok (Value.num (ratDiv a b)), c2)) lv rv c2
    | Expr.power l r =>
        bindE (evalExpr env n l c) fun lv c1 =>
        bindE (evalExpr env n r c1) fun rv c2 =>
        numBin "Power requires numbers"
          (fun a b => (Except.ok (Value.num (rustPowf a b)), c2)) lv rv c2
    | Expr.modulo l r =>
        bindE (evalExpr env n l c) fun lv c1 =>
        bindE (evalExpr env n r c1) fun rv c2 =>
        numBin "Modulo requires numbers"
          (fun a b => (Except.ok (Value.num (rustRem a b)), c2)) lv rv c2
    | Expr.equal l r =>
        bindE (evalExpr env n l c) fun lv c1 =>
        bindE (evalExpr env n r c1) fun rv c2 =>
        (Except.ok (Value.bool (decide (lv = rv))), c2)
    | Expr.notEqual l r =>
        bindE (evalExpr env n l c) fun lv c1 =>
        bindE (evalExpr env n r c1) fun rv c2 =>
        (Except.ok (Value.bool (decide (lv ≠ rv))), c2)
    | Expr.lessThan l r =>
        bindE (evalExpr env n l c) fun lv c1 =>
        bindE (evalExpr env n r c1) fun rv c2 =>
        match valueCmp lv rv with
        | some ord => (Except.ok (Value.bool (decide (ord = Ordering.lt))), c2)
        | none =>
            (Except.error (CalcError.typeError "Cannot compare values of different types"), c2)
    | Expr.greaterThan l r =>
        bindE (evalExpr env n l c) fun lv c1 =>
        bindE (evalExpr env n r c1) fun rv c2 =>
        match valueCmp lv rv with
        | some ord => (Except.ok (Value.bool (decide (ord = Ordering.gt))), c2)
        | none =>
            (Except.error (CalcError.typeError "Cannot compare values of different types"), c2)
    | Expr.lessThanOrEqual l r =>
        bindE (evalExpr env n l c) fun lv c1 =>
        bindE (evalExpr env n r c1) fun rv c2 =>
        match valueCmp lv rv with
        | some ord => (Except.ok (Value.bool (decide (ord ≠ Ordering.gt))), c2)
        | none =>
            (Except.error (CalcError.typeError "Cannot compare values of different types"), c2)
    | Expr.greaterThanOrEqual l r =>
        bindE (evalExpr env n l c) fun lv c1 =>
        bindE (evalExpr env n r c1) fun rv c2 =>
        match valueCmp lv rv with
        | some ord => (Except.ok (Value.bool (decide (ord ≠ Ordering.lt))), c2)
        | none =>
            (Except.error (CalcError.typeError "Cannot compare values of different types"), c2)
    | Expr.and l r =>
        bindE (evalExpr env n l c) fun lv c1 =>
        bindE (evalExpr env n r c1) fun rv c2 =>
        match lv, rv with
        | Value.bool a, Value.bool b => (Except.ok (Value.bool (a && b)), c2)
        | _, _ => (Except.error (CalcError.typeError "Logical AND requires booleans"), c2)
    | Expr.or l r =>
        bindE (evalExpr env n l c) fun lv c1 =>
        bindE (evalExpr env n r c1) fun rv c2 =>
        match lv, rv with
        | Value.bool a, Value.bool b => (Except.ok (Value.bool (a || b)), c2)
        | _, _ => (Except.error (CalcError.typeError "Logical OR requires booleans"), c2)
    | Expr.not e1 =>
        bindE (evalExpr env n e1 c) fun v c1 =>
        match v with
        | Value.bool b => (Except.ok (Value.bool (!b)), c1)
        | _ => (Except.error (CalcError.typeError "Logical NOT requires boolean"), c1)
    | Expr.unaryMinus e1 =>
        bindE (evalExpr env n e1 c) fun v c1 =>
        match v with
        | Value.num q => (Except.ok (Value.num (ratNeg q)), c1)
        | _ => (Except.error (CalcError.typeError "Unary minus requires number"), c1)
    | Expr.max l r =>
        bindE (evalExpr env n l c) fun lv c1 =>
        bindE (evalExpr env n r c1) fun rv c2 =>
        numBin "Max requires numbers"
          (fun a b => (Except.ok (Value.num (if Rat.blt a b then b else a)), c2)) lv rv c2
    | Expr.min l r =>
        bindE (evalExpr env n l c) fun lv c1 =>
        bindE (evalExpr env n r c1) fun rv c2 =>
        numBin "Min requires numbers"
          (fun a b => (Except.ok (Value.num (if Rat.blt b a then b else a)), c2)) lv rv c2
    | Expr.rnd l r =>
        bindE (evalExpr env n l c) fun lv c1 =>
        bindE (evalExpr env n r c1) fun rv c2 =>
        numBin "Rnd requires numbers"
          (fun v d =>
            let factor := ratPow10 (rustTruncInt d)
            (Except.ok (Value.num (ratDiv (intToRat (ratRound (ratMul v factor))) factor)), c2))
          lv rv c2
    | Expr.ceil e1 =>
        bindE (evalExpr env n e1 c) fun v c1 =>
        match v with
        | Value.num q => (Except.ok (Value.num (intToRat (Rat.ceil q))), c1)
        | _ => (Except.error (CalcError.typeError "Ceil requires number"), c1)
    | Expr.floor e1 =>
        bindE (evalExpr env n e1 c) fun v c1 =>
        match v with
        | Value.num q => (Except.ok (Value.num (intToRat (Rat.floor q))), c1)
        | _ => (Except.error (CalcError.typeError "Floor requires number"), c1)
    | Expr.exp e1 =>
        bindE (evalExpr env n e1 c) fun v c1 =>
        match v with
        | Value.num q => (Except.ok (Value.num (env.xops.fexp q)), c1)
        | _ => (Except.error (CalcError.typeError "Exp requires number"), c1)
    | Expr.year e1 =>
        bindE (evalExpr env n e1 c) fun v c1 =>
        match v with
        | Value.str s =>
            (match env.xops.parseDate s with
             | Except.ok d => (Except.ok (Value.num (intToRat d.year)), c1)
             | Except.error er => (Except.error er, c1))
        | _ => (Except.error (CalcError.typeError "Year requires string date"), c1)
    | Expr.month e1 =>
        bindE (evalExpr env n e1 c) fun v c1 =>
        match v with
        | Value.str s =>
            (match env.xops.parseDate s with
             | Except.ok d => (Except.ok (Value.num (intToRat d.month)), c1)
             | Except.error er => (Except.error er, c1))
        | _ => (Except.error (CalcError.typeError "Month requires string date"), c1)
    | Expr.day e1 =>
        bindE (evalExpr env n e1 c) fun v c1 =>
        match v with
        | Value.str s =>
            (match env.xops.parseDate s with
             | Except.ok d => (Except.ok (Value.num (intToRat d.day)), c1)
             | Except.error er => (Except.error er, c1))
        | _ => (Except.error (CalcError.typeError "Day requires string date"), c1)
    | Expr.substr se ste le =>
        bindE (evalExpr env n se c) fun sv c1 =>
        bindE (evalExpr env n ste c1) fun stv c2 =>
        bindE (evalExpr env n le c2) fun lv c3 =>
        match sv, stv, lv with
        | Value.str s, Value.num start, Value.num len =>
            (Except.ok (Value.str
              (String.mk ((s.toList.drop (rustUsize start)).take (rustUsize len)))), c3)
        | _, _, _ =>
            (Except.error (CalcError.typeError "Substr requires (string, number, number)"), c3)
    | Expr.addDays de ne2 =>
        bindE (evalExpr env n de c) fun dv c1 =>
        bindE (evalExpr env n ne2 c1) fun nv c2 =>
        match dv, nv with
        | Value.str s, Value.num days =>
            (match env.xops.parseDate s with
             | Except.ok d =>
                 (Except.ok (Value.str (env.xops.addDaysFmt d (rustTruncInt days))), c2)
             | Except.error er => (Except.error er, c2))
        | _, _ =>
            (Except.error (CalcError.typeError "AddDays requires (string date, number)"), c2)
    | Expr.getDiffDays d1e d2e =>
        bindE (evalExpr env n d1e c) fun v1 c1 =>
        bindE (evalExpr env n d2e c1) fun v2 c2 =>
        match v1, v2 with
        | Value.str s1, Value.str s2 =>
            (match env.xops.parseDate s1 with
             | Except.error er => (Except.error er, c2)
             | Except.ok d1 =>
                 match env.xops.parseDate s2 with
                 | Except.error er => (Except.error er, c2)
                 | Except.ok d2 =>
                     (Except.ok (Value.num (intToRat (env.xops.diffDays d1 d2))), c2))
        | _, _ =>
            (Except.error (CalcError.typeError "GetDiffDays requires two string dates"), c2)
    | Expr.paddedString se we =>
        bindE (evalExpr env n se c) fun sv c1 =>
        bindE (evalExpr env n we c1) fun wv c2 =>
        match sv, wv with
        | Value.str s, Value.num w =>
            let width := rustUsize w
            (Except.ok (Value.str
              (String.mk (List.replicate (width - s.toList.length) '0' ++ s.toList))), c2)
        | _, _ =>
            (Except.error (CalcError.typeError "PaddedString requires (string, number)"), c2)
    | Expr.getDiffMonths d1e d2e =>
        bindE (evalExpr env n d1e c) fun v1 c1 =>
        bindE (evalExpr env n d2e c1) fun v2 c2 =>
        match v1, v2 with
        | Value.str s1, Value.str s2 =>
            (match env.xops.parseDate s1 with
             | Except.error er => (Except.error er, c2)
             | Except.ok d1 =>
                 match env.xops.parseDate s2 with
                 | Except.error er => (Except.error er, c2)
                 | Except.ok d2 =>
                     (Except.ok (Value.num (intToRat
                       (((d1.year - d2.year) * 12 + (d1.month - d2.month)).natAbs))), c2))
        | _, _ =>
            (Except.error (CalcError.typeError "GetDiffMonths requires two string dates"), c2)
    | Expr.getOutputFrom fe =>
        bindE (evalExpr env n fe c) fun v c1 =>
        match v with
        | Value.str name =>
            (match env.formulaResultCache.lookup name with
             | some rv => (Except.ok rv, c1)
             | none => (Except.error (CalcError.formulaNotFound name), c1))
        | _ => (Except.error (CalcError.typeError "GetOutputFrom requires string"), c1)
    | Expr.functionCall name args =>
        let fid := build_function_id name args.length
        match c.lookup fid with
        | some cached => (Except.ok cached, c)
        | none =>
            match env.functionCache.lookup fid with
            | none => (Except.error (CalcError.functionNotFound fid), c)
            | some f =>
                match evalSeq (evalExpr env n) args c with
                | (Except.error er, c1) => (Except.error er, c1)
                | (Except.ok vs, c1) =>
                    match f vs with
                    | Except.error er => (Except.error er, c1)
                    | Except.ok v => (Except.ok v, (fid, v) :: c1)

/-- The `else_ifs` loop of `Evaluator::evaluate_statement`. -/
def evalElseIfs (evE : Expr → List (String × Value) → EvalRes)
    (evS : Statement → List (String × Value) → EvalRes)
    (elseB : Option Statement) :
    List (Expr × Statement) → List (String × Value) → EvalRes
  | [], c =>
      match elseB with
      | some b => evS b c
      | none => (Except.error (CalcError.evalError "No matching condition"), c)
  | (cond, blk) :: rest, c =>
      bindE (evE cond c) fun v c1 =>
        match v.asBool with
        | none => (Except.error (CalcError.typeError "Else-if condition must be boolean"), c1)
        | some b => if b then evS blk c1 else evalElseIfs evE evS elseB rest c1

/-- `Evaluator::evaluate_statement` from `src/parser/evaluator.rs` (fuel as
in `evalExpr`; `sizeOf` of the statement always suffices). -/
def evalStatement (env : Env) : Nat → Statement → List (String × Value) → EvalRes
  | 0, _, c => (Except.error (CalcError.evalError "fuel exhausted"), c)
  | n + 1, s, c =>
    match s with
    | Statement.returnS e => evalExpr env n e c
    | Statement.errorS e =>
        bindE (evalExpr env n e c) fun v c1 =>
        (Except.error (CalcError.errorCall
          (match v with
           | Value.str s1 => "Error function called with message: " ++ s1
           | Value.num q => "Error function called with code: " ++ numToString q
           | Value.bool b => "Error function called with value: " ++ (if b then "true" else "false"))), c1)
    | Statement.ifS cond thenB elseIfs elseB =>
        bindE (evalExpr env n cond c) fun v c1 =>
        match v.asBool with
        | none => (Except.error (CalcError.typeError "Condition must be boolean"), c1)
        | some b =>
            if b then evalStatement env n thenB c1
            else evalElseIfs (evalExpr env n) (evalStatement env n) elseB elseIfs c1

/-- `Evaluator::evaluate` from `src/parser/evaluator.rs`.  The fuel is the
caller's bound on the AST depth (the engine passes the length of the formula
body plus one, which dominates the token count and hence the AST depth). -/
def evaluate (env : Env) (fuel : Nat) (p : Program) (c : List (String × Value)) : EvalRes :=
  evalStatement env fuel p.statement c

/-! ## The scanner of `src/parser/lexer.rs`

The lexer walks the character array by index exactly as the Rust code does;
its loops carry fuel (`input.length + 1` always suffices: every iteration
advances the position, which is bounded by the length).  Rust's
`is_whitespace` / `is_alphanumeric` are Unicode-aware; the `Char.isWhitespace`
/ `Char.isAlphanum` used here agree with them on ASCII input. -/

/-- The single-quote character delimiting string literals. -/
def quoteChar : Char := Char.ofNat 39

/-- The backslash escape character. -/
def backslashChar : Char := Char.ofNat 92

/-- `Token` from `src/parser/lexer.rs`. -/
inductive Token where
  | number (n : ℚ)
  | string (s : String)
  | bool (b : Bool)
  | identifier (s : String)
  | ifT
  | thenT
  | elseT
  | endT
  | returnT
  | orT
  | andT
  | modT
  | maxT
  | minT
  | rndT
  | ceilT
  | floorT
  | expT
  | yearT
  | monthT
  | dayT
  | substrT
  | errorT
  | addDaysT
  | getDiffDaysT
  | paddedStringT
  | differenceInMonthsT
  | getOutputFromT
  | plus
  | minus
  | multiply
  | divide
  | power
  | equal
  | notEqual
  | greaterThan
  | lessThan
  | greaterThanOrEqual
  | lessThanOrEqual
  | notT
  | leftParen
  | rightParen
  | comma
  | eof
deriving DecidableEq, Repr

/-- `Lexer::current_char`: the character at the position, `'\0'` past the
end. -/
def currentChar (input : List Char) (pos : Nat) : Char := input.getD pos (Char.ofNat 0)

/-- The digit-consuming loops of `Lexer::read_number`: first position at or
after `pos` holding no ASCII digit. -/
def takeDigits (input : List Char) : Nat → Nat → Nat
  | 0, pos => pos
  | f + 1, pos =>
      if pos < input.length ∧ (currentChar input pos).isDigit
      then takeDigits input f (pos + 1) else pos

/-- Digit run to a natural number. -/
def digitsToNat (cs : List Char) : Nat :=
  cs.foldl (fun acc c => acc * 10 + (c.toNat - 48)) 0

/-- The numeric value of a lexeme `digits [ '.' digits ]`, exactly (Rust
parses the lexeme as `f64`, which is exact on the integral literals every
proved statement evaluates). -/
def parseNumLit (cs : List Char) : ℚ :=
  let ip := cs.takeWhile (fun c => c ≠ '.')
  let fp := (cs.dropWhile (fun c => c ≠ '.')).drop 1
  ratAdd (mkRat (Int.ofNat (digitsToNat ip)) 1)
    (mkRat (Int.ofNat (digitsToNat fp)) (10 ^ fp.length))

/-- `Lexer::read_number`: digits, optionally `.` and more digits; returns the
token and the next position. -/
def readNumber (input : List Char) (pos : Nat) : Token × Nat :=
  let p1 := takeDigits input (input.length + 1) pos
  let p2 :=
    if p1 < input.length ∧ currentChar input p1 = '.'
    then takeDigits input (input.length + 1) (p1 + 1) else p1
  (Token.number (parseNumLit ((input.drop pos).take (p2 - pos))), p2)

/-- The body loop of `Lexer::read_string`: consume until an unescaped quote,
passing the character after a backslash through literally; returns the
collected characters and the stopping position. -/
def readStringLoop (input : List Char) : Nat → Nat → List Char → List Char × Nat
  | 0, pos, acc => (acc, pos)
  | f + 1, pos, acc =>
      if pos < input.length ∧ currentChar input pos ≠ quoteChar then
        if currentChar input pos = backslashChar then
          if pos + 1 < input.length
          then readStringLoop input f (pos + 2) (acc ++ [currentChar input (pos + 1)])
          else readStringLoop input f (pos + 1) acc
        else readStringLoop input f (pos + 1) (acc ++ [currentChar input pos])
      else (acc, pos)

/-- `Lexer::read_string` (the caller has consumed nothing; `pos` is at the
opening quote). -/
def readStringTok (input : List Char) (pos : Nat) : Except CalcError (Token × Nat) :=
  let r := readStringLoop input (input.length + 1) (pos + 1) []
  if r.2 ≥ input.length then Except.error (CalcError.parseError "Unterminated string")
  else Except.ok (Token.string (String.mk r.1), r.2 + 1)

/-- The keyword / built-in table of `Lexer::read_identifier_or_keyword`,
matched against the lowercased lexeme. -/
def keywordToken (lower : String) (text : String) : Token :=
  if lower = "if" then Token.ifT
  else if lower = "then" then Token.thenT
  else if lower = "else" then Token.elseT
  else if lower = "end" then Token.endT
  else if lower = "return" then Token.returnT
  else if lower = "or" then Token.orT
  else if lower = "and" then Token.andT
  else if lower = "mod" then Token.modT
  else if lower = "max" then Token.maxT
  else if lower = "min" then Token.minT
  else if lower = "rnd" then Token.rndT
  else if lower = "ceil" then Token.ceilT
  else if lower = "floor" then Token.floorT
  else if lower = "exp" then Token.expT
  else if lower = "year" then Token.yearT
  else if lower = "month" then Token.monthT
  else if lower = "day" then Token.dayT
  else if lower = "substr" then Token.substrT
  else if lower = "error" then Token.errorT
  else if lower = "add_days" then Token.addDaysT
  else if lower = "get_diff_days" then Token.getDiffDaysT
  else if lower = "padded_string" then Token.paddedStringT
  else if lower = "difference_in_months" then Token.differenceInMonthsT
  else if lower = "get_output_from" then Token.getOutputFromT
  else if lower = "true" then Token.bool true
  else if lower = "false" then Token.bool false
  else Token.identifier text

/-- ASCII lowercasing of a string (Rust's `str::to_lowercase` on the ASCII
lexemes the scanner produces), written over the char list so it computes. -/
def lowerStr (s : String) : String := String.mk (s.toList.map Char.toLower)

/-- `Lexer::read_identifier_or_keyword`: alphanumeric / underscore run,
case-insensitive keyword lookup, case-preserving identifiers. -/
def readIdent (input : List Char) (pos : Nat) : Token × Nat :=
  let p1 := (takeIdentChars input (input.length + 1) pos)
  let text := String.mk ((input.drop pos).take (p1 - pos))
  (keywordToken (lowerStr text) text, p1)
where
  takeIdentChars (input : List Char) : Nat → Nat → Nat
    | 0, pos => pos
    | f + 1, pos =>
        if pos < input.length ∧ ((currentChar input pos).isAlphanum ∨ currentChar input pos = '_')
        then takeIdentChars input f (pos + 1) else pos

/-- `Lexer::next_token` (`pos` is at a non-whitespace character inside the
input). -/
def nextToken (input : List Char) (pos : Nat) : Except CalcError (Token × Nat) :=
  let ch := currentChar input pos
  if ch.isDigit then Except.ok (readNumber input pos)
  else if ch = quoteChar then readStringTok input pos
  else if ch.isAlpha ∨ ch = '_' then Except.ok (readIdent input pos)
  else if ch = '+' then Except.ok (Token.plus, pos + 1)
  else if ch = '-' then Except.ok (Token.minus, pos + 1)
  else if ch = '*' then Except.ok (Token.multiply, pos + 1)
  else if ch = '/' then Except.ok (Token.divide, pos + 1)
  else if ch = '^' then Except.ok (Token.power, pos + 1)
  else if ch = '=' then Except.ok (Token.equal, pos + 1)
  else if ch = '!' then Except.ok (Token.notT, pos + 1)
  else if ch = '<' then
    (if currentChar input (pos + 1) = '>' then Except.ok (Token.notEqual, pos + 2)
     else if currentChar input (pos + 1) = '=' then Except.ok (Token.lessThanOrEqual, pos + 2)
     else Except.ok (Token.lessThan, pos + 1))
  else if ch = '>' then
    (if currentChar input (pos + 1) = '=' then Except.ok (Token.greaterThanOrEqual, pos + 2)
     else Except.ok (Token.greaterThan, pos + 1))
  else if ch = '(' then Except.ok (Token.leftParen, pos + 1)
  else if ch = ')' then Except.ok (Token.rightParen, pos + 1)
  else if ch = ',' then Except.ok (Token.comma, pos + 1)
  else Except.error (CalcError.parseError ("Unexpected character: " ++ String.mk [ch]))

/-- The line-comment loop of `Lexer::skip_whitespace_and_comments`. -/
def skipLineComment (input : List Char) : Nat → Nat → Nat
  | 0, pos => pos
  | f + 1, pos =>
      if pos < input.length ∧ currentChar input pos ≠ '\n'
      then skipLineComment input f (pos + 1) else pos

/-- The block-comment loop of `Lexer::skip_whitespace_and_comments` (the two
characters `/*` are already consumed; note the Rust loop's `len - 1` bound,
which can leave the final character of an unterminated comment unconsumed). -/
def skipBlockComment (input : List Char) : Nat → Nat → Nat
  | 0, pos => pos
  | f + 1, pos =>
      if pos < input.length - 1 then
        if currentChar input pos = '*' ∧ currentChar input (pos + 1) = '/' then pos + 2
        else skipBlockComment input f (pos + 1)
      else pos

/-- `Lexer::skip_whitespace_and_comments`. -/
def skipWsComments (input : List Char) : Nat → Nat → Nat
  | 0, pos => pos
  | f + 1, pos =>
      if pos < input.length then
        let ch := currentChar input pos
        if ch.isWhitespace then skipWsComments input f (pos + 1)
        else if ch = '/' ∧ input.get? (pos + 1) = some '/' then
          skipWsComments input f (skipLineComment input (input.length + 1) pos)
        else if ch = '/' ∧ input.get? (pos + 1) = some '*' then
          skipWsComments input f (skipBlockComment input (input.length + 1) (pos + 2))
        else pos
      else pos

/-- The main loop of `Lexer::tokenize`. -/
def tokenizeLoop (input : List Char) : Nat → Nat → List Token → Except CalcError (List Token)
  | 0, _, _ => Except.error (CalcError.parseError "fuel exhausted")
  | f + 1, pos, acc =>
      if pos < input.length then
        let pos1 := skipWsComments input (input.length + 1) pos
        if pos1 ≥ input.length then Except.ok (acc ++ [Token.eof])
        else
          match nextToken input pos1 with
          | Except.error e => Except.error e
          | Except.ok (t, pos2) => tokenizeLoop input f pos2 (acc ++ [t])
      else Except.ok (acc ++ [Token.eof])

/-- `Lexer::tokenize`. -/
def tokenize (s : String) : Except CalcError (List Token) :=
  tokenizeLoop s.toList (s.toList.length + 1) 0 []

instance exceptDecEq {ε α : Type} [DecidableEq ε] [DecidableEq α] :
    DecidableEq (Except ε α) := fun a b =>
  match a, b with
  | .ok x, .ok y =>
      if h : x = y then .isTrue (congrArg _ h)
      else .isFalse (fun hh => h (Except.ok.inj hh))
  | .ok _, .error _ => .isFalse (fun hh => Except.noConfusion hh)
  | .error _, .ok _ => .isFalse (fun hh => Except.noConfusion hh)
  | .error x, .error y =>
      if h : x = y then .isTrue (congrArg _ h)
      else .isFalse (fun hh => h (Except.error.inj hh))

/-! ## The recursive-descent analysis of `src/parser/parser.rs`

State is the token list plus a position, as in the Rust struct.  The
recursion through nested expressions is tied with a fuel knot
(`parseExprFuel`); every operator loop carries its own fuel of
`tokens.length + 1`, which suffices because every iteration consumes at
least one token.  Parse-error *message* texts (Rust's `{:?}` Debug
renderings) are not reproduced; no statement below concerns them. -/

/-- `Parser::current_token`.  (The Rust code indexes the vector and would
panic past the end; the position stays within bounds on every input a proved
statement parses, and `Token.eof` is used as the out-of-bounds default.) -/
def currentToken (toks : List Token) (pos : Nat) : Token := toks.getD pos Token.eof

/-- `std::mem::discriminant` comparison of `Parser::check_token`: tokens of
the same constructor, payloads ignored. -/
def sameKind : Token → Token → Bool
  | .number _, .number _ => true
  | .string _, .string _ => true
  | .bool _, .bool _ => true
  | .identifier _, .identifier _ => true
  | .ifT, .ifT => true
  | .thenT, .thenT => true
  | .elseT, .elseT => true
  | .endT, .endT => true
  | .returnT, .returnT => true
  | .orT, .orT => true
  | .andT, .andT => true
  | .modT, .modT => true
  | .maxT, .maxT => true
  | .minT, .minT => true
  | .rndT, .rndT => true
  | .ceilT, .ceilT => true
  | .floorT, .floorT => true
  | .expT, .expT => true
  | .yearT, .yearT => true
  | .monthT, .monthT => true
  | .dayT, .dayT => true
  | .substrT, .substrT => true
  | .errorT, .errorT => true
  | .addDaysT, .addDaysT => true
  | .getDiffDaysT, .getDiffDaysT => true
  | .paddedStringT, .paddedStringT => true
  | .differenceInMonthsT, .differenceInMonthsT => true
  | .getOutputFromT, .getOutputFromT => true
  | .plus, .plus => true
  | .minus, .minus => true
  | .multiply, .multiply => true
  | .divide, .divide => true
  | .power, .power => true
  | .equal, .equal => true
  | .notEqual, .notEqual => true
  | .greaterThan, .greaterThan => true
  | .lessThan, .lessThan => true
  | .greaterThanOrEqual, .greaterThanOrEqual => true
  | .lessThanOrEqual, .lessThanOrEqual => true
  | .notT, .notT => true
  | .leftParen, .leftParen => true
  | .rightParen, .rightParen => true
  | .comma, .comma => true
  | .eof, .eof => true
  | _, _ => false

/-- `Parser::check_token`: `false` past the end, discriminant equality
otherwise. -/
def checkTok (toks : List Token) (t : Token) (pos : Nat) : Bool :=
  decide (pos < toks.length) && sameKind (currentToken toks pos) t

/-- `Parser::expect_token`: advance past a token of the expected kind, parse
error otherwise. -/
def expectToken (toks : List Token) (t : Token) (pos : Nat) : Except CalcError Nat :=
  if checkTok toks t pos then Except.ok (pos + 1)
  else Except.error (CalcError.parseError "Expected a different token")

/-- The fuel-exhaustion error (unreachable at the fuel bounds used). -/
def fuelErr {α : Type} : Except CalcError (α × Nat) :=
  Except.error (CalcError.parseError "fuel exhausted")

/-- `Parser::parse_argument_list`, comma loop. -/
def parseArgsLoop (pe : Nat → Except CalcError (Expr × Nat)) (toks : List Token) :
    Nat → List Expr → Nat → Except CalcError (List Expr × Nat)
  | 0, _, _ => fuelErr
  | f + 1, acc, pos =>
      if checkTok toks Token.comma pos then do
        let (e, p1) ← pe (pos + 1)
        parseArgsLoop pe toks f (acc ++ [e]) p1
      else Except.ok (acc, pos)

/-- `Parser::parse_argument_list`. -/
def parseArgumentList (pe : Nat → Except CalcError (Expr × Nat)) (toks : List Token) (pos : Nat) :
    Except CalcError (List Expr × Nat) :=
  if checkTok toks Token.rightParen pos then Except.ok ([], pos)
  else do
    let (e, p1) ← pe pos
    parseArgsLoop pe toks (toks.length + 1) [e] p1

/-- `Parser::parse_unary_function` (the position is at the built-in token). -/
def parseUnaryFn (pe : Nat → Except CalcError (Expr × Nat)) (toks : List Token)
    (ctor : Expr → Expr) (pos : Nat) : Except CalcError (Expr × Nat) := do
  let p1 ← expectToken toks Token.leftParen (pos + 1)
  let (a, p2) ← pe p1
  let p3 ← expectToken toks Token.rightParen p2
  Except.ok (ctor a, p3)

/-- `Parser::parse_binary_function`. -/
def parseBinaryFn (pe : Nat → Except CalcError (Expr × Nat)) (toks : List Token)
    (ctor : Expr → Expr → Expr) (pos : Nat) : Except CalcError (Expr × Nat) := do
  let p1 ← expectToken toks Token.leftParen (pos + 1)
  let (a, p2) ← pe p1
  let p3 ← expectToken toks Token.comma p2
  let (b, p4) ← pe p3
  let p5 ← expectToken toks Token.rightParen p4
  Except.ok (ctor a b, p5)

/-- `Parser::parse_ternary_function`. -/
def parseTernaryFn (pe : Nat → Except CalcError (Expr × Nat)) (toks : List Token)
    (ctor : Expr → Expr → Expr → Expr) (pos : Nat) : Except CalcError (Expr × Nat) := do
  let p1 ← expectToken toks Token.leftParen (pos + 1)
  let (a, p2) ← pe p1
  let p3 ← expectToken toks Token.comma p2
  let (b, p4) ← pe p3
  let p5 ← expectToken toks Token.comma p4
  let (c, p6) ← pe p5
  let p7 ← expectToken toks Token.rightParen p6
  Except.ok (ctor a b c, p7)

/-- `Parser::parse_primary`.  The `DifferenceInMonths` token parses to the
`getDiffMonths` AST node (the one built-in the two names denote). -/
def parsePrimary (pe : Nat → Except CalcError (Expr × Nat)) (toks : List Token) (pos : Nat) : Except CalcError (Expr × Nat) :=
  match currentToken toks pos with
  | Token.number n => Except.ok (Expr.number n, pos + 1)
  | Token.string s => Except.ok (Expr.string s, pos + 1)
  | Token.bool b => Except.ok (Expr.bool b, pos + 1)
  | Token.leftParen => do
      let (e, p1) ← pe (pos + 1)
      let p2 ← expectToken toks Token.rightParen p1
      Except.ok (e, p2)
  | Token.identifier name =>
      if checkTok toks Token.leftParen (pos + 1) then do
        let (args, p1) ← parseArgumentList pe toks (pos + 2)
        let p2 ← expectToken toks Token.rightParen p1
        Except.ok (Expr.functionCall name args, p2)
      else Except.ok (Expr.identifier name, pos + 1)
  | Token.maxT => parseBinaryFn pe toks Expr.max pos
  | Token.minT => parseBinaryFn pe toks Expr.min pos
  | Token.rndT => parseBinaryFn pe toks Expr.rnd pos
  | Token.ceilT => parseUnaryFn pe toks Expr.ceil pos
  | Token.floorT => parseUnaryFn pe toks Expr.floor pos
  | Token.expT => parseUnaryFn pe toks Expr.exp pos
  | Token.yearT => parseUnaryFn pe toks Expr.year pos
  | Token.monthT => parseUnaryFn pe toks Expr.month pos
  | Token.dayT => parseUnaryFn pe toks Expr.day pos
  | Token.substrT => parseTernaryFn pe toks Expr.substr pos
  | Token.addDaysT => parseBinaryFn pe toks Expr.addDays pos
  | Token.getDiffDaysT => parseBinaryFn pe toks Expr.getDiffDays pos
  | Token.paddedStringT => parseBinaryFn pe toks Expr.paddedString pos
  | Token.differenceInMonthsT => parseBinaryFn pe toks Expr.getDiffMonths pos
  | Token.getOutputFromT => parseUnaryFn pe toks Expr.getOutputFrom pos
  | _ => Except.error (CalcError.parseError "Unexpected token")

/-- `Parser::parse_unary` (`-` and `!` prefix operators, self-recursive). -/
def parseUnary (pe : Nat → Except CalcError (Expr × Nat)) (toks : List Token) :
    Nat → Nat → Except CalcError (Expr × Nat)
  | 0, _ => fuelErr
  | f + 1, pos =>
      if checkTok toks Token.minus pos then do
        let (e, p1) ← parseUnary pe toks f (pos + 1)
        Except.ok (Expr.unaryMinus e, p1)
      else if checkTok toks Token.notT pos then do
        let (e, p1) ← parseUnary pe toks f (pos + 1)
        Except.ok (Expr.not e, p1)
      else parsePrimary pe toks pos

/-- `Parser::parse_power` (`^`, right-associative by self-recursion). -/
def parsePower (pe : Nat → Except CalcError (Expr × Nat)) (toks : List Token) :
    Nat → Nat → Except CalcError (Expr × Nat)
  | 0, _ => fuelErr
  | f + 1, pos => do
      let (l, p1) ← parseUnary pe toks (toks.length + 1) pos
      if checkTok toks Token.power p1 then do
        let (r, p2) ← parsePower pe toks f (p1 + 1)
        Except.ok (Expr.power l r, p2)
      else Except.ok (l, p1)

/-- The `mod` loop of `Parser::parse_modulo`. -/
def parseModuloLoop (pe : Nat → Except CalcError (Expr × Nat)) (toks : List Token) :
    Nat → Expr → Nat → Except CalcError (Expr × Nat)
  | 0, _, _ => fuelErr
  | f + 1, left, pos =>
      if checkTok toks Token.modT pos then do
        let (r, p1) ← parsePower pe toks (toks.length + 1) (pos + 1)
        parseModuloLoop pe toks f (Expr.modulo left r) p1
      else Except.ok (left, pos)

/-- `Parser::parse_modulo`. -/
def parseModulo (pe : Nat → Except CalcError (Expr × Nat)) (toks : List Token) (pos : Nat) : Except CalcError (Expr × Nat) := do
  let (l, p1) ← parsePower pe toks (toks.length + 1) pos
  parseModuloLoop pe toks (toks.length + 1) l p1

/-- The `*` / `/` loop of `Parser::parse_multiplicative`. -/
def parseMulLoop (pe : Nat → Except CalcError (Expr × Nat)) (toks : List Token) :
    Nat → Expr → Nat → Except CalcError (Expr × Nat)
  | 0, _, _ => fuelErr
  | f + 1, left, pos =>
      if checkTok toks Token.multiply pos then do
        let (r, p1) ← parseModulo pe toks (pos + 1)
        parseMulLoop pe toks f (Expr.multiply left r) p1
      else if checkTok toks Token.divide pos then do
        let (r, p1) ← parseModulo pe toks (pos + 1)
        parseMulLoop pe toks f (Expr.divide left r) p1
      else Except.ok (left, pos)

/-- `Parser::parse_multiplicative`. -/
def parseMultiplicative (pe : Nat → Except CalcError (Expr × Nat)) (toks : List Token) (pos : Nat) :
    Except CalcError (Expr × Nat) := do
  let (l, p1) ← parseModulo pe toks pos
  parseMulLoop pe toks (toks.length + 1) l p1

/-- The `+` / `-` loop of `Parser::parse_additive`. -/
def parseAddLoop (pe : Nat → Except CalcError (Expr × Nat)) (toks : List Token) :
    Nat → Expr → Nat → Except CalcError (Expr × Nat)
  | 0, _, _ => fuelErr
  | f + 1, left, pos =>
      if checkTok toks Token.plus pos then do
        let (r, p1) ← parseMultiplicative pe toks (pos + 1)
        parseAddLoop pe toks f (Expr.add left r) p1
      else if checkTok toks Token.minus pos then do
        let (r, p1) ← parseMultiplicative pe toks (pos + 1)
        parseAddLoop pe toks f (Expr.subtract left r) p1
      else Except.ok (left, pos)

/-- `Parser::parse_additive`. -/
def parseAdditive (pe : Nat → Except CalcError (Expr × Nat)) (toks : List Token) (pos : Nat) :
    Except CalcError (Expr × Nat) := do
  let (l, p1) ← parseMultiplicative pe toks pos
  parseAddLoop pe toks (toks.length + 1) l p1

/-- The comparison loop of `Parser::parse_comparison`. -/
def parseCmpLoop (pe : Nat → Except CalcError (Expr × Nat)) (toks : List Token) :
    Nat → Expr → Nat → Except CalcError (Expr × Nat)
  | 0, _, _ => fuelErr
  | f + 1, left, pos =>
      if checkTok toks Token.lessThan pos then do
        let (r, p1) ← parseAdditive pe toks (pos + 1)
        parseCmpLoop pe toks f (Expr.lessThan left r) p1
      else if checkTok toks Token.greaterThan pos then do
        let (r, p1) ← parseAdditive pe toks (pos + 1)
        parseCmpLoop pe toks f (Expr.greaterThan left r) p1
      else if checkTok toks Token.lessThanOrEqual pos then do
        let (r, p1) ← parseAdditive pe toks (pos + 1)
        parseCmpLoop pe toks f (Expr.lessThanOrEqual left r) p1
      else if checkTok toks Token.greaterThanOrEqual pos then do
        let (r, p1) ← parseAdditive pe toks (pos + 1)
        parseCmpLoop pe toks f (Expr.greaterThanOrEqual left r) p1
      else Except.ok (left, pos)

/-- `Parser::parse_comparison`. -/
def parseComparison (pe : Nat → Except CalcError (Expr × Nat)) (toks : List Token) (pos : Nat) :
    Except CalcError (Expr × Nat) := do
  let (l, p1) ← parseAdditive pe toks pos
  parseCmpLoop pe toks (toks.length + 1) l p1

/-- The `=` / `<>` loop of `Parser::parse_equality`. -/
def parseEqLoop (pe : Nat → Except CalcError (Expr × Nat)) (toks : List Token) :
    Nat → Expr → Nat → Except CalcError (Expr × Nat)
  | 0, _, _ => fuelErr
  | f + 1, left, pos =>
      if checkTok toks Token.equal pos then do
        let (r, p1) ← parseComparison pe toks (pos + 1)
        parseEqLoop pe toks f (Expr.equal left r) p1
      else if checkTok toks Token.notEqual pos then do
        let (r, p1) ← parseComparison pe toks (pos + 1)
        parseEqLoop pe toks f (Expr.notEqual left r) p1
      else Except.ok (left, pos)

/-- `Parser::parse_equality`. -/
def parseEquality (pe : Nat → Except CalcError (Expr × Nat)) (toks : List Token) (pos : Nat) :
    Except CalcError (Expr × Nat) := do
  let (l, p1) ← parseComparison pe toks pos
  parseEqLoop pe toks (toks.length + 1) l p1

/-- The `and` loop of `Parser::parse_and`. -/
def parseAndLoop (pe : Nat → Except CalcError (Expr × Nat)) (toks : List Token) :
    Nat → Expr → Nat → Except CalcError (Expr × Nat)
  | 0, _, _ => fuelErr
  | f + 1, left, pos =>
      if checkTok toks Token.andT pos then do
        let (r, p1) ← parseEquality pe toks (pos + 1)
        parseAndLoop pe toks f (Expr.and left r) p1
      else Except.ok (left, pos)

/-- `Parser::parse_and`. -/
def parseAnd (pe : Nat → Except CalcError (Expr × Nat)) (toks : List Token) (pos : Nat) : Except CalcError (Expr × Nat) := do
  let (l, p1) ← parseEquality pe toks pos
  parseAndLoop pe toks (toks.length + 1) l p1

/-- The `or` loop of `Parser::parse_or`. -/
def parseOrLoop (pe : Nat → Except CalcError (Expr × Nat)) (toks : List Token) :
    Nat → Expr → Nat → Except CalcError (Expr × Nat)
  | 0, _, _ => fuelErr
  | f + 1, left, pos =>
      if checkTok toks Token.orT pos then do
        let (r, p1) ← parseAnd pe toks (pos + 1)
        parseOrLoop pe toks f (Expr.or left r) p1
      else Except.ok (left, pos)

/-- `Parser::parse_or`. -/
def parseOr (pe : Nat → Except CalcError (Expr × Nat)) (toks : List Token) (pos : Nat) : Except CalcError (Expr × Nat) := do
  let (l, p1) ← parseAnd pe toks pos
  parseOrLoop pe toks (toks.length + 1) l p1

/-- The fuel knot for `Parser::parse_expression`: each unit of fuel is one
nesting level (a level is entered only after consuming a token, so
`tokens.length + 1` always suffices). -/
def parseExprFuel (toks : List Token) : Nat → Nat → Except CalcError (Expr × Nat)
  | 0, _ => fuelErr
  | f + 1, pos => parseOr (parseExprFuel toks f) toks pos

/-- `Parser::parse_expression`. -/
def parseExpression (toks : List Token) (pos : Nat) : Except CalcError (Expr × Nat) :=
  parseExprFuel toks (toks.length + 1) pos

/-- The `else if` loop of `Parser::parse_if_statement`. -/
def parseElseIfs (pb : Nat → Except CalcError (Statement × Nat)) (toks : List Token) :
    Nat → List (Expr × Statement) → Nat → Except CalcError (List (Expr × Statement) × Nat)
  | 0, _, _ => fuelErr
  | f + 1, acc, pos =>
      if checkTok toks Token.elseT pos then
        match toks.get? (pos + 1) with
        | some Token.ifT => do
            let p1 ← expectToken toks Token.leftParen (pos + 2)
            let (cond, p2) ← parseExpression toks p1
            let p3 ← expectToken toks Token.rightParen p2
            let p4 ← expectToken toks Token.thenT p3
            let (blk, p5) ← pb p4
            parseElseIfs pb toks f (acc ++ [(cond, blk)]) p5
        | _ => Except.ok (acc, pos)
      else Except.ok (acc, pos)

/-- `Parser::parse_if_statement` (the `if` token is at `pos`; `pb` parses a
nested block). -/
def parseIfStatement (pb : Nat → Except CalcError (Statement × Nat)) (toks : List Token) (pos : Nat) :
    Except CalcError (Statement × Nat) := do
  let p1 ← expectToken toks Token.ifT pos
  let p2 ← expectToken toks Token.leftParen p1
  let (cond, p3) ← parseExpression toks p2
  let p4 ← expectToken toks Token.rightParen p3
  let p5 ← expectToken toks Token.thenT p4
  let (thenB, p6) ← pb p5
  let (elseIfs, p7) ← parseElseIfs pb toks (toks.length + 1) [] p6
  if checkTok toks Token.elseT p7 then do
    let (elseB, p8) ← pb (p7 + 1)
    let p9 ← expectToken toks Token.endT p8
    Except.ok (Statement.ifS cond thenB elseIfs (some elseB), p9)
  else do
    let p8 ← expectToken toks Token.endT p7
    Except.ok (Statement.ifS cond thenB elseIfs none, p8)

/-- `Parser::parse_block` (fuel bounds the nesting depth of `if` blocks). -/
def parseBlock (toks : List Token) : Nat → Nat → Except CalcError (Statement × Nat)
  | 0, _ => fuelErr
  | f + 1, pos =>
      if checkTok toks Token.ifT pos then
        parseIfStatement (parseBlock toks f) toks pos
      else if checkTok toks Token.returnT pos then do
        let (e, p1) ← parseExpression toks (pos + 1)
        Except.ok (Statement.returnS e, p1)
      else if checkTok toks Token.errorT pos then do
        let p1 ← expectToken toks Token.leftParen (pos + 1)
        let (e, p2) ← parseExpression toks p1
        let p3 ← expectToken toks Token.rightParen p2
        Except.ok (Statement.errorS e, p3)
      else Except.error (CalcError.parseError "Expected block statement")

/-- `Parser::parse`: one block, then `Eof`. -/
def parseTokens (toks : List Token) : Except CalcError Program := do
  let (st, p) ← parseBlock toks (toks.length + 1) 0
  let _ ← expectToken toks Token.eof p
  Except.ok (Program.mk st)

/-- `Parser::new` followed by `Parser::parse`: lex a body and parse it. -/
def parseProgram (s : String) : Except CalcError Program := do
  let toks ← tokenize s
  parseTokens toks

/-! ## `Formula` and its textual dependency extraction (`src/formula/mod.rs`)

`build_depends_on` matches the regex `get_output_from\('([^']+)'\)` over the
body.  The scan below is the regex's leftmost, non-overlapping search: at
each position it attempts the literal prefix `get_output_from('`, a maximal
non-empty run of non-quote characters, then `')`; on failure it moves one
character right, on success it continues after the match. -/

/-- The literal prefix of the pattern: `get_output_from('`. -/
def depPattern : List Char := "get_output_from(".toList ++ [quoteChar]

/-- Strip a literal prefix, returning the remainder on success. -/
def stripPre : List Char → List Char → Option (List Char)
  | [], l => some l
  | _ :: _, [] => none
  | p :: ps, c :: cs => if p = c then stripPre ps cs else none

/-- Attempt the whole pattern at the head of `l`; on success return the
captured name and the remainder after the closing `')`. -/
def tryDepMatch (l : List Char) : Option (String × List Char) :=
  match stripPre depPattern l with
  | none => none
  | some rest =>
      let nm := rest.takeWhile (fun c => c ≠ quoteChar)
      match rest.dropWhile (fun c => c ≠ quoteChar) with
      | [] => none
      | _ :: r3 =>
          if nm.isEmpty then none
          else
            match r3 with
            | rp :: r4 => if rp = ')' then some (String.mk nm, r4) else none
            | [] => none

/-- The scan loop (fuel `length + 1` suffices: each step consumes at least
one character). -/
def scanDeps : Nat → List Char → List String
  | 0, _ => []
  | f + 1, l =>
      match l with
      | [] => []
      | c :: rest =>
          match tryDepMatch (c :: rest) with
          | some (nm, r) => nm :: scanDeps f r
          | none => scanDeps f rest

/-- `Formula::build_depends_on` from `src/formula/mod.rs`. -/
def build_depends_on (body : String) : List String :=
  scanDeps (body.toList.length + 1) body.toList

/-- `Formula` from `src/formula/mod.rs`. -/
structure Formula where
  name : String
  body : String
  depends_on : List String

/-- `Formula::new`: dependencies are extracted textually at construction. -/
def Formula.new (name body : String) : Formula :=
  { name := name, body := body, depends_on := build_depends_on body }

/-! ## The dependency graph of `src/graph/mod.rs`

A graph is the list of its nodes, each carrying its declared outgoing
dependency keys; the payloads (`V`) play no part in `topological_sort` and
the engine keeps them in its own formula list.  Rust iterates `HashMap`s and
`HashSet`s in an unspecified order; the list order here is one
determinization.  Crucially, the candidate pass of the `while` loop
(graph/mod.rs lines 99-111) inserts each emitted candidate into
`satisfied_keys` *during* the iteration, so a later candidate of the same
pass can be emitted on the strength of an earlier emission; the model
processes the candidate list sequentially with exactly that mid-pass
insertion.  The loop fuel `(g.length + 1) * (g.length + 1)` provably reaches
the loop's fixpoint on every input (`topological_sort_fuel_stable`). -/

section DAGraph

variable {K : Type} [DecidableEq K]

/-- Keys of the graph (the key set of `outgoing_edges`). -/
def keysG (g : List (K × List K)) : List K := g.map Prod.fst

/-- The declared outgoing dependencies of a node (`outgoing_edges[key]`). -/
def depsOf : List (K × List K) → K → List K
  | [], _ => []
  | p :: g, k => if p.1 = k then p.2 else depsOf g k

/-- Layer 0 of `DAGraph::topological_sort`: nodes with no outgoing edges. -/
def layerZero (g : List (K × List K)) : List K :=
  (g.filter (fun p => p.2.isEmpty)).map Prod.fst

/-- The pre-classified detached nodes: a declared dependency names no node. -/
def detachedInit (g : List (K × List K)) : List K :=
  (g.filter (fun p => !p.2.isEmpty && p.2.any (fun d => !(decide (d ∈ keysG g))))).map
    Prod.fst

/-- `HashSet::insert` on the satisfied set: a no-op when the key is already
present. -/
def satInsert (sat : List K) (k : K) : List K :=
  if k ∈ sat then sat else k :: sat

/-- The candidate pass of the `while` loop (`for candidate in candidates`):
each candidate whose declared dependencies all lie in the *current*
satisfied set is pushed onto the new layer and inserted into `satisfied`
immediately — mid-iteration — otherwise it goes to the unsatisfied pool.
Returns `(layer, pool, satisfied)`. -/
def emitFold (g : List (K × List K)) : List K → List K → List K × List K × List K
  | sat, [] => ([], [], sat)
  | sat, k :: cs =>
      if (depsOf g k).all (fun d => decide (d ∈ sat)) then
        let r := emitFold g (satInsert sat k) cs
        (k :: r.1, r.2.1, r.2.2)
      else
        let r := emitFold g sat cs
        (r.1, k :: r.2.1, r.2.2)

/-- The candidate set of one iteration: the nodes with an edge into the
previous layer plus the drained unsatisfied pool (a `HashSet`, hence
duplicate-free). -/
def candsOf (g : List (K × List K)) (prev unsat : List K) : List K :=
  (((g.filter (fun p => p.2.any (fun d => decide (d ∈ prev)))).map Prod.fst)
    ++ unsat).dedup

/-- One iteration of the `while` loop of `DAGraph::topological_sort`. -/
def topoStep (g : List (K × List K)) (prev satisfied unsat : List K) :
    List K × List K × List K :=
  emitFold g satisfied (candsOf g prev unsat)

/-- The `while` loop: emit layers until one is empty; what remains in the
pool at that point is appended to `detached`. -/
def topoLoop (g : List (K × List K)) : Nat → List K → List K → List K →
    List (List K) × List K
  | 0, _, _, unsat => ([], unsat)
  | f + 1, prev, satisfied, unsat =>
      let s := topoStep g prev satisfied unsat
      if s.1.isEmpty then ([], s.2.1)
      else
        let r := topoLoop g f s.1 s.2.2 s.2.1
        (s.1 :: r.1, r.2)

/-- `DAGraph::topological_sort`: `(layers, detached)`.  (The Rust code seeds
`layers` with layer 0 and pops the final empty layer; when layer 0 itself is
empty the loop never runs and the popped list is empty.) -/
def topological_sort (g : List (K × List K)) : List (List K) × List K :=
  let l0 := layerZero g
  if l0.isEmpty then ([], detachedInit g)
  else
    let r := topoLoop g ((g.length + 1) * (g.length + 1)) l0 l0 []
    (l0 :: r.1, detachedInit g ++ r.2)

/-- The bottom-aligned index of the *oldest* occurrence of a key in the
satisfied list (the list grows by consing, so this index is insertion time);
`l.length` plus the multiplicity-free excess when absent. -/
def oRank : List K → K → Nat
  | [], _ => 0
  | k :: l, x => if x ∈ l then oRank l x else if x = k then l.length else l.length + 1

/-- The least `oRank` over a set of keys. -/
def minRank (sat : List K) : List K → Nat
  | [] => sat.length
  | p :: ps => min (oRank sat p) (minRank sat ps)

/-- The satisfied list is built in dependency order: every key was inserted
after all of its declared dependencies. -/
inductive SatOrd (g : List (K × List K)) : List K → Prop where
  | nil : SatOrd g []
  | cons (k : K) (l : List K) : SatOrd g l → (∀ d ∈ depsOf g k, d ∈ l) →
      SatOrd g (k :: l)

/-- The termination measure of the `while` loop: iterations that satisfy a
new key shrink the first summand; iterations that only re-emit
already-satisfied keys strictly raise the minimum insertion rank of the
current layer, shrinking the second. -/
def topoMeasure (g : List (K × List K)) (sat prev : List K) : Nat :=
  ((keysG g).filter (fun k => decide (k ∉ sat))).length * (g.length + 1)
    + (sat.length - minRank sat prev)

end DAGraph

/-! ## The engine of `src/engine.rs`

Within a layer, the Rust engine executes formulas in parallel: every worker
reads the formula-result cache as committed before the layer, and the
results are applied to the caches sequentially afterwards.  The model below
computes the layer's results against the fixed pre-layer state and then
commits them in order, which realizes exactly those semantics; the
function-result cache, which parallel workers mutate concurrently, is
threaded through the workers in layer order (one admissible
interleaving — no proved statement depends on its contents). -/

/-- The state owned by `Engine`: the four caches and the error map. -/
structure EngineState where
  variableCache : List (String × Value)
  formulaResultCache : List (String × Value)
  functionCache : List (String × FuncImpl)
  functionResultCache : List (String × Value)
  errors : List (String × String)

/-- `Engine::new`. -/
def newEngine : EngineState :=
  { variableCache := [], formulaResultCache := [], functionCache := [],
    functionResultCache := [], errors := [] }

/-- `Engine::set_variable`. -/
def setVariable (st : EngineState) (name : String) (v : Value) : EngineState :=
  { st with variableCache := (name, v) :: st.variableCache }

/-- `Engine::register_function`. -/
def registerFunction (st : EngineState) (name : String) (numArgs : Nat)
    (f : FuncImpl) : EngineState :=
  { st with functionCache := (build_function_id name numArgs, f) :: st.functionCache }

/-- `Engine::try_execute_formula`: re-parse the body, evaluate it against
clones of the four caches.  The evaluation fuel `body.length + 1` dominates
the token count and hence the depth of the parsed AST. -/
def tryExecuteFormula (xops : ExternOps) (st : EngineState) (body : String) :
    Except CalcError Value × List (String × Value) :=
  match parseProgram body with
  | Except.error e => (Except.error e, st.functionResultCache)
  | Except.ok prog =>
      evaluate
        { xops := xops, variableCache := st.variableCache,
          formulaResultCache := st.formulaResultCache,
          functionCache := st.functionCache }
        (body.toList.length + 1) prog st.functionResultCache

/-- The parallel collection phase of `Engine::execute_layer_parallel`: each
name of the layer found in the graph is executed against the pre-layer
state; the function-result cache is threaded. -/
def layerResults (xops : ExternOps) (fs : List Formula) (st : EngineState) :
    List String → List (String × Value) →
    List (String × Except CalcError Value) × List (String × Value)
  | [], frc => ([], frc)
  | n :: rest, frc =>
      match fs.find? (fun f => f.name == n) with
      | none => layerResults xops fs st rest frc
      | some f =>
          let r := tryExecuteFormula xops { st with functionResultCache := frc } f.body
          let r2 := layerResults xops fs st rest r.2
          ((n, r.1) :: r2.1, r2.2)

/-- The sequential commit phase of `Engine::execute_layer_parallel`:
successes into the formula-result cache, failures into the error map. -/
def commitResults (st : EngineState) :
    List (String × Except CalcError Value) → EngineState
  | [] => st
  | (n, Except.ok v) :: rest =>
      commitResults { st with formulaResultCache := (n, v) :: st.formulaResultCache } rest
  | (n, Except.error e) :: rest =>
      commitResults
        { st with errors :=
            (n, "Error executing formula \x27" ++ n ++ "\x27: " ++ e.display) :: st.errors }
        rest

/-- `Engine::execute_layer_parallel`. -/
def execLayer (xops : ExternOps) (fs : List Formula) (st : EngineState)
    (layer : List String) : EngineState :=
  let r := layerResults xops fs st layer st.functionResultCache
  commitResults { st with functionResultCache := r.2 } r.1

/-- The layer loop of `Engine::execute`. -/
def execLayers (xops : ExternOps) (fs : List Formula) :
    List (List String) → EngineState → EngineState
  | [], st => st
  | layer :: rest, st => execLayers xops fs rest (execLayer xops fs st layer)

/-- The graph-building loop of `Engine::execute`: `add_node` per formula,
failing on a duplicate key. -/
def buildGraph : List Formula → List (String × List String) →
    Except CalcError (List (String × List String))
  | [], g => Except.ok g
  | f :: rest, g =>
      if f.name ∈ keysG g then
        Except.error (CalcError.dependencyError "Node with the provided key already exists")
      else buildGraph rest (g ++ [(f.name, f.depends_on)])

/-- The detached-error messages recorded by `Engine::execute`. -/
def addDetachedErrors (errors : List (String × String)) :
    List String → List (String × String)
  | [] => errors
  | n :: rest =>
      addDetachedErrors
        ((n, "Could not resolve dependency path for formula: \x27" ++ n ++ "\x27") :: errors)
        rest

/-- `Engine::execute`. -/
def execute (xops : ExternOps) (fs : List Formula) (st : EngineState) :
    Except CalcError EngineState :=
  match buildGraph fs [] with
  | Except.error e => Except.error e
  | Except.ok g =>
      let r := topological_sort g
      Except.ok (execLayers xops fs r.1 { st with errors := addDetachedErrors st.errors r.2 })

/-- `Engine::get_result`. -/
def getResult (st : EngineState) (name : String) : Option Value :=
  st.formulaResultCache.lookup name

/-- `Engine::get_errors`, read at one key. -/
def getError (st : EngineState) (name : String) : Option String :=
  st.errors.lookup name

/-- `Engine::clear`: variables, formula results, function results and errors
are emptied; the function registry persists. -/
def clearEngine (st : EngineState) : EngineState :=
  { st with variableCache := [], formulaResultCache := [],
            functionResultCache := [], errors := [] }

/-- The dependency graph of a batch, as `Engine::execute` builds it: one node
per formula, keyed by name, with the formula's extracted dependency list as
outgoing edges. -/
def depGraph (fs : List Formula) : List (String × List String) :=
  fs.map (fun f => (f.name, f.depends_on))

/-! ## Relational vocabulary for the dependency analysis -/

/-- `DepRel g d k`: `d` is a declared direct dependency of `k` (there is an
edge `k → d`). -/
abbrev DepRel (g : List (K × List K)) [DecidableEq K] (d k : K) : Prop := d ∈ depsOf g k

/-- `k` depends on `c` through one or more edges. -/
def DependsT (g : List (K × List K)) [DecidableEq K] (k c : K) : Prop :=
  Relation.TransGen (fun a b => DepRel g b a) k c

/-- The graph is acyclic: the direct-dependency relation is well-founded
below every key (keys outside the graph have no dependencies and are
trivially accessible, so this is equivalent to accessibility of the graph's
keys). -/
def AcyclicG (g : List (K × List K)) [DecidableEq K] : Prop :=
  ∀ k, Acc (DepRel g) k

/-- Every declared dependency of every node names a node of the graph. -/
abbrev ResolvedG (g : List (K × List K)) [DecidableEq K] : Prop :=
  ∀ k ∈ keysG g, ∀ d ∈ depsOf g k, d ∈ keysG g

/-- A dependency path of length `n` from `k` down to a node with no declared
dependencies (a leaf).  `DepPath g k n` holds when some such path has exactly
`n` edges. -/
inductive DepPath (g : List (K × List K)) [DecidableEq K] : K → Nat → Prop where
  | leaf (k : K) : depsOf g k = [] → DepPath g k 0
  | step (k d : K) (n : Nat) : d ∈ depsOf g k → DepPath g d n → DepPath g k (n + 1)

/-- The reachable-state invariant of the `while` loop of
`DAGraph::topological_sort`: the previous layer is a non-empty subset of the
satisfied keys, the satisfied list is a duplicate-free set of keys built in
dependency order, the pool is disjoint from it and every pool member has a
dependency that is unsatisfied or was emitted in the previous layer, and
every unsatisfied key is in the pool or blocked or adjacent to the previous
layer. -/
structure TopoInv (g : List (K × List K)) [DecidableEq K]
    (prev satisfied unsat : List K) : Prop where
  prev_ne : prev ≠ []
  prev_sub : ∀ k ∈ prev, k ∈ satisfied
  sat_sub : ∀ k ∈ satisfied, k ∈ keysG g
  sat_nd : satisfied.Nodup
  sat_ord : SatOrd g satisfied
  unsat_sub : ∀ k ∈ unsat, k ∈ keysG g
  unsat_disj : ∀ k ∈ unsat, k ∉ satisfied
  unsat_pend : ∀ k ∈ unsat, ∃ d ∈ depsOf g k, d ∉ satisfied ∨ d ∈ prev
  cover : ∀ k ∈ keysG g, k ∉ satisfied → k ∈ unsat ∨
    (∃ d ∈ depsOf g k, d ∉ satisfied) ∨ (∃ d ∈ depsOf g k, d ∈ prev)

/-- A concrete instantiation of the external-operation parameters, used by
the closed witnesses (none of which evaluates a date or `exp`). -/
def trivialXops : ExternOps :=
  { parseDate := fun s => Except.error (CalcError.dateParseError s),
    addDaysFmt := fun _ _ => "", diffDays := fun _ _ => 0, fexp := fun q => q }

/-- An evaluator environment with empty caches over `trivialXops`, used by
the closed witnesses. -/
def trivialEnv : Env :=
  { xops := trivialXops, variableCache := [], formulaResultCache := [],
    functionCache := [] }

/-- An environment whose formula-result cache holds one previously computed
formula, `tax`, used by the dependency-resolution witnesses. -/
def trivialEnvTax : Env :=
  { xops := trivialXops, variableCache := [],
    formulaResultCache := [("tax", Value.num (mkRat 9 1))], functionCache := [] }

/-- A two-formula batch forming a pure dependency cycle, submitted through
the engine. -/
def cyclicBatch : List Formula :=
  [Formula.new "x" "return get_output_from(\x27y\x27)",
   Formula.new "y" "return get_output_from(\x27x\x27)"]

/-- A single dependency-free formula. -/
def soloFormula : Formula := Formula.new "solo" "return 1 + 2"

/-- The one-formula batch around `soloFormula`. -/
def soloBatch : List Formula := [soloFormula]

/-- The engine state after executing `soloBatch` (the default state on the
error branch, which is not taken). -/
def soloState : EngineState :=
  match execute trivialXops soloBatch newEngine with
  | Except.ok st => st
  | Except.error _ => newEngine

/-- A base formula and a formula depending on it. -/
def chainA : Formula := Formula.new "base" "return 10"

/-- The dependent formula of the two-formula chain. -/
def chainB : Formula := Formula.new "derived" "return get_output_from(\x27base\x27) * 2"

/-- The two-formula chain batch. -/
def chainBatch : List Formula := [chainA, chainB]

/-- The engine state after executing `chainBatch` (the default state on the
error branch, which is not taken). -/
def chainState : EngineState :=
  match execute trivialXops chainBatch newEngine with
  | Except.ok st => st
  | Except.error _ => newEngine

/-- The graph `a:[], b:[a], c:[a,b]`, on which the candidate pass emits `c`
into the same layer as its dependency `b` and then re-emits it. -/
def gABC : List (String × List String) := [("a", []), ("b", ["a"]), ("c", ["a", "b"])]

/-- The dependency-free formula of the three-formula batch. -/
def fmlA : Formula := Formula.new "a" "return 1"

/-- The middle formula, depending on `a`. -/
def fmlB : Formula := Formula.new "b" "return get_output_from(\x27a\x27) + 1"

/-- The top formula, depending on `a` and `b`. -/
def fmlC : Formula :=
  Formula.new "c" "return get_output_from(\x27a\x27) + get_output_from(\x27b\x27)"

/-- The three-formula batch whose dependency graph is `gABC`. -/
def batchABC : List Formula := [fmlA, fmlB, fmlC]

/-- The engine state after executing `batchABC` (the default state on the
error branch, which is not taken). -/
def abcState : EngineState :=
  match execute trivialXops batchABC newEngine with
  | Except.ok st => st
  | Except.error _ => newEngine

/-- The snake-case rule exactly as the spec words it, formulated as a
neighbour-walk (carrying the previous character) rather than the source's
indexed loop: an underscore is inserted before each uppercase letter that is
preceded by or followed by a lowercase letter — never before the first
character (no previous character), never between two uppercase letters
inside an uppercase run — and every character is lowercased. -/
def snakeGo : Option Char → List Char → List Char
  | _, [] => []
  | prev, ch :: rest =>
      (if ch.isUpper then
        (if (match prev with
             | some p => p.isLower || (match rest.head? with
                 | some nx => nx.isLower
                 | none => false)
             | none => false) = true
          then ['_'] else []) ++ [ch.toLower]
       else [ch]) ++ snakeGo (some ch) rest

/-! ## Lemmas about the dependency graph and its layered sort -/

section GraphLemmas

variable {K : Type} [DecidableEq K] {g : List (K × List K)}

theorem pairEta {α β : Type} {p : α × β} {k : α} (hpk : p.1 = k) : (k, p.2) = p := by
  rw [← hpk]

theorem mem_keysG {k : K} : k ∈ keysG g ↔ ∃ ds, (k, ds) ∈ g := by
  constructor
  · intro h
    rcases List.mem_map.mp h with ⟨p, hp, hpk⟩
    exact ⟨p.2, by rw [pairEta hpk]; exact hp⟩
  · rintro ⟨ds, h⟩
    exact List.mem_map.mpr ⟨(k, ds), h, rfl⟩

theorem depsOf_mem {k : K} (h : k ∈ keysG g) : (k, depsOf g k) ∈ g := by
  induction g with
  | nil => simp [keysG] at h
  | cons p rest ih =>
      by_cases hk : p.1 = k
      · have h2 : depsOf (p :: rest) k = p.2 := by simp [depsOf, hk]
        rw [h2, pairEta hk]
        exact List.mem_cons_self _ _
      · have hmem : k ∈ keysG rest := by
          rcases List.mem_map.mp h with ⟨q, hq, hqk⟩
          rcases List.mem_cons.mp hq with hq | hq
          · exact absurd (hq ▸ hqk) hk
          · exact List.mem_map.mpr ⟨q, hq, hqk⟩
        have hres := ih hmem
        have h2 : depsOf (p :: rest) k = depsOf rest k := by simp [depsOf, hk]
        rw [h2]
        exact List.mem_cons_of_mem _ hres

theorem depsOf_eq_of_mem (hnd : (keysG g).Nodup) {k : K} {ds : List K}
    (h : (k, ds) ∈ g) : depsOf g k = ds := by
  induction g with
  | nil => simp at h
  | cons p rest ih =>
      rcases List.mem_cons.mp h with h | h
      · simp [← h, depsOf]
      · have hk : p.1 ≠ k := by
          intro he
          have hmem : k ∈ keysG rest := List.mem_map.mpr ⟨(k, ds), h, rfl⟩
          rw [keysG, List.map_cons, List.nodup_cons] at hnd
          exact hnd.1 (he ▸ hmem)
        have hnd2 : (keysG rest).Nodup := by
          rw [keysG, List.map_cons, List.nodup_cons] at hnd
          exact hnd.2
        simp [depsOf, hk, ih hnd2 h]

theorem mem_keysG_of_pair {k : K} {ds : List K} (h : (k, ds) ∈ g) : k ∈ keysG g :=
  List.mem_map.mpr ⟨(k, ds), h, rfl⟩

theorem depsOf_not_mem {k : K} (h : k ∉ keysG g) : depsOf g k = [] := by
  induction g with
  | nil => rfl
  | cons p rest ih =>
      have h1 : p.1 ≠ k := fun he => h (List.mem_map.mpr ⟨p, List.mem_cons_self _ _, he⟩)
      have h2 : k ∉ keysG rest := fun hm => by
        rcases List.mem_map.mp hm with ⟨q, hq, hqk⟩
        exact h (List.mem_map.mpr ⟨q, List.mem_cons_of_mem _ hq, hqk⟩)
      simp [depsOf, h1, ih h2]

theorem mem_layerZero (hnd : (keysG g).Nodup) {k : K} :
    k ∈ layerZero g ↔ k ∈ keysG g ∧ depsOf g k = [] := by
  constructor
  · intro h
    rcases List.mem_map.mp h with ⟨p, hp, hpk⟩
    rcases List.mem_filter.mp hp with ⟨hpg, hpe⟩
    have hmem : (k, p.2) ∈ g := by
      have : p = (k, p.2) := Prod.ext hpk (rfl)
      rwa [← this]
    refine ⟨mem_keysG_of_pair hmem, ?_⟩
    rw [depsOf_eq_of_mem hnd hmem]
    exact List.isEmpty_iff.mp hpe
  · rintro ⟨hk, hds⟩
    have hmem := depsOf_mem hk
    rw [hds] at hmem
    exact List.mem_map.mpr ⟨(k, []), List.mem_filter.mpr ⟨hmem, by simp⟩, rfl⟩

theorem layerZero_sublist : List.Sublist (layerZero g) (keysG g) :=
  (List.filter_sublist g).map Prod.fst

theorem layerZero_nodup (hnd : (keysG g).Nodup) : (layerZero g).Nodup :=
  hnd.sublist layerZero_sublist

theorem mem_detachedInit (hnd : (keysG g).Nodup) {k : K} :
    k ∈ detachedInit g ↔
      k ∈ keysG g ∧ depsOf g k ≠ [] ∧ ∃ d ∈ depsOf g k, d ∉ keysG g := by
  constructor
  · intro h
    rcases List.mem_map.mp h with ⟨p, hp, hpk⟩
    rcases List.mem_filter.mp hp with ⟨hpg, hcond⟩
    have hmem : (k, p.2) ∈ g := by
      have : p = (k, p.2) := Prod.ext hpk rfl
      rwa [← this]
    have hds := depsOf_eq_of_mem hnd hmem
    rw [Bool.and_eq_true] at hcond
    refine ⟨mem_keysG_of_pair hmem, ?_, ?_⟩
    · rw [hds]
      intro he
      rw [he] at hcond
      simp at hcond
    · rw [hds]
      rcases List.any_eq_true.mp hcond.2 with ⟨d, hd, hdc⟩
      refine ⟨d, hd, ?_⟩
      simpa using hdc
  · rintro ⟨hk, hne, d, hd, hdk⟩
    have hmem := depsOf_mem hk
    refine List.mem_map.mpr ⟨(k, depsOf g k), List.mem_filter.mpr ⟨hmem, ?_⟩, rfl⟩
    rw [Bool.and_eq_true]
    constructor
    · simpa using fun he => hne (List.isEmpty_iff.mp (by simpa using he))
    · exact List.any_eq_true.mpr ⟨d, hd, by simpa using hdk⟩

/-! ### The satisfied list and its insertion order -/

theorem mem_satInsert {sat : List K} {k x : K} :
    x ∈ satInsert sat k ↔ x = k ∨ x ∈ sat := by
  unfold satInsert
  by_cases hk : k ∈ sat
  · rw [if_pos hk]
    constructor
    · intro h
      exact Or.inr h
    · rintro (h | h)
      · rw [h]
        exact hk
      · exact h
  · rw [if_neg hk]
    exact List.mem_cons

theorem satInsert_nodup {sat : List K} {k : K} (h : sat.Nodup) :
    (satInsert sat k).Nodup := by
  unfold satInsert
  by_cases hk : k ∈ sat
  · rw [if_pos hk]
    exact h
  · rw [if_neg hk]
    exact List.nodup_cons.mpr ⟨hk, h⟩

theorem satInsert_ord {sat : List K} {k : K} (hord : SatOrd g sat)
    (hdeps : ∀ d ∈ depsOf g k, d ∈ sat) : SatOrd g (satInsert sat k) := by
  unfold satInsert
  by_cases hk : k ∈ sat
  · rw [if_pos hk]
    exact hord
  · rw [if_neg hk]
    exact SatOrd.cons k sat hord hdeps

theorem satOrd_closed {l : List K} (h : SatOrd g l) :
    ∀ k ∈ l, ∀ d ∈ depsOf g k, d ∈ l := by
  induction h with
  | nil =>
      intro k hk
      exact absurd hk (List.not_mem_nil k)
  | cons k0 l0 h0 hdeps ih =>
      intro k hk d hd
      rcases List.mem_cons.mp hk with he | he
      · exact List.mem_cons_of_mem _ (hdeps d (he ▸ hd))
      · exact List.mem_cons_of_mem _ (ih k he d hd)

/-- Every key of the satisfied list is accessible under the dependency
relation: keys are inserted only after their dependencies. -/
theorem satOrd_acc {l : List K} (h : SatOrd g l) : ∀ k ∈ l, Acc (DepRel g) k := by
  induction h with
  | nil =>
      intro k hk
      exact absurd hk (List.not_mem_nil k)
  | cons k0 l0 h0 hdeps ih =>
      intro k hk
      rcases List.mem_cons.mp hk with he | he
      · subst he
        exact Acc.intro _ (fun d hd => ih d (hdeps d hd))
      · exact ih k he

theorem satOrd_of_leaves {l : List K} (h : ∀ k ∈ l, depsOf g k = []) : SatOrd g l := by
  induction l with
  | nil => exact SatOrd.nil
  | cons k l ih =>
      refine SatOrd.cons k l (ih (fun x hx => h x (List.mem_cons_of_mem _ hx))) ?_
      intro d hd
      rw [h k (List.mem_cons_self _ _)] at hd
      exact absurd hd (List.not_mem_nil d)

theorem oRank_cons_mem {l : List K} {k x : K} (hx : x ∈ l) :
    oRank (k :: l) x = oRank l x := by
  show (if x ∈ l then oRank l x else if x = k then l.length else l.length + 1) =
    oRank l x
  rw [if_pos hx]

theorem oRank_cons_self {l : List K} {k : K} (hk : k ∉ l) :
    oRank (k :: l) k = l.length := by
  show (if k ∈ l then oRank l k else if k = k then l.length else l.length + 1) =
    l.length
  rw [if_neg hk, if_pos rfl]

theorem oRank_mem_lt : ∀ {l : List K} {x : K}, x ∈ l → oRank l x < l.length := by
  intro l
  induction l with
  | nil =>
      intro x hx
      exact absurd hx (List.not_mem_nil x)
  | cons k l ih =>
      intro x hx
      by_cases hxl : x ∈ l
      · rw [oRank_cons_mem hxl]
        refine Nat.lt_trans (ih hxl) ?_
        rw [List.length_cons]
        omega
      · have hxk : x = k := by
          rcases List.mem_cons.mp hx with h | h
          · exact h
          · exact absurd h hxl
        subst hxk
        rw [oRank_cons_self hxl, List.length_cons]
        omega

/-- A dependency is always inserted strictly before its dependent. -/
theorem satOrd_rank_lt {l : List K} (hord : SatOrd g l) (hnd : l.Nodup) :
    ∀ {e d : K}, e ∈ l → d ∈ depsOf g e → d ∈ l ∧ oRank l d < oRank l e := by
  induction hord with
  | nil =>
      intro e d he
      exact absurd he (List.not_mem_nil e)
  | cons k0 l0 h0 hdeps ih =>
      intro e d he hd
      have hk0 : k0 ∉ l0 := (List.nodup_cons.mp hnd).1
      have hnd0 : l0.Nodup := (List.nodup_cons.mp hnd).2
      rcases List.mem_cons.mp he with hek | hel
      · subst hek
        have hdl : d ∈ l0 := hdeps d hd
        refine ⟨List.mem_cons_of_mem _ hdl, ?_⟩
        rw [oRank_cons_mem hdl, oRank_cons_self hk0]
        exact oRank_mem_lt hdl
      · rcases ih hnd0 hel hd with ⟨hdl, hrank⟩
        refine ⟨List.mem_cons_of_mem _ hdl, ?_⟩
        rw [oRank_cons_mem hdl, oRank_cons_mem hel]
        exact hrank

theorem minRank_le {sat : List K} : ∀ {prev : List K} {p : K}, p ∈ prev →
    minRank sat prev ≤ oRank sat p := by
  intro prev
  induction prev with
  | nil =>
      intro p hp
      exact absurd hp (List.not_mem_nil p)
  | cons q ps ih =>
      intro p hp
      rcases List.mem_cons.mp hp with he | he
      · rw [he]
        show min (oRank sat q) (minRank sat ps) ≤ oRank sat q
        exact Nat.min_le_left _ _
      · show min (oRank sat q) (minRank sat ps) ≤ oRank sat p
        exact Nat.le_trans (Nat.min_le_right _ _) (ih he)

theorem le_minRank {sat : List K} {c : Nat} (hc : c ≤ sat.length) :
    ∀ {prev : List K}, (∀ p ∈ prev, c ≤ oRank sat p) → c ≤ minRank sat prev := by
  intro prev
  induction prev with
  | nil =>
      intro _
      exact hc
  | cons q ps ih =>
      intro hall
      show c ≤ min (oRank sat q) (minRank sat ps)
      exact Nat.le_min.mpr ⟨hall q (List.mem_cons_self _ _),
        ih (fun p hp => hall p (List.mem_cons_of_mem _ hp))⟩

/-! ### The candidate pass -/

theorem emitFold_cons_pos {sat cs : List K} {k : K}
    (hall : (depsOf g k).all (fun d => decide (d ∈ sat)) = true) :
    emitFold g sat (k :: cs) =
      (k :: (emitFold g (satInsert sat k) cs).1,
       (emitFold g (satInsert sat k) cs).2.1,
       (emitFold g (satInsert sat k) cs).2.2) := by
  simp only [emitFold]
  rw [if_pos hall]

theorem emitFold_cons_neg {sat cs : List K} {k : K}
    (hall : (depsOf g k).all (fun d => decide (d ∈ sat)) = false) :
    emitFold g sat (k :: cs) =
      ((emitFold g sat cs).1,
       k :: (emitFold g sat cs).2.1,
       (emitFold g sat cs).2.2) := by
  simp only [emitFold]
  rw [if_neg (by rw [hall]; exact Bool.false_ne_true)]

theorem emitFold_sat_mono : ∀ (cs sat : List K) {x : K}, x ∈ sat →
    x ∈ (emitFold g sat cs).2.2 := by
  intro cs
  induction cs with
  | nil =>
      intro sat x hx
      exact hx
  | cons k cs ih =>
      intro sat x hx
      cases hall : (depsOf g k).all (fun d => decide (d ∈ sat)) with
      | true =>
          rw [emitFold_cons_pos hall]
          exact ih _ (mem_satInsert.mpr (Or.inr hx))
      | false =>
          rw [emitFold_cons_neg hall]
          exact ih _ hx

theorem emitFold_satOut_iff : ∀ (cs sat : List K) (x : K),
    x ∈ (emitFold g sat cs).2.2 ↔ x ∈ sat ∨ x ∈ (emitFold g sat cs).1 := by
  intro cs
  induction cs with
  | nil =>
      intro sat x
      constructor
      · intro h
        exact Or.inl h
      · rintro (h | h)
        · exact h
        · exact absurd h (List.not_mem_nil x)
  | cons k cs ih =>
      intro sat x
      cases hall : (depsOf g k).all (fun d => decide (d ∈ sat)) with
      | false =>
          rw [emitFold_cons_neg hall]
          exact ih sat x
      | true =>
          rw [emitFold_cons_pos hall]
          constructor
          · intro h
            rcases (ih (satInsert sat k) x).mp h with h2 | h2
            · rcases mem_satInsert.mp h2 with h3 | h3
              · exact Or.inr (by rw [h3]; exact List.mem_cons_self _ _)
              · exact Or.inl h3
            · exact Or.inr (List.mem_cons_of_mem _ h2)
          · intro h
            refine (ih (satInsert sat k) x).mpr ?_
            rcases h with h | h
            · exact Or.inl (mem_satInsert.mpr (Or.inr h))
            · rcases List.mem_cons.mp h with h2 | h2
              · exact Or.inl (mem_satInsert.mpr (Or.inl h2))
              · exact Or.inr h2

theorem emitFold_emit_sub : ∀ (cs sat : List K) {x : K},
    x ∈ (emitFold g sat cs).1 → x ∈ cs := by
  intro cs
  induction cs with
  | nil =>
      intro sat x hx
      exact absurd hx (List.not_mem_nil x)
  | cons k cs ih =>
      intro sat x hx
      cases hall : (depsOf g k).all (fun d => decide (d ∈ sat)) with
      | true =>
          rw [emitFold_cons_pos hall] at hx
          rcases List.mem_cons.mp hx with h | h
          · rw [h]
            exact List.mem_cons_self _ _
          · exact List.mem_cons_of_mem _ (ih _ h)
      | false =>
          rw [emitFold_cons_neg hall] at hx
          exact List.mem_cons_of_mem _ (ih _ hx)

theorem emitFold_pool_sub : ∀ (cs sat : List K) {x : K},
    x ∈ (emitFold g sat cs).2.1 → x ∈ cs := by
  intro cs
  induction cs with
  | nil =>
      intro sat x hx
      exact absurd hx (List.not_mem_nil x)
  | cons k cs ih =>
      intro sat x hx
      cases hall : (depsOf g k).all (fun d => decide (d ∈ sat)) with
      | true =>
          rw [emitFold_cons_pos hall] at hx
          exact List.mem_cons_of_mem _ (ih _ hx)
      | false =>
          rw [emitFold_cons_neg hall] at hx
          rcases List.mem_cons.mp hx with h | h
          · rw [h]
            exact List.mem_cons_self _ _
          · exact List.mem_cons_of_mem _ (ih _ h)

theorem emitFold_cand_split : ∀ (cs sat : List K) {x : K}, x ∈ cs →
    x ∈ (emitFold g sat cs).1 ∨ x ∈ (emitFold g sat cs).2.1 := by
  intro cs
  induction cs with
  | nil =>
      intro sat x hx
      exact absurd hx (List.not_mem_nil x)
  | cons k cs ih =>
      intro sat x hx
      cases hall : (depsOf g k).all (fun d => decide (d ∈ sat)) with
      | true =>
          rw [emitFold_cons_pos hall]
          rcases List.mem_cons.mp hx with h | h
          · exact Or.inl (by rw [h]; exact List.mem_cons_self _ _)
          · rcases ih (satInsert sat k) h with h2 | h2
            · exact Or.inl (List.mem_cons_of_mem _ h2)
            · exact Or.inr h2
      | false =>
          rw [emitFold_cons_neg hall]
          rcases List.mem_cons.mp hx with h | h
          · exact Or.inr (by rw [h]; exact List.mem_cons_self _ _)
          · rcases ih sat h with h2 | h2
            · exact Or.inl h2
            · exact Or.inr (List.mem_cons_of_mem _ h2)

theorem emitFold_emit_deps : ∀ (cs sat : List K) {x : K},
    x ∈ (emitFold g sat cs).1 → ∀ d ∈ depsOf g x, d ∈ (emitFold g sat cs).2.2 := by
  intro cs
  induction cs with
  | nil =>
      intro sat x hx
      exact absurd hx (List.not_mem_nil x)
  | cons k cs ih =>
      intro sat x hx d hd
      cases hall : (depsOf g k).all (fun d => decide (d ∈ sat)) with
      | true =>
          rw [emitFold_cons_pos hall] at hx ⊢
          rcases List.mem_cons.mp hx with h | h
          · subst h
            have hds : d ∈ sat := of_decide_eq_true (List.all_eq_true.mp hall d hd)
            exact emitFold_sat_mono _ _ (mem_satInsert.mpr (Or.inr hds))
          · exact ih _ h d hd
      | false =>
          rw [emitFold_cons_neg hall] at hx ⊢
          exact ih _ hx d hd

theorem emitFold_ord : ∀ (cs sat : List K), SatOrd g sat →
    SatOrd g (emitFold g sat cs).2.2 := by
  intro cs
  induction cs with
  | nil =>
      intro sat h
      exact h
  | cons k cs ih =>
      intro sat h
      cases hall : (depsOf g k).all (fun d => decide (d ∈ sat)) with
      | true =>
          rw [emitFold_cons_pos hall]
          refine ih _ (satInsert_ord h ?_)
          intro d hd
          exact of_decide_eq_true (List.all_eq_true.mp hall d hd)
      | false =>
          rw [emitFold_cons_neg hall]
          exact ih _ h

theorem emitFold_nd : ∀ (cs sat : List K), sat.Nodup →
    (emitFold g sat cs).2.2.Nodup := by
  intro cs
  induction cs with
  | nil =>
      intro sat h
      exact h
  | cons k cs ih =>
      intro sat h
      cases hall : (depsOf g k).all (fun d => decide (d ∈ sat)) with
      | true =>
          rw [emitFold_cons_pos hall]
          exact ih _ (satInsert_nodup h)
      | false =>
          rw [emitFold_cons_neg hall]
          exact ih _ h

theorem emitFold_pool_nsat : ∀ (cs sat : List K), cs.Nodup → SatOrd g sat →
    ∀ {x : K}, x ∈ (emitFold g sat cs).2.1 → x ∉ (emitFold g sat cs).2.2 := by
  intro cs
  induction cs with
  | nil =>
      intro sat _ _ x hx
      exact absurd hx (List.not_mem_nil x)
  | cons k cs ih =>
      intro sat hnd hord x hx
      have hkcs : k ∉ cs := (List.nodup_cons.mp hnd).1
      have hnd2 : cs.Nodup := (List.nodup_cons.mp hnd).2
      cases hall : (depsOf g k).all (fun d => decide (d ∈ sat)) with
      | true =>
          rw [emitFold_cons_pos hall] at hx ⊢
          refine ih _ hnd2 (satInsert_ord hord ?_) hx
          intro d hd
          exact of_decide_eq_true (List.all_eq_true.mp hall d hd)
      | false =>
          rw [emitFold_cons_neg hall] at hx ⊢
          rcases List.mem_cons.mp hx with he | he
          · subst he
            intro hmem
            rcases (emitFold_satOut_iff cs sat x).mp hmem with h2 | h2
            · -- a satisfied key passes the check: its dependencies lie in sat
              have hclosed := satOrd_closed hord x h2
              have : (depsOf g x).all (fun d => decide (d ∈ sat)) = true := by
                refine List.all_eq_true.mpr ?_
                intro d hd
                exact decide_eq_true (hclosed d hd)
              rw [this] at hall
              exact Bool.noConfusion hall
            · exact hkcs (emitFold_emit_sub _ _ h2)
          · exact ih _ hnd2 hord he

theorem emitFold_empty_pool : ∀ (cs sat : List K), (emitFold g sat cs).1 = [] →
    ∀ {x : K}, x ∈ (emitFold g sat cs).2.1 → ∃ d ∈ depsOf g x, d ∉ sat := by
  intro cs
  induction cs with
  | nil =>
      intro sat _ x hx
      exact absurd hx (List.not_mem_nil x)
  | cons k cs ih =>
      intro sat hE x hx
      cases hall : (depsOf g k).all (fun d => decide (d ∈ sat)) with
      | true =>
          rw [emitFold_cons_pos hall] at hE
          exact absurd hE (List.cons_ne_nil _ _)
      | false =>
          rw [emitFold_cons_neg hall] at hE hx
          rcases List.mem_cons.mp hx with he | he
          · subst he
            rcases List.all_eq_false.mp hall with ⟨d, hd, hdc⟩
            refine ⟨d, hd, ?_⟩
            simpa using hdc
          · exact ih _ hE he

theorem emitFold_pool_pend : ∀ (cs sat : List K) {x : K},
    x ∈ (emitFold g sat cs).2.1 →
    ∃ d ∈ depsOf g x, d ∉ (emitFold g sat cs).2.2 ∨ d ∈ (emitFold g sat cs).1 := by
  intro cs
  induction cs with
  | nil =>
      intro sat x hx
      exact absurd hx (List.not_mem_nil x)
  | cons k cs ih =>
      intro sat x hx
      cases hall : (depsOf g k).all (fun d => decide (d ∈ sat)) with
      | true =>
          rw [emitFold_cons_pos hall] at hx ⊢
          rcases ih _ hx with ⟨d, hd, hc⟩
          refine ⟨d, hd, ?_⟩
          rcases hc with h | h
          · exact Or.inl h
          · exact Or.inr (List.mem_cons_of_mem _ h)
      | false =>
          rw [emitFold_cons_neg hall] at hx ⊢
          rcases List.mem_cons.mp hx with he | he
          · subst he
            rcases List.all_eq_false.mp hall with ⟨d, hd, hdc⟩
            have hdns : d ∉ sat := by simpa using hdc
            refine ⟨d, hd, ?_⟩
            by_cases hdso : d ∈ (emitFold g sat cs).2.2
            · rcases (emitFold_satOut_iff cs sat d).mp hdso with h2 | h2
              · exact absurd h2 hdns
              · exact Or.inr h2
            · exact Or.inl hdso
          · exact ih _ he

theorem emitFold_all_sat_fix : ∀ (cs sat : List K),
    (∀ x ∈ (emitFold g sat cs).1, x ∈ sat) → (emitFold g sat cs).2.2 = sat := by
  intro cs
  induction cs with
  | nil =>
      intro sat _
      rfl
  | cons k cs ih =>
      intro sat hall2
      cases hall : (depsOf g k).all (fun d => decide (d ∈ sat)) with
      | true =>
          rw [emitFold_cons_pos hall] at hall2 ⊢
          have hk : k ∈ sat := hall2 k (List.mem_cons_self _ _)
          have hsi : satInsert sat k = sat := by
            unfold satInsert
            rw [if_pos hk]
          rw [hsi] at hall2 ⊢
          exact ih _ (fun x hx => hall2 x (List.mem_cons_of_mem _ hx))
      | false =>
          rw [emitFold_cons_neg hall] at hall2 ⊢
          exact ih _ hall2

/-! ### Candidates and the loop step -/

theorem mem_candsOf (hnd : (keysG g).Nodup) {prev unsat : List K} {k : K} :
    k ∈ candsOf g prev unsat ↔
      (k ∈ keysG g ∧ ∃ d ∈ depsOf g k, d ∈ prev) ∨ k ∈ unsat := by
  simp only [candsOf, List.mem_dedup, List.mem_append, List.mem_map]
  constructor
  · rintro (⟨p, hp, hpk⟩ | hu)
    · rcases List.mem_filter.mp hp with ⟨hpg, hpany⟩
      have hmem : (k, p.2) ∈ g := by rw [pairEta hpk]; exact hpg
      have hds := depsOf_eq_of_mem hnd hmem
      rcases List.any_eq_true.mp hpany with ⟨d, hd, hdp⟩
      exact Or.inl ⟨mem_keysG_of_pair hmem, d, hds ▸ hd, by simpa using hdp⟩
    · exact Or.inr hu
  · rintro (⟨hk, d, hd, hdp⟩ | hu)
    · refine Or.inl ⟨(k, depsOf g k), List.mem_filter.mpr ⟨depsOf_mem hk, ?_⟩, rfl⟩
      exact List.any_eq_true.mpr ⟨d, hd, by simpa using hdp⟩
    · exact Or.inr hu

theorem candsOf_nodup {prev unsat : List K} : (candsOf g prev unsat).Nodup :=
  List.nodup_dedup _

theorem candsOf_sub_keys (hnd : (keysG g).Nodup) {prev unsat : List K}
    (hu : ∀ k ∈ unsat, k ∈ keysG g) : ∀ k ∈ candsOf g prev unsat, k ∈ keysG g := by
  intro k hk
  rcases (mem_candsOf hnd).mp hk with ⟨hkey, _⟩ | hku
  · exact hkey
  · exact hu k hku

theorem topoStep_eq {prev sat unsat : List K} :
    topoStep g prev sat unsat = emitFold g sat (candsOf g prev unsat) := rfl

/-- The loop invariant is preserved by one iteration that emits a non-empty
layer. -/
theorem topoStep_inv (hnd : (keysG g).Nodup) {prev sat unsat : List K}
    (inv : TopoInv g prev sat unsat)
    (hne : (topoStep g prev sat unsat).1 ≠ []) :
    TopoInv g (topoStep g prev sat unsat).1 (topoStep g prev sat unsat).2.2
      (topoStep g prev sat unsat).2.1 := by
  refine ⟨hne, ?_, ?_, ?_, ?_, ?_, ?_, ?_, ?_⟩
  · intro k hk
    exact (emitFold_satOut_iff _ _ k).mpr (Or.inr hk)
  · intro k hk
    rcases (emitFold_satOut_iff _ _ k).mp hk with h | h
    · exact inv.sat_sub k h
    · exact candsOf_sub_keys hnd inv.unsat_sub k (emitFold_emit_sub _ _ h)
  · exact emitFold_nd _ _ inv.sat_nd
  · exact emitFold_ord _ _ inv.sat_ord
  · intro k hk
    exact candsOf_sub_keys hnd inv.unsat_sub k (emitFold_pool_sub _ _ hk)
  · intro k hk
    exact emitFold_pool_nsat _ _ candsOf_nodup inv.sat_ord hk
  · intro k hk
    exact emitFold_pool_pend _ _ hk
  · intro k hkey hns
    have hns0 : k ∉ sat := fun h => hns (emitFold_sat_mono _ _ h)
    have hnotE : k ∉ (topoStep g prev sat unsat).1 := fun h =>
      hns ((emitFold_satOut_iff _ _ k).mpr (Or.inr h))
    have hPofC : k ∈ candsOf g prev unsat → k ∈ (topoStep g prev sat unsat).2.1 := by
      intro hc
      rcases emitFold_cand_split _ _ hc with h | h
      · exact absurd h hnotE
      · exact h
    rcases inv.cover k hkey hns0 with hu | ⟨d, hd, hdns⟩ | ⟨d, hd, hdp⟩
    · exact Or.inl (hPofC ((mem_candsOf hnd).mpr (Or.inr hu)))
    · by_cases hds : d ∈ (topoStep g prev sat unsat).2.2
      · rcases (emitFold_satOut_iff _ _ d).mp hds with h | h
        · exact absurd h hdns
        · exact Or.inr (Or.inr ⟨d, hd, h⟩)
      · exact Or.inr (Or.inl ⟨d, hd, hds⟩)
    · exact Or.inl (hPofC ((mem_candsOf hnd).mpr (Or.inl ⟨hkey, d, hd, hdp⟩)))

/-! ### The termination measure -/

/-- Growing the satisfied set strictly shrinks the set of keys not yet
satisfied, provided some key is newly satisfied. -/
theorem remaining_lt {sat sat2 : List K} (hsub2 : ∀ x ∈ sat, x ∈ sat2) {n : K}
    (hn : n ∈ keysG g) (hns : n ∉ sat) (hns2 : n ∈ sat2) :
    ((keysG g).filter (fun k => decide (k ∉ sat2))).length <
      ((keysG g).filter (fun k => decide (k ∉ sat))).length := by
  have hsubl : List.Sublist ((keysG g).filter (fun k => decide (k ∉ sat2)))
      ((keysG g).filter (fun k => decide (k ∉ sat))) := by
    refine List.monotone_filter_right _ ?_
    intro a ha
    simp only [decide_eq_true_eq] at ha ⊢
    exact fun hs => ha (hsub2 a hs)
  have hx1 : n ∈ (keysG g).filter (fun k => decide (k ∉ sat)) :=
    List.mem_filter.mpr ⟨hn, by simpa using hns⟩
  have hx2 : n ∉ (keysG g).filter (fun k => decide (k ∉ sat2)) := by
    intro hmem
    rcases List.mem_filter.mp hmem with ⟨_, hcond⟩
    simp only [decide_eq_true_eq] at hcond
    exact hcond hns2
  by_contra hle
  push_neg at hle
  have heq := hsubl.eq_of_length_le hle
  rw [heq] at hx2
  exact hx2 hx1

theorem sat_length_le (hnd : (keysG g).Nodup) {sat : List K} (hsnd : sat.Nodup)
    (hsub : ∀ k ∈ sat, k ∈ keysG g) : sat.length ≤ g.length := by
  have h2 : sat.toFinset ⊆ (keysG g).toFinset := by
    intro x hx
    rw [List.mem_toFinset] at hx ⊢
    exact hsub x hx
  have h3 : sat.toFinset.card ≤ (keysG g).toFinset.card := Finset.card_le_card h2
  have h4 : sat.toFinset.card = sat.length := List.toFinset_card_of_nodup hsnd
  have h5 : (keysG g).toFinset.card ≤ (keysG g).length := (keysG g).toFinset_card_le
  have h6 : (keysG g).length = g.length := List.length_map _ _
  omega

/-- One emitting iteration strictly decreases the measure: either a new key
is satisfied, or every emitted key was already satisfied — in which case each
emitted key has a dependency in the previous layer and hence a strictly
larger insertion rank, raising the layer's minimum rank. -/
theorem topoMeasure_step (hnd : (keysG g).Nodup) {prev sat unsat : List K}
    (inv : TopoInv g prev sat unsat)
    (hne : (topoStep g prev sat unsat).1 ≠ []) :
    topoMeasure g (topoStep g prev sat unsat).2.2 (topoStep g prev sat unsat).1 <
      topoMeasure g sat prev := by
  by_cases hnew : ∀ x ∈ (topoStep g prev sat unsat).1, x ∈ sat
  · -- re-emission only
    have hfix : (topoStep g prev sat unsat).2.2 = sat := emitFold_all_sat_fix _ _ hnew
    have hEdep : ∀ e ∈ (topoStep g prev sat unsat).1, ∃ d ∈ depsOf g e, d ∈ prev := by
      intro e he
      have hc : e ∈ candsOf g prev unsat := emitFold_emit_sub _ _ he
      rcases (mem_candsOf hnd).mp hc with ⟨_, d, hd, hdp⟩ | hu
      · exact ⟨d, hd, hdp⟩
      · exact absurd (hnew e he) (inv.unsat_disj e hu)
    have hminP_lt : minRank sat prev < sat.length := by
      rcases List.exists_mem_of_ne_nil prev inv.prev_ne with ⟨p, hp⟩
      have h1 : minRank sat prev ≤ oRank sat p := minRank_le hp
      have h2 : oRank sat p < sat.length := oRank_mem_lt (inv.prev_sub p hp)
      omega
    have hrank : ∀ e ∈ (topoStep g prev sat unsat).1,
        minRank sat prev + 1 ≤ oRank sat e := by
      intro e he
      rcases hEdep e he with ⟨d, hd, hdp⟩
      rcases satOrd_rank_lt inv.sat_ord inv.sat_nd (hnew e he) hd with ⟨_, hlt⟩
      have h1 : minRank sat prev ≤ oRank sat d := minRank_le hdp
      omega
    have hminE : minRank sat prev + 1 ≤
        minRank sat (topoStep g prev sat unsat).1 :=
      le_minRank (by omega) hrank
    rw [hfix]
    simp only [topoMeasure]
    refine Nat.add_lt_add_left ?_ _
    omega
  · -- a new key is satisfied
    push_neg at hnew
    rcases hnew with ⟨n, hnE, hnns⟩
    have hnkey : n ∈ keysG g :=
      candsOf_sub_keys hnd inv.unsat_sub n (emitFold_emit_sub _ _ hnE)
    have hnSO : n ∈ (topoStep g prev sat unsat).2.2 :=
      (emitFold_satOut_iff _ _ n).mpr (Or.inr hnE)
    have hAlt := remaining_lt (g := g)
      (fun x hx => emitFold_sat_mono (candsOf g prev unsat) sat hx) hnkey hnns hnSO
    have hBle : (topoStep g prev sat unsat).2.2.length -
        minRank (topoStep g prev sat unsat).2.2 (topoStep g prev sat unsat).1 ≤
          g.length := by
      have h1 : (topoStep g prev sat unsat).2.2.length ≤ g.length := by
        refine sat_length_le hnd (emitFold_nd _ _ inv.sat_nd) ?_
        intro k hk
        rcases (emitFold_satOut_iff _ _ k).mp hk with h | h
        · exact inv.sat_sub k h
        · exact candsOf_sub_keys hnd inv.unsat_sub k (emitFold_emit_sub _ _ h)
      omega
    simp only [topoMeasure]
    have h1 : ((keysG g).filter
          (fun k => decide (k ∉ (topoStep g prev sat unsat).2.2))).length *
          (g.length + 1) +
        ((topoStep g prev sat unsat).2.2.length -
          minRank (topoStep g prev sat unsat).2.2 (topoStep g prev sat unsat).1) <
        (((keysG g).filter
          (fun k => decide (k ∉ (topoStep g prev sat unsat).2.2))).length + 1) *
          (g.length + 1) := by
      rw [Nat.succ_mul]
      exact Nat.add_lt_add_left (Nat.lt_succ_of_le hBle) _
    have h2 : (((keysG g).filter
          (fun k => decide (k ∉ (topoStep g prev sat unsat).2.2))).length + 1) *
          (g.length + 1) ≤
        ((keysG g).filter (fun k => decide (k ∉ sat))).length * (g.length + 1) :=
      Nat.mul_le_mul_right _ hAlt
    exact Nat.lt_of_lt_of_le (Nat.lt_of_lt_of_le h1 h2) (Nat.le_add_right _ _)

/-! ### The loop -/

/-- Layer-wise properties of the loop's output, valid for every fuel: every
emitted key is a key of the graph and accessible under the dependency
relation, its declared dependencies lie in the incoming satisfied set or in
layers up to and including its own, and it has a dependency in the previous
layer or in its own layer. -/
theorem topoLoop_layers (hnd : (keysG g).Nodup) :
    ∀ (fuel : Nat) (prev sat unsat : List K), SatOrd g sat →
      (∀ k ∈ unsat, k ∈ keysG g) →
      (∀ k ∈ unsat, ∃ d ∈ depsOf g k, d ∉ sat ∨ d ∈ prev) →
      ∀ i L, (topoLoop g fuel prev sat unsat).1[i]? = some L → ∀ k ∈ L,
        (k ∈ keysG g ∧ Acc (DepRel g) k) ∧
        (∀ d ∈ depsOf g k, d ∈ sat ∨
          d ∈ ((topoLoop g fuel prev sat unsat).1.take (i + 1)).flatten) ∧
        (i = 0 → ∃ d ∈ depsOf g k, d ∈ prev ∨ d ∈ L) ∧
        (∀ j Lp, i = j + 1 → (topoLoop g fuel prev sat unsat).1[j]? = some Lp →
          ∃ d ∈ depsOf g k, d ∈ Lp ∨ d ∈ L) := by
  intro fuel
  induction fuel with
  | zero =>
      intro prev sat unsat _ _ _ i L hget
      simp [topoLoop] at hget
  | succ f ih =>
      intro prev sat unsat hord husub hupend i L hget k hk
      by_cases hemp : (topoStep g prev sat unsat).1.isEmpty
      · have hres : topoLoop g (f + 1) prev sat unsat =
            ([], (topoStep g prev sat unsat).2.1) := by
          simp [topoLoop, hemp]
        rw [hres] at hget
        simp at hget
      · have hres : topoLoop g (f + 1) prev sat unsat =
            ((topoStep g prev sat unsat).1 ::
              (topoLoop g f (topoStep g prev sat unsat).1
                (topoStep g prev sat unsat).2.2 (topoStep g prev sat unsat).2.1).1,
             (topoLoop g f (topoStep g prev sat unsat).1
                (topoStep g prev sat unsat).2.2 (topoStep g prev sat unsat).2.1).2) := by
          simp [topoLoop, hemp]
        have hord2 : SatOrd g (topoStep g prev sat unsat).2.2 :=
          emitFold_ord _ _ hord
        have husub2 : ∀ x ∈ (topoStep g prev sat unsat).2.1, x ∈ keysG g :=
          fun x hx => candsOf_sub_keys hnd husub x (emitFold_pool_sub _ _ hx)
        have hupend2 : ∀ x ∈ (topoStep g prev sat unsat).2.1,
            ∃ d ∈ depsOf g x, d ∉ (topoStep g prev sat unsat).2.2 ∨
              d ∈ (topoStep g prev sat unsat).1 :=
          fun x hx => emitFold_pool_pend _ _ hx
        rw [hres] at hget ⊢
        match i, hget with
        | 0, hget =>
            have hLE : L = (topoStep g prev sat unsat).1 := by
              simpa using hget.symm
            subst hLE
            have hkc : k ∈ candsOf g prev unsat := emitFold_emit_sub _ _ hk
            have hkSO : k ∈ (topoStep g prev sat unsat).2.2 :=
              (emitFold_satOut_iff _ _ k).mpr (Or.inr hk)
            refine ⟨⟨candsOf_sub_keys hnd husub k hkc, satOrd_acc hord2 k hkSO⟩,
              ?_, ?_, ?_⟩
            · intro d hd
              have hdSO : d ∈ (topoStep g prev sat unsat).2.2 :=
                emitFold_emit_deps _ _ hk d hd
              rcases (emitFold_satOut_iff _ _ d).mp hdSO with h | h
              · exact Or.inl h
              · refine Or.inr ?_
                simp only [List.take_succ_cons, List.take_zero, List.flatten_cons,
                  List.flatten_nil, List.append_nil]
                exact h
            · intro _
              rcases (mem_candsOf hnd).mp hkc with ⟨_, d, hd, hdp⟩ | hku
              · exact ⟨d, hd, Or.inl hdp⟩
              · rcases hupend k hku with ⟨d, hd, hc⟩
                rcases hc with hdns | hdp
                · have hdSO : d ∈ (topoStep g prev sat unsat).2.2 :=
                    emitFold_emit_deps _ _ hk d hd
                  rcases (emitFold_satOut_iff _ _ d).mp hdSO with h | h
                  · exact absurd h hdns
                  · exact ⟨d, hd, Or.inr h⟩
                · exact ⟨d, hd, Or.inl hdp⟩
            · intro j Lp hj
              exact absurd hj (by omega)
        | i' + 1, hget =>
            have hget2 : (topoLoop g f (topoStep g prev sat unsat).1
                (topoStep g prev sat unsat).2.2
                (topoStep g prev sat unsat).2.1).1[i']? = some L := by
              simpa using hget
            have ihres := ih (topoStep g prev sat unsat).1
              (topoStep g prev sat unsat).2.2 (topoStep g prev sat unsat).2.1
              hord2 husub2 hupend2 i' L hget2 k hk
            refine ⟨ihres.1, ?_, ?_, ?_⟩
            · intro d hd
              rcases ihres.2.1 d hd with h | h
              · rcases (emitFold_satOut_iff _ _ d).mp h with h2 | h2
                · exact Or.inl h2
                · refine Or.inr ?_
                  simp only [List.take_succ_cons, List.flatten_cons, List.mem_append]
                  exact Or.inl h2
              · refine Or.inr ?_
                simp only [List.take_succ_cons, List.flatten_cons, List.mem_append]
                exact Or.inr h
            · intro h0
              exact absurd h0 (by omega)
            · intro j Lp hj hgetp
              match j, hj with
              | 0, _ =>
                  have hLp : Lp = (topoStep g prev sat unsat).1 := by
                    simpa using hgetp.symm
                  subst hLp
                  have hi0 : i' = 0 := by omega
                  subst hi0
                  exact ihres.2.2.1 rfl
              | j' + 1, hj =>
                  have hgetp2 : (topoLoop g f (topoStep g prev sat unsat).1
                      (topoStep g prev sat unsat).2.2
                      (topoStep g prev sat unsat).2.1).1[j']? = some Lp := by
                    simpa using hgetp
                  exact ihres.2.2.2 j' Lp (by omega) hgetp2

/-- The end-state of the loop, given enough fuel: every key outside the
satisfied set and the emitted layers has a dependency that is also outside
both, and the returned pool consists of keys outside both. -/
theorem topoLoop_end (hnd : (keysG g).Nodup) :
    ∀ (fuel : Nat) (prev sat unsat : List K), TopoInv g prev sat unsat →
      topoMeasure g sat prev < fuel →
      (∀ k ∈ keysG g, k ∉ sat → k ∉ (topoLoop g fuel prev sat unsat).1.flatten →
        ∃ d ∈ depsOf g k, d ∉ sat ∧ d ∉ (topoLoop g fuel prev sat unsat).1.flatten)
      ∧ (∀ k ∈ (topoLoop g fuel prev sat unsat).2,
          k ∈ keysG g ∧ k ∉ sat ∧ k ∉ (topoLoop g fuel prev sat unsat).1.flatten) := by
  intro fuel
  induction fuel with
  | zero =>
      intro prev sat unsat _ hm
      exact absurd hm (Nat.not_lt_zero _)
  | succ f ih =>
      intro prev sat unsat inv hm
      by_cases hemp : (topoStep g prev sat unsat).1.isEmpty
      · have hE : (topoStep g prev sat unsat).1 = [] := List.isEmpty_iff.mp hemp
        have hres : topoLoop g (f + 1) prev sat unsat =
            ([], (topoStep g prev sat unsat).2.1) := by
          simp [topoLoop, hemp]
        rw [hres]
        simp only [List.flatten_nil]
        have hPcase : ∀ {k : K}, k ∈ candsOf g prev unsat →
            ∃ d ∈ depsOf g k, d ∉ sat := by
          intro k hc
          rcases emitFold_cand_split (candsOf g prev unsat) sat hc with hE2 | hP
          · have hE2b : k ∈ (topoStep g prev sat unsat).1 := hE2
            rw [hE] at hE2b
            exact absurd hE2b (List.not_mem_nil k)
          · exact emitFold_empty_pool _ _ hE hP
        constructor
        · intro k hkey hns _
          rcases inv.cover k hkey hns with hu | ⟨d, hd, hdns⟩ | ⟨d, hd, hdp⟩
          · rcases hPcase ((mem_candsOf hnd).mpr (Or.inr hu)) with ⟨d, hd, hdns⟩
            exact ⟨d, hd, hdns, List.not_mem_nil d⟩
          · exact ⟨d, hd, hdns, List.not_mem_nil d⟩
          · rcases hPcase ((mem_candsOf hnd).mpr (Or.inl ⟨hkey, d, hd, hdp⟩)) with
              ⟨d2, hd2, hdns2⟩
            exact ⟨d2, hd2, hdns2, List.not_mem_nil d2⟩
        · intro k hk
          have hknsO : k ∉ (topoStep g prev sat unsat).2.2 :=
            emitFold_pool_nsat _ _ candsOf_nodup inv.sat_ord hk
          refine ⟨candsOf_sub_keys hnd inv.unsat_sub k (emitFold_pool_sub _ _ hk),
            ?_, List.not_mem_nil k⟩
          exact fun hs => hknsO (emitFold_sat_mono _ _ hs)
      · have hEne : (topoStep g prev sat unsat).1 ≠ [] := by
          intro h
          rw [h] at hemp
          exact hemp rfl
        have inv2 := topoStep_inv hnd inv hEne
        have hm2 : topoMeasure g (topoStep g prev sat unsat).2.2
            (topoStep g prev sat unsat).1 < f := by
          have := topoMeasure_step hnd inv hEne
          omega
        have ihres := ih (topoStep g prev sat unsat).1
          (topoStep g prev sat unsat).2.2 (topoStep g prev sat unsat).2.1 inv2 hm2
        have hres : topoLoop g (f + 1) prev sat unsat =
            ((topoStep g prev sat unsat).1 ::
              (topoLoop g f (topoStep g prev sat unsat).1
                (topoStep g prev sat unsat).2.2 (topoStep g prev sat unsat).2.1).1,
             (topoLoop g f (topoStep g prev sat unsat).1
                (topoStep g prev sat unsat).2.2 (topoStep g prev sat unsat).2.1).2) := by
          simp [topoLoop, hemp]
        rw [hres]
        simp only [List.flatten_cons]
        constructor
        · intro k hkey hns hnf
          have hknE : k ∉ (topoStep g prev sat unsat).1 :=
            fun h => hnf (List.mem_append.mpr (Or.inl h))
          have hknR : k ∉ (topoLoop g f (topoStep g prev sat unsat).1
              (topoStep g prev sat unsat).2.2
              (topoStep g prev sat unsat).2.1).1.flatten :=
            fun h => hnf (List.mem_append.mpr (Or.inr h))
          have hknSO : k ∉ (topoStep g prev sat unsat).2.2 := by
            intro h
            rcases (emitFold_satOut_iff _ _ k).mp h with h2 | h2
            · exact hns h2
            · exact hknE h2
          rcases ihres.1 k hkey hknSO hknR with ⟨d, hd, hdnSO, hdnR⟩
          refine ⟨d, hd, fun hs => hdnSO (emitFold_sat_mono _ _ hs), ?_⟩
          intro hmem
          rcases List.mem_append.mp hmem with h2 | h2
          · exact hdnSO ((emitFold_satOut_iff _ _ d).mpr (Or.inr h2))
          · exact hdnR h2
        · intro k hk
          rcases ihres.2 k hk with ⟨hkey, hknSO, hknR⟩
          refine ⟨hkey, fun hs => hknSO (emitFold_sat_mono _ _ hs), ?_⟩
          intro hmem
          rcases List.mem_append.mp hmem with h2 | h2
          · exact hknSO ((emitFold_satOut_iff _ _ k).mpr (Or.inr h2))
          · exact hknR h2

/-- Given enough fuel for the measure, the loop is insensitive to extra
fuel. -/
theorem topoLoop_fuel_stable (hnd : (keysG g).Nodup) :
    ∀ (fuel m : Nat) (prev sat unsat : List K), TopoInv g prev sat unsat →
      topoMeasure g sat prev < fuel →
      topoLoop g fuel prev sat unsat = topoLoop g (fuel + m) prev sat unsat := by
  intro fuel
  induction fuel with
  | zero =>
      intro m prev sat unsat _ hm
      exact absurd hm (Nat.not_lt_zero _)
  | succ f ih =>
      intro m prev sat unsat inv hm
      have hms : f + 1 + m = (f + m) + 1 := by omega
      rw [hms]
      by_cases hemp : (topoStep g prev sat unsat).1.isEmpty
      · simp [topoLoop, hemp]
      · have hEne : (topoStep g prev sat unsat).1 ≠ [] := by
          intro h
          rw [h] at hemp
          exact hemp rfl
        have inv2 := topoStep_inv hnd inv hEne
        have hm2 : topoMeasure g (topoStep g prev sat unsat).2.2
            (topoStep g prev sat unsat).1 < f := by
          have := topoMeasure_step hnd inv hEne
          omega
        have hrec := ih m (topoStep g prev sat unsat).1
          (topoStep g prev sat unsat).2.2 (topoStep g prev sat unsat).2.1 inv2 hm2
        simp [topoLoop, hemp, hrec]

/-! ### The initial state and the top level -/

theorem topoInv_init (hnd : (keysG g).Nodup) (hne : layerZero g ≠ []) :
    TopoInv g (layerZero g) (layerZero g) [] := by
  refine ⟨hne, fun k hk => hk, ?_, layerZero_nodup hnd, ?_, ?_, ?_, ?_, ?_⟩
  · intro k hk
    exact ((mem_layerZero hnd).mp hk).1
  · refine satOrd_of_leaves ?_
    intro k hk
    exact ((mem_layerZero hnd).mp hk).2
  · intro k hk
    exact absurd hk (List.not_mem_nil k)
  · intro k hk
    exact absurd hk (List.not_mem_nil k)
  · intro k hk
    exact absurd hk (List.not_mem_nil k)
  · intro k hkey hns
    have hdne : depsOf g k ≠ [] := by
      intro he
      exact hns ((mem_layerZero hnd).mpr ⟨hkey, he⟩)
    rcases List.exists_mem_of_ne_nil _ hdne with ⟨d, hd⟩
    by_cases hdl : d ∈ layerZero g
    · exact Or.inr (Or.inr ⟨d, hd, hdl⟩)
    · exact Or.inr (Or.inl ⟨d, hd, hdl⟩)

theorem topoMeasure_init_lt (hnd : (keysG g).Nodup) :
    topoMeasure g (layerZero g) (layerZero g) < (g.length + 1) * (g.length + 1) := by
  have hA : ((keysG g).filter (fun k => decide (k ∉ layerZero g))).length ≤
      g.length := by
    have h1 := List.length_filter_le (fun k => decide (k ∉ layerZero g)) (keysG g)
    have h2 : (keysG g).length = g.length := List.length_map _ _
    omega
  have hB : (layerZero g).length - minRank (layerZero g) (layerZero g) ≤ g.length := by
    have h1 : (layerZero g).length ≤ (keysG g).length := layerZero_sublist.length_le
    have h2 : (keysG g).length = g.length := List.length_map _ _
    omega
  have hle : topoMeasure g (layerZero g) (layerZero g) ≤
      g.length * (g.length + 1) + g.length := by
    simp only [topoMeasure]
    exact Nat.add_le_add (Nat.mul_le_mul_right _ hA) hB
  have hfin : g.length * (g.length + 1) + g.length <
      (g.length + 1) * (g.length + 1) := by
    rw [Nat.succ_mul]
    omega
  exact Nat.lt_of_le_of_lt hle hfin

/-- The fuel bound of `topological_sort` is sufficient: any larger fuel
produces the same result — the fueled model equals the unbounded Rust
loop. -/
theorem topological_sort_fuel_stable (hnd : (keysG g).Nodup) (m : Nat) :
    topoLoop g ((g.length + 1) * (g.length + 1)) (layerZero g) (layerZero g) [] =
      topoLoop g ((g.length + 1) * (g.length + 1) + m)
        (layerZero g) (layerZero g) [] := by
  by_cases hl0 : layerZero g = []
  · have hcands : candsOf g ([] : List K) ([] : List K) = [] := by
      have hfe : g.filter (fun p => p.2.any (fun d => decide (d ∈ ([] : List K)))) =
          [] := by
        refine List.filter_eq_nil_iff.mpr ?_
        intro p _
        simp
      simp [candsOf, hfe]
    have hstep : ∀ sat : List K, topoStep g ([] : List K) sat ([] : List K) =
        ([], [], sat) := by
      intro sat
      rw [topoStep_eq, hcands]
      rfl
    have hpos : (g.length + 1) * (g.length + 1) ≠ 0 := by positivity
    rcases Nat.exists_eq_succ_of_ne_zero hpos with ⟨f1, hf1⟩
    rw [hl0, hf1]
    have hadd : f1.succ + m = Nat.succ (f1 + m) := by omega
    rw [hadd]
    have hloop : ∀ f : Nat,
        topoLoop g (Nat.succ f) ([] : List K) ([] : List K) [] = ([], []) := by
      intro f
      simp [topoLoop, hstep]
    rw [hloop f1, hloop (f1 + m)]
  · exact topoLoop_fuel_stable hnd _ m _ _ _ (topoInv_init hnd hl0)
      (topoMeasure_init_lt hnd)

/-- Every layer member is a key of the graph. -/
theorem topo_sort_layers_keys (hnd : (keysG g).Nodup) :
    ∀ L ∈ (topological_sort g).1, ∀ k ∈ L, k ∈ keysG g := by
  intro L hL k hk
  by_cases h0 : (layerZero g).isEmpty
  · have h1 : (topological_sort g).1 = [] := by simp [topological_sort, h0]
    rw [h1] at hL
    exact absurd hL (List.not_mem_nil L)
  · have hres1 : (topological_sort g).1 =
        layerZero g :: (topoLoop g ((g.length + 1) * (g.length + 1))
          (layerZero g) (layerZero g) []).1 := by
      simp [topological_sort, h0]
    rw [hres1] at hL
    rcases List.mem_cons.mp hL with h | h
    · exact ((mem_layerZero hnd).mp (h ▸ hk)).1
    · rcases List.mem_iff_getElem?.mp h with ⟨i, hgeti⟩
      exact (topoLoop_layers hnd _ _ _ _ (satOrd_of_leaves
        (fun x hx => ((mem_layerZero hnd).mp hx).2))
        (fun x hx => absurd hx (List.not_mem_nil x))
        (fun x hx => absurd hx (List.not_mem_nil x)) i L hgeti k hk).1.1

/-- Every layer member is accessible under the dependency relation. -/
theorem topo_sort_acc (hnd : (keysG g).Nodup) {L : List K} {k : K}
    (hL : L ∈ (topological_sort g).1) (hk : k ∈ L) : Acc (DepRel g) k := by
  by_cases h0 : (layerZero g).isEmpty
  · have h1 : (topological_sort g).1 = [] := by simp [topological_sort, h0]
    rw [h1] at hL
    exact absurd hL (List.not_mem_nil L)
  · have hres1 : (topological_sort g).1 =
        layerZero g :: (topoLoop g ((g.length + 1) * (g.length + 1))
          (layerZero g) (layerZero g) []).1 := by
      simp [topological_sort, h0]
    rw [hres1] at hL
    rcases List.mem_cons.mp hL with h | h
    · refine Acc.intro _ (fun d hd => ?_)
      have hde := ((mem_layerZero hnd).mp (h ▸ hk)).2
      rw [DepRel, hde] at hd
      exact absurd hd (List.not_mem_nil d)
    · rcases List.mem_iff_getElem?.mp h with ⟨i, hgeti⟩
      exact (topoLoop_layers hnd _ _ _ _ (satOrd_of_leaves
        (fun x hx => ((mem_layerZero hnd).mp hx).2))
        (fun x hx => absurd hx (List.not_mem_nil x))
        (fun x hx => absurd hx (List.not_mem_nil x)) i L hgeti k hk).1.2

/-- The declared dependencies of a member of layer `i` all lie in layers of
index at most `i`. -/
theorem topo_sort_deps_take (hnd : (keysG g).Nodup) :
    ∀ i L, (topological_sort g).1[i]? = some L → ∀ k ∈ L, ∀ d ∈ depsOf g k,
      d ∈ ((topological_sort g).1.take (i + 1)).flatten := by
  intro i L hget k hk d hd
  by_cases h0 : (layerZero g).isEmpty
  · have h1 : (topological_sort g).1 = [] := by simp [topological_sort, h0]
    rw [h1] at hget
    simp at hget
  · have hres1 : (topological_sort g).1 =
        layerZero g :: (topoLoop g ((g.length + 1) * (g.length + 1))
          (layerZero g) (layerZero g) []).1 := by
      simp [topological_sort, h0]
    rw [hres1] at hget ⊢
    match i, hget with
    | 0, hget =>
        have hL : L = layerZero g := by simpa using hget.symm
        subst hL
        have hde := ((mem_layerZero hnd).mp hk).2
        rw [hde] at hd
        exact absurd hd (List.not_mem_nil d)
    | i' + 1, hget =>
        have hget2 : (topoLoop g ((g.length + 1) * (g.length + 1))
            (layerZero g) (layerZero g) []).1[i']? = some L := by
          simpa using hget
        have hdep := (topoLoop_layers hnd _ _ _ _ (satOrd_of_leaves
          (fun x hx => ((mem_layerZero hnd).mp hx).2))
          (fun x hx => absurd hx (List.not_mem_nil x))
          (fun x hx => absurd hx (List.not_mem_nil x)) i' L hget2 k hk).2.1 d hd
        simp only [List.take_succ_cons, List.flatten_cons, List.mem_append]
        rcases hdep with h | h
        · exact Or.inl h
        · exact Or.inr h

/-- A member of layer `i + 1` has a declared dependency in layer `i` or in
layer `i + 1` itself. -/
theorem topo_sort_succ_dep (hnd : (keysG g).Nodup) :
    ∀ i Lp L, (topological_sort g).1[i]? = some Lp →
      (topological_sort g).1[i + 1]? = some L → ∀ k ∈ L,
      ∃ d ∈ depsOf g k, d ∈ Lp ∨ d ∈ L := by
  intro i Lp L hgetp hget k hk
  by_cases h0 : (layerZero g).isEmpty
  · have h1 : (topological_sort g).1 = [] := by simp [topological_sort, h0]
    rw [h1] at hget
    simp at hget
  · have hres1 : (topological_sort g).1 =
        layerZero g :: (topoLoop g ((g.length + 1) * (g.length + 1))
          (layerZero g) (layerZero g) []).1 := by
      simp [topological_sort, h0]
    rw [hres1] at hgetp hget
    have hget2 : (topoLoop g ((g.length + 1) * (g.length + 1))
        (layerZero g) (layerZero g) []).1[i]? = some L := by
      simpa using hget
    have hprops := topoLoop_layers hnd _ _ _ _ (satOrd_of_leaves
      (fun x hx => ((mem_layerZero hnd).mp hx).2))
      (fun x hx => absurd hx (List.not_mem_nil x))
      (fun x hx => absurd hx (List.not_mem_nil x)) i L hget2 k hk
    match i, hgetp, hget2, hprops with
    | 0, hgetp, hget2, hprops =>
        have hLp : Lp = layerZero g := by simpa using hgetp.symm
        subst hLp
        exact hprops.2.2.1 rfl
    | i2 + 1, hgetp, hget2, hprops =>
        have hgetp2 : (topoLoop g ((g.length + 1) * (g.length + 1))
            (layerZero g) (layerZero g) []).1[i2]? = some Lp := by
          simpa using hgetp
        exact hprops.2.2.2 i2 Lp rfl hgetp2

/-- The first layer consists exactly of the keys with no declared
dependencies. -/
theorem topo_sort_head (hnd : (keysG g).Nodup) :
    ∀ k, k ∈ ((topological_sort g).1.head?.getD []) ↔
      k ∈ keysG g ∧ depsOf g k = [] := by
  intro k
  by_cases h0 : (layerZero g).isEmpty
  · have h1 : (topological_sort g).1 = [] := by simp [topological_sort, h0]
    rw [h1]
    simp only [List.head?_nil, Option.getD_none]
    constructor
    · intro h
      exact absurd h (List.not_mem_nil k)
    · intro h
      have hmem : k ∈ layerZero g := (mem_layerZero hnd).mpr h
      rw [List.isEmpty_iff.mp h0] at hmem
      exact absurd hmem (List.not_mem_nil k)
  · have hres1 : (topological_sort g).1 =
        layerZero g :: (topoLoop g ((g.length + 1) * (g.length + 1))
          (layerZero g) (layerZero g) []).1 := by
      simp [topological_sort, h0]
    rw [hres1]
    simp only [List.head?_cons, Option.getD_some]
    exact mem_layerZero hnd

/-- Every key left out of every layer has a dependency that is also left
out (the final closure property of the loop). -/
theorem topo_sort_closure (hnd : (keysG g).Nodup) :
    ∀ k ∈ keysG g, k ∉ (topological_sort g).1.flatten →
      ∃ d ∈ depsOf g k, d ∉ (topological_sort g).1.flatten := by
  intro k hkey hns
  by_cases h0 : (layerZero g).isEmpty
  · have hl0 : layerZero g = [] := List.isEmpty_iff.mp h0
    have hdne : depsOf g k ≠ [] := by
      intro hde
      have hmem : k ∈ layerZero g := (mem_layerZero hnd).mpr ⟨hkey, hde⟩
      rw [hl0] at hmem
      exact absurd hmem (List.not_mem_nil k)
    rcases List.exists_mem_of_ne_nil _ hdne with ⟨d, hd⟩
    refine ⟨d, hd, ?_⟩
    simp [topological_sort, h0]
  · have hl0ne : layerZero g ≠ [] := fun he => by simp [he] at h0
    have hres1 : (topological_sort g).1 =
        layerZero g :: (topoLoop g ((g.length + 1) * (g.length + 1))
          (layerZero g) (layerZero g) []).1 := by
      simp [topological_sort, h0]
    have hend := topoLoop_end hnd ((g.length + 1) * (g.length + 1))
      (layerZero g) (layerZero g) [] (topoInv_init hnd hl0ne)
      (topoMeasure_init_lt hnd)
    have hSrw : ∀ x : K, x ∈ (topological_sort g).1.flatten ↔
        x ∈ layerZero g ∨ x ∈ (topoLoop g ((g.length + 1) * (g.length + 1))
          (layerZero g) (layerZero g) []).1.flatten := by
      intro x
      rw [hres1]
      simp [List.flatten_cons]
    have hk0 : k ∉ layerZero g := fun h => hns ((hSrw k).mpr (Or.inl h))
    have hkR : k ∉ (topoLoop g ((g.length + 1) * (g.length + 1))
        (layerZero g) (layerZero g) []).1.flatten :=
      fun h => hns ((hSrw k).mpr (Or.inr h))
    rcases hend.1 k hkey hk0 hkR with ⟨d, hd, hdn0, hdnR⟩
    refine ⟨d, hd, ?_⟩
    intro hdm
    rcases (hSrw d).mp hdm with h | h
    · exact hdn0 h
    · exact hdnR h

/-- Every detached node is a key that appears in no layer and has a
dependency that appears in no layer (and is hence never computed). -/
theorem topo_sort_detached (hnd : (keysG g).Nodup) :
    ∀ k ∈ (topological_sort g).2,
      k ∈ keysG g ∧ k ∉ (topological_sort g).1.flatten ∧
        ∃ d ∈ depsOf g k, d ∉ (topological_sort g).1.flatten := by
  have hSkeys : ∀ x ∈ (topological_sort g).1.flatten, x ∈ keysG g := by
    intro x hx
    rcases List.mem_flatten.mp hx with ⟨L, hL, hxL⟩
    exact topo_sort_layers_keys hnd L hL x hxL
  have hdet0 : ∀ k ∈ detachedInit g,
      k ∈ keysG g ∧ k ∉ (topological_sort g).1.flatten ∧
        ∃ d ∈ depsOf g k, d ∉ (topological_sort g).1.flatten := by
    intro k hk
    rcases (mem_detachedInit hnd).mp hk with ⟨hkey, _, d, hd, hdnk⟩
    have hdns : d ∉ (topological_sort g).1.flatten := fun hm => hdnk (hSkeys d hm)
    refine ⟨hkey, ?_, d, hd, hdns⟩
    intro hkS
    rcases List.mem_flatten.mp hkS with ⟨L, hL, hkL⟩
    rcases List.mem_iff_getElem?.mp hL with ⟨i, hgeti⟩
    have hdt := topo_sort_deps_take hnd i L hgeti k hkL d hd
    rcases List.mem_flatten.mp hdt with ⟨L2, hL2t, hdL2⟩
    exact hdns (List.mem_flatten.mpr ⟨L2, List.take_subset _ _ hL2t, hdL2⟩)
  intro k hk
  by_cases h0 : (layerZero g).isEmpty
  · have hres : (topological_sort g).2 = detachedInit g := by
      simp [topological_sort, h0]
    exact hdet0 k (hres ▸ hk)
  · have hl0ne : layerZero g ≠ [] := fun he => by simp [he] at h0
    have hres1 : (topological_sort g).1 =
        layerZero g :: (topoLoop g ((g.length + 1) * (g.length + 1))
          (layerZero g) (layerZero g) []).1 := by
      simp [topological_sort, h0]
    have hres2 : (topological_sort g).2 =
        detachedInit g ++ (topoLoop g ((g.length + 1) * (g.length + 1))
          (layerZero g) (layerZero g) []).2 := by
      simp [topological_sort, h0]
    have hend := topoLoop_end hnd ((g.length + 1) * (g.length + 1))
      (layerZero g) (layerZero g) [] (topoInv_init hnd hl0ne)
      (topoMeasure_init_lt hnd)
    have hSrw : ∀ x : K, x ∈ (topological_sort g).1.flatten ↔
        x ∈ layerZero g ∨ x ∈ (topoLoop g ((g.length + 1) * (g.length + 1))
          (layerZero g) (layerZero g) []).1.flatten := by
      intro x
      rw [hres1]
      simp [List.flatten_cons]
    rw [hres2] at hk
    rcases List.mem_append.mp hk with hk | hk
    · exact hdet0 k hk
    · rcases hend.2 k hk with ⟨hkey, hkns, hknR⟩
      have hknS : k ∉ (topological_sort g).1.flatten := by
        intro hm
        rcases (hSrw k).mp hm with h | h
        · exact hkns h
        · exact hknR h
      exact ⟨hkey, hknS, topo_sort_closure hnd k hkey hknS⟩

/-- Accessible elements are not related to themselves. -/
theorem acc_nrefl {α : Type} {s : α → α → Prop} {x : α} (h : Acc s x) : ¬ s x x := by
  induction h with
  | intro y _ ih => exact fun hyy => ih y hyy hyy

/-- Accessibility transports along transitive dependency. -/
theorem acc_depends {k c : K} (hk : Acc (DepRel g) k) (h : DependsT g k c) :
    Acc (DepRel g) c := by
  induction h with
  | single hstep => exact hk.inv hstep
  | tail _ hstep ih => exact ih.inv hstep

/-- An accessible key lies on no dependency cycle. -/
theorem acc_no_cycle {k : K} (hk : Acc (DepRel g) k) : ¬ DependsT g k k := by
  intro hcyc
  have h2 : Acc (Relation.TransGen (DepRel g)) k := hk.transGen
  exact acc_nrefl h2 (Relation.TransGen.swap hcyc)

/-- Completeness on acyclic, resolved graphs: every key is emitted in some
layer. -/
theorem topo_sort_complete (hnd : (keysG g).Nodup) (hres : ResolvedG g)
    (hacyc : AcyclicG g) : ∀ k ∈ keysG g, k ∈ (topological_sort g).1.flatten := by
  intro k
  induction hacyc k with
  | intro x _ ihx =>
      intro hxkey
      by_contra hxs
      rcases topo_sort_closure hnd x hxkey hxs with ⟨d, hd, hdns⟩
      exact hdns (ihx d hd (hres x hxkey d hd))

end GraphLemmas

/-! ## Claim C1 -/

/-- **C1, counterexample.**  The two-node cycle `x → y → x` is a batch
containing a dependency cycle, yet `topological_sort` returns an *empty*
detached list (and no layers): the cycle's nodes never become candidates of
the loop and are silently dropped, contradicting the claim that the detached
list contains every node on a cycle. -/
theorem c1_counterexample :
    DependsT [("x", ["y"]), ("y", ["x"])] "x" "x" ∧
      topological_sort [("x", ["y"]), ("y", ["x"])] = ([], []) ∧
      "x" ∉ (topological_sort [("x", ["y"]), ("y", ["x"])]).2 := by
  refine ⟨?_, by decide, by decide⟩
  have h1 : DepRel [("x", ["y"]), ("y", ["x"])] "y" "x" := by decide
  have h2 : DepRel [("x", ["y"]), ("y", ["x"])] "x" "y" := by decide
  exact Relation.TransGen.tail (Relation.TransGen.single h1) h2

/-- **C1 (amended).**  For every graph with duplicate-free keys (as
`Engine::execute` builds them): (i) if every declared dependency names a
node and the dependency relation is well-founded (the graph is acyclic),
`topological_sort` returns an empty detached list; (ii) a node lying on a
dependency cycle, or transitively depending on a node of a cycle, appears in
no layer — it is never scheduled.  (The claim's further assertion that such
nodes appear in the detached list is false; they may be dropped silently, as
the counterexample shows.) -/
theorem c1_amended {K : Type} [DecidableEq K] (g : List (K × List K))
    (hnd : (keysG g).Nodup) :
    (ResolvedG g → AcyclicG g → (topological_sort g).2 = [])
    ∧ (∀ k, (DependsT g k k ∨ ∃ c, DependsT g k c ∧ DependsT g c c) →
        ∀ L ∈ (topological_sort g).1, k ∉ L) := by
  constructor
  · intro hres hacyc
    refine List.eq_nil_iff_forall_not_mem.mpr ?_
    intro k hk
    rcases topo_sort_detached hnd k hk with ⟨hkey, hkns, _⟩
    exact hkns (topo_sort_complete hnd hres hacyc k hkey)
  · intro k hcyc L hL hkL
    have hacc := topo_sort_acc hnd hL hkL
    rcases hcyc with hself | ⟨c, hkc, hcc⟩
    · exact acc_no_cycle hacc hself
    · exact acc_no_cycle (acc_depends hacc hkc) hcc

/-- The two-node chain `b → a` is acyclic (shared by several witnesses). -/
theorem acyclic_ab : AcyclicG [("a", ([] : List String)), ("b", ["a"])] := by
  have accA : Acc (DepRel [("a", ([] : List String)), ("b", ["a"])]) "a" :=
    Acc.intro _ (fun d hd => absurd (show d ∈ ([] : List String) from hd)
      (List.not_mem_nil d))
  have accB : Acc (DepRel [("a", ([] : List String)), ("b", ["a"])]) "b" :=
    Acc.intro _ (fun d hd => by
      have hda : d = "a" := List.mem_singleton.mp (show d ∈ ["a"] from hd)
      rw [hda]
      exact accA)
  intro k
  by_cases ha : k = "a"
  · rw [ha]; exact accA
  · by_cases hb : k = "b"
    · rw [hb]; exact accB
    · refine Acc.intro _ (fun d hd => ?_)
      have hde : depsOf [("a", ([] : List String)), ("b", ["a"])] k = [] := by
        simp [depsOf, Ne.symm ha, Ne.symm hb]
      rw [DepRel, hde] at hd
      exact absurd hd (List.not_mem_nil d)

/-- **C1, witness.**  The acyclic, fully resolved two-node chain
`b → a` produces no detached entries (via the amended theorem), and its
layers compute to `[[a], [b]]`. -/
theorem c1_amended_witness :
    (topological_sort [("a", ([] : List String)), ("b", ["a"])]).2 = [] ∧
      (topological_sort [("a", ([] : List String)), ("b", ["a"])]).1 = [["a"], ["b"]] := by
  refine ⟨(c1_amended _ (by decide)).1 (by decide) acyclic_ab, by decide⟩

/-! ## Claims C5, C6, C10: the arithmetic and string boundaries of the
evaluator -/

/-- **C5.**  When both operands of `Divide` evaluate successfully, the
evaluation fails with `DivisionByZero` exactly when both operand values are
numbers and the right one is `0`; with a non-zero numeric right operand it
returns the exact quotient (no `inf`/`NaN` is produced at this boundary, the
result being `Ok` of a number); and when the operand values are not both
numbers it fails with the `Division requires numbers` type error instead. -/
theorem c5_divide_by_zero (env : Env) (n : Nat) (l r : Expr)
    (c c1 c2 : List (String × Value)) (u v : Value)
    (hl : evalExpr env n l c = (Except.ok u, c1))
    (hr : evalExpr env n r c1 = (Except.ok v, c2)) :
    ((evalExpr env (n + 1) (Expr.divide l r) c).1 = Except.error CalcError.divisionByZero ↔
      ∃ a b, u = Value.num a ∧ v = Value.num b ∧ b = 0)
    ∧ (∀ a b, u = Value.num a → v = Value.num b → b ≠ 0 →
        evalExpr env (n + 1) (Expr.divide l r) c = (Except.ok (Value.num (ratDiv a b)), c2))
    ∧ ((∀ a b, ¬(u = Value.num a ∧ v = Value.num b)) →
        evalExpr env (n + 1) (Expr.divide l r) c =
          (Except.error (CalcError.typeError "Division requires numbers"), c2)) := by
  have hstep : evalExpr env (n + 1) (Expr.divide l r) c =
      numBin "Division requires numbers"
        (fun a b => if b.num = 0 then (Except.error CalcError.divisionByZero, c2)
          else (Except.ok (Value.num (ratDiv a b)), c2)) u v c2 := by
    simp [evalExpr, hl, hr, bindE]
  rw [hstep]
  refine ⟨?_, ?_, ?_⟩
  · cases u with
    | num a =>
        cases v with
        | num b =>
            show ((if b.num = 0 then (Except.error CalcError.divisionByZero, c2)
                else (Except.ok (Value.num (ratDiv a b)), c2)).1 =
                  Except.error CalcError.divisionByZero) ↔ _
            by_cases hb : b.num = 0
            · have hb0 : b = 0 := Rat.num_eq_zero.mp hb
              rw [if_pos hb]
              exact ⟨fun _ => ⟨a, b, rfl, rfl, hb0⟩, fun _ => rfl⟩
            · have hb0 : b ≠ 0 := fun he => hb (Rat.num_eq_zero.mpr he)
              rw [if_neg hb]
              constructor
              · intro h
                exact absurd h (by simp)
              · rintro ⟨a2, b2, ha2, hb2, hb20⟩
                rcases Value.num.inj hb2 with rfl
                exact absurd hb20 hb0
        | str s =>
            exact ⟨fun h => absurd h (by simp [numBin]),
              by rintro ⟨a2, b2, _, h, _⟩; exact Value.noConfusion h⟩
        | bool b2 =>
            exact ⟨fun h => absurd h (by simp [numBin]),
              by rintro ⟨a2, b2, _, h, _⟩; exact Value.noConfusion h⟩
    | str s =>
        cases v <;>
          exact ⟨fun h => absurd h (by simp [numBin]),
            by rintro ⟨a2, b2, h, _, _⟩; exact Value.noConfusion h⟩
    | bool b0 =>
        cases v <;>
          exact ⟨fun h => absurd h (by simp [numBin]),
            by rintro ⟨a2, b2, h, _, _⟩; exact Value.noConfusion h⟩
  · rintro a b rfl rfl hb0
    simp only [numBin]
    rw [if_neg (fun he => hb0 (Rat.num_eq_zero.mp he))]
  · intro hno
    cases u with
    | num a =>
        cases v with
        | num b => exact absurd ⟨rfl, rfl⟩ (hno a b)
        | str s => simp [numBin]
        | bool b2 => simp [numBin]
    | str s => cases v <;> simp [numBin]
    | bool b0 => cases v <;> simp [numBin]

/-- **C5, witness.**  `10 / 0` fails with `DivisionByZero`; `10 / 4` returns
`5/2`; `'x' / 1` fails with the type error. -/
theorem c5_divide_by_zero_witness :
    (evalExpr trivialEnv 2 (Expr.divide (Expr.number (mkRat 10 1)) (Expr.number (mkRat 0 1)))
        []).1 = Except.error CalcError.divisionByZero
    ∧ evalExpr trivialEnv 2 (Expr.divide (Expr.number (mkRat 10 1)) (Expr.number (mkRat 4 1)))
        [] = (Except.ok (Value.num (ratDiv (mkRat 10 1) (mkRat 4 1))), [])
    ∧ evalExpr trivialEnv 2 (Expr.divide (Expr.string "x") (Expr.number (mkRat 1 1)))
        [] = (Except.error (CalcError.typeError "Division requires numbers"), []) := by
  refine ⟨?_, ?_, ?_⟩
  · exact (c5_divide_by_zero trivialEnv 1 (Expr.number (mkRat 10 1))
      (Expr.number (mkRat 0 1)) [] [] [] (Value.num (mkRat 10 1)) (Value.num (mkRat 0 1))
      (by decide) (by decide)).1.mpr ⟨mkRat 10 1, mkRat 0 1, rfl, rfl, by decide⟩
  · exact (c5_divide_by_zero trivialEnv 1 (Expr.number (mkRat 10 1))
      (Expr.number (mkRat 4 1)) [] [] [] (Value.num (mkRat 10 1)) (Value.num (mkRat 4 1))
      (by decide) (by decide)).2.1 (mkRat 10 1) (mkRat 4 1) rfl rfl (by decide)
  · exact (c5_divide_by_zero trivialEnv 1 (Expr.string "x")
      (Expr.number (mkRat 1 1)) [] [] [] (Value.str "x") (Value.num (mkRat 1 1))
      (by decide) (by decide)).2.2 (fun a b h => Value.noConfusion h.1)

/-- **C6.**  When both operands of `Add` evaluate successfully: two numeric
values produce their exact sum, and in every other case (string, boolean or
mixed values) the result is the string concatenation of the two values'
textual forms (`Value::get`) — never a type error.  In particular
`'a' + 1` yields the string `"a1"`. -/
theorem c6_add_overload (env : Env) (n : Nat) (l r : Expr)
    (c c1 c2 : List (String × Value)) (u v : Value)
    (hl : evalExpr env n l c = (Except.ok u, c1))
    (hr : evalExpr env n r c1 = (Except.ok v, c2)) :
    (∀ a b, u = Value.num a → v = Value.num b →
        evalExpr env (n + 1) (Expr.add l r) c = (Except.ok (Value.num (ratAdd a b)), c2))
    ∧ ((∀ a b, ¬(u = Value.num a ∧ v = Value.num b)) →
        evalExpr env (n + 1) (Expr.add l r) c =
          (Except.ok (Value.str (u.get ++ v.get)), c2))
    ∧ (∀ (env2 : Env) (c0 : List (String × Value)),
        evalExpr env2 2 (Expr.add (Expr.string "a") (Expr.number (mkRat 1 1))) c0 =
          (Except.ok (Value.str "a1"), c0)) := by
  refine ⟨?_, ?_, ?_⟩
  · rintro a b rfl rfl
    simp [evalExpr, hl, hr, bindE]
  · intro hno
    cases u with
    | num a =>
        cases v with
        | num b => exact absurd ⟨rfl, rfl⟩ (hno a b)
        | str s => simp [evalExpr, hl, hr, bindE]
        | bool b2 => simp [evalExpr, hl, hr, bindE]
    | str s => cases v <;> simp [evalExpr, hl, hr, bindE]
    | bool b0 => cases v <;> simp [evalExpr, hl, hr, bindE]
  · intro env2 c0
    show (Except.ok (Value.str (Value.get (Value.str "a") ++
      Value.get (Value.num (mkRat 1 1)))), c0) = (Except.ok (Value.str "a1"), c0)
    have : Value.get (Value.str "a") ++ Value.get (Value.num (mkRat 1 1)) = "a1" := by decide
    rw [this]

/-- **C6, witness.**  `true + 'x'` concatenates to `"truex"` (no type
error), and `2 + 3` adds numerically. -/
theorem c6_add_overload_witness :
    evalExpr trivialEnv 2 (Expr.add (Expr.bool true) (Expr.string "x")) [] =
      (Except.ok (Value.str "truex"), [])
    ∧ evalExpr trivialEnv 2 (Expr.add (Expr.number (mkRat 2 1)) (Expr.number (mkRat 3 1))) [] =
      (Except.ok (Value.num (ratAdd (mkRat 2 1) (mkRat 3 1))), []) := by
  constructor
  · have h := (c6_add_overload trivialEnv 1 (Expr.bool true) (Expr.string "x") [] [] []
      (Value.bool true) (Value.str "x") (by decide) (by decide)).2.1
      (fun a b hab => Value.noConfusion hab.1)
    rw [h]
    decide
  · exact (c6_add_overload trivialEnv 1 (Expr.number (mkRat 2 1)) (Expr.number (mkRat 3 1))
      [] [] [] (Value.num (mkRat 2 1)) (Value.num (mkRat 3 1)) (by decide) (by decide)).1
      (mkRat 2 1) (mkRat 3 1) rfl rfl

/-- **C10.**  When its three operands evaluate to a string and two numbers,
`substr` never fails: the start and length are converted by Rust's `as
usize` cast (truncation toward zero, negatives collapsing to `0`), the
codepoint slice is clamped at the string's end, and a (converted) start at
or past the end yields the empty string. -/
theorem c10_substr_total (env : Env) (n : Nat) (e1 e2 e3 : Expr)
    (c c1 c2 c3 : List (String × Value)) (s : String) (q1 q2 : ℚ)
    (h1 : evalExpr env n e1 c = (Except.ok (Value.str s), c1))
    (h2 : evalExpr env n e2 c1 = (Except.ok (Value.num q1), c2))
    (h3 : evalExpr env n e3 c2 = (Except.ok (Value.num q2), c3)) :
    evalExpr env (n + 1) (Expr.substr e1 e2 e3) c =
      (Except.ok (Value.str
        (String.mk ((s.toList.drop (rustUsize q1)).take (rustUsize q2)))), c3)
    ∧ (q1 < 0 → rustUsize q1 = 0)
    ∧ (0 ≤ q1 → (rustUsize q1 : Int) = Rat.floor q1)
    ∧ (s.toList.length ≤ rustUsize q1 →
        (s.toList.drop (rustUsize q1)).take (rustUsize q2) = []) := by
  refine ⟨by simp [evalExpr, h1, h2, h3, bindE], ?_, ?_, ?_⟩
  · intro hq1
    have hnum : q1.num ≤ 0 := by
      have := Rat.num_nonneg.not.mpr (not_le.mpr hq1)
      omega
    simp [rustUsize, hnum]
  · intro hq1
    by_cases hz : q1.num ≤ 0
    · have h0 : 0 ≤ q1.num := Rat.num_nonneg.mpr hq1
      have hz0 : q1.num = 0 := le_antisymm hz h0
      rw [Rat.floor_def', hz0]
      simp [rustUsize, hz]
    · have hfl : 0 ≤ Rat.floor q1 := Rat.le_floor.mpr (by exact_mod_cast hq1)
      simp [rustUsize, hz, Int.toNat_of_nonneg hfl]
  · intro hlen
    rw [List.drop_eq_nil_of_le hlen, List.take_nil]

/-- **C10, witness.**  `substr('Hello World', -1.5, 5.9)` returns
`"Hello"`: the fractional length truncates to 5, the negative start
saturates to 0; and a start past the end gives `""`. -/
theorem c10_substr_total_witness :
    evalExpr trivialEnv 2 (Expr.substr (Expr.string "Hello World")
        (Expr.number (mkRat (-3) 2)) (Expr.number (mkRat 59 10))) [] =
      (Except.ok (Value.str "Hello"), [])
    ∧ evalExpr trivialEnv 2 (Expr.substr (Expr.string "Hi")
        (Expr.number (mkRat 7 1)) (Expr.number (mkRat 3 1))) [] =
      (Except.ok (Value.str ""), []) := by
  constructor
  · have h := (c10_substr_total trivialEnv 1 (Expr.string "Hello World")
      (Expr.number (mkRat (-3) 2)) (Expr.number (mkRat 59 10)) [] [] [] []
      "Hello World" (mkRat (-3) 2) (mkRat 59 10) (by decide) (by decide) (by decide)).1
    rw [h]
    decide
  · have h := (c10_substr_total trivialEnv 1 (Expr.string "Hi")
      (Expr.number (mkRat 7 1)) (Expr.number (mkRat 3 1)) [] [] [] []
      "Hi" (mkRat 7 1) (mkRat 3 1) (by decide) (by decide) (by decide)).1
    rw [h]
    decide

/-! ## Claim C7 -/

theorem snakePiece_head (pre : List Char) (ch : Char) (rest : List Char) :
    snakePiece (pre ++ ch :: rest) pre.length ch =
      (if ch.isUpper then
        (if (match pre.getLast? with
             | some p => p.isLower || (match rest.head? with
                 | some nx => nx.isLower
                 | none => false)
             | none => false) = true
          then ['_'] else []) ++ [ch.toLower]
       else [ch]) := by
  unfold snakePiece
  by_cases hu : ch.isUpper
  · rw [if_pos hu, if_pos hu]
    congr 1
    rcases hpre : pre.getLast? with _ | p
    · have hpe : pre = [] := List.getLast?_eq_none_iff.mp hpre
      subst hpe
      simp
    · have hpne : pre ≠ [] := by
        intro he
        rw [he] at hpre
        simp at hpre
      have hplen : 0 < pre.length := List.length_pos.mpr hpne
      have hprev : (pre ++ ch :: rest).getD (pre.length - 1) ' ' = p := by
        rw [List.getD_eq_getElem?_getD, List.getElem?_append_left (by omega)]
        rw [List.getLast?_eq_getElem?] at hpre
        rw [hpre]
        rfl
      cases rest with
      | nil =>
          have hcond : (0 < pre.length ∧
              (((pre ++ [ch]).getD (pre.length - 1) ' ').isLower ∨
                (pre.length + 1 < (pre ++ [ch]).length ∧
                  ((pre ++ [ch]).getD (pre.length + 1) ' ').isLower))) ↔
              (p.isLower || false) = true := by
            rw [hprev]
            have hnb : ¬ (pre.length + 1 < (pre ++ [ch]).length) := by simp
            simp [hplen, hnb]
          exact if_congr hcond rfl rfl
      | cons nx rest2 =>
          have hnb : pre.length + 1 < (pre ++ ch :: nx :: rest2).length := by
            simp
          have hnext : (pre ++ ch :: nx :: rest2).getD (pre.length + 1) ' ' = nx := by
            rw [List.getD_eq_getElem?_getD, List.getElem?_append_right (by omega)]
            have h1 : pre.length + 1 - pre.length = 1 := by omega
            rw [h1]
            simp
          have hcond : (0 < pre.length ∧
              (((pre ++ ch :: nx :: rest2).getD (pre.length - 1) ' ').isLower ∨
                (pre.length + 1 < (pre ++ ch :: nx :: rest2).length ∧
                  ((pre ++ ch :: nx :: rest2).getD (pre.length + 1) ' ').isLower))) ↔
              (p.isLower || nx.isLower) = true := by
            rw [hprev, hnext]
            simp [hplen, hnb]
          exact if_congr hcond rfl rfl
  · rw [if_neg hu, if_neg hu]

/-- The indexed loop of `to_snake_case`, restarted at the suffix after `pre`,
computes the neighbour-walk `snakeGo` carried by `pre`'s last character. -/
theorem snakePiece_walk :
    ∀ (suf pre : List Char),
      ((List.range suf.length).map
        (fun i => snakePiece (pre ++ suf) (pre.length + i)
          ((pre ++ suf).getD (pre.length + i) ' '))).flatten = snakeGo pre.getLast? suf := by
  intro suf
  induction suf with
  | nil => intro pre; simp [snakeGo]
  | cons ch rest ih =>
      intro pre
      have hch : (pre ++ ch :: rest).getD (pre.length + 0) ' ' = ch := by
        rw [List.getD_eq_getElem?_getD, List.getElem?_append_right (by omega)]
        simp
      rw [List.length_cons, List.range_succ_eq_map]
      simp only [List.map_cons, List.map_map, List.flatten_cons]
      have hih := ih (pre ++ [ch])
      have hshape : ((List.range rest.length).map
          ((fun i => snakePiece (pre ++ ch :: rest) (pre.length + i)
            ((pre ++ ch :: rest).getD (pre.length + i) ' ')) ∘ Nat.succ)).flatten =
          snakeGo (some ch) rest := by
        have hre : pre ++ ch :: rest = (pre ++ [ch]) ++ rest := by simp
        have hlen : ∀ i : Nat, pre.length + (i + 1) = (pre ++ [ch]).length + i := by
          intro i
          simp
          omega
        have hfun : ((fun i => snakePiece (pre ++ ch :: rest) (pre.length + i)
              ((pre ++ ch :: rest).getD (pre.length + i) ' ')) ∘ Nat.succ) =
            (fun i => snakePiece ((pre ++ [ch]) ++ rest) ((pre ++ [ch]).length + i)
              (((pre ++ [ch]) ++ rest).getD ((pre ++ [ch]).length + i) ' ')) := by
          funext i
          simp only [Function.comp]
          rw [← hre, ← hlen i]
        rw [hfun, hih]
        simp
      rw [hshape, hch]
      show snakePiece (pre ++ ch :: rest) (pre.length + 0) ch ++ _ = _
      rw [show pre.length + 0 = pre.length from rfl, snakePiece_head]
      rfl

/-- The source's `to_snake_case` satisfies the spec's neighbour rule. -/
theorem to_snake_case_spec (s : String) :
    to_snake_case s = String.mk (snakeGo none s.toList) := by
  have h := snakePiece_walk s.toList []
  simp only [List.nil_append, List.length_nil, Nat.zero_add, List.getLast?_nil] at h
  unfold to_snake_case
  show String.mk ((List.map (fun i => snakePiece s.toList i (s.toList.getD i ' '))
      (List.range s.toList.length)).flatten) = String.mk (snakeGo none s.toList)
  exact congrArg String.mk h

/-- **C7.**  A user `FunctionCall` with name `n` and `k` arguments is keyed
as `snake_case(n) ++ "_" ++ k`, where `to_snake_case` obeys the spec's
neighbour rule (`to_snake_case_spec`): a cache hit under that key returns
the cached value with no argument evaluated and no cache change — so a
second call under the same key (same snake-cased name and arity, any
arguments) returns the first call's result; a miss with no registered
function fails with `FunctionNotFound`; and a miss with a registered
function evaluates the arguments left-to-right (`evalSeq`), invokes the
function, and stores the result under the key. -/
theorem c7_function_call_cache (env : Env) (n : Nat) (name : String)
    (args : List Expr) (c : List (String × Value)) :
    (∀ v, c.lookup (build_function_id name args.length) = some v →
        evalExpr env (n + 1) (Expr.functionCall name args) c = (Except.ok v, c))
    ∧ (c.lookup (build_function_id name args.length) = none →
        env.functionCache.lookup (build_function_id name args.length) = none →
        evalExpr env (n + 1) (Expr.functionCall name args) c =
          (Except.error (CalcError.functionNotFound (build_function_id name args.length)), c))
    ∧ (∀ f vs c1 res, c.lookup (build_function_id name args.length) = none →
        env.functionCache.lookup (build_function_id name args.length) = some f →
        evalSeq (evalExpr env n) args c = (Except.ok vs, c1) →
        f vs = Except.ok res →
        evalExpr env (n + 1) (Expr.functionCall name args) c =
          (Except.ok res, (build_function_id name args.length, res) :: c1))
    ∧ (∀ (res : Value) (c2 : List (String × Value)) (args2 : List Expr) (m : Nat),
        args2.length = args.length →
        evalExpr env (m + 1) (Expr.functionCall name args2)
            ((build_function_id name args.length, res) :: c2) =
          (Except.ok res, (build_function_id name args.length, res) :: c2))
    ∧ build_function_id name args.length =
        to_snake_case name ++ "_" ++ toString args.length
    ∧ (to_snake_case name = String.mk (snakeGo none name.toList)) := by
  refine ⟨?_, ?_, ?_, ?_, rfl, to_snake_case_spec name⟩
  · intro v hv
    simp [evalExpr, hv]
  · intro hmiss hfn
    simp [evalExpr, hmiss, hfn]
  · intro f vs c1 res hmiss hfn hargs hres
    simp [evalExpr, hmiss, hfn, hargs, hres]
  · intro res c2 args2 m hlen
    have hkey : List.lookup (build_function_id name args2.length)
        ((build_function_id name args.length, res) :: c2) = some res := by
      rw [hlen]
      simp [List.lookup]
    simp [evalExpr, hkey]

/-- **C7, witness.**  With `f_1` cached as `7`, the call `f('ignored')`
returns the cached `7` without evaluating anything; and the snake-case
examples of the repository (`MyFunction` → `my_function_2`,
`simpleFunc` → `simple_func_0`, `UPPER` → `upper_1`, and the run boundary
`HTTPServer` → `http_server`) hold. -/
theorem c7_function_call_cache_witness :
    evalExpr trivialEnv 5 (Expr.functionCall "f" [Expr.string "ignored"])
        [("f_1", Value.num (mkRat 7 1))] =
      (Except.ok (Value.num (mkRat 7 1)), [("f_1", Value.num (mkRat 7 1))])
    ∧ build_function_id "MyFunction" 2 = "my_function_2"
    ∧ build_function_id "simpleFunc" 0 = "simple_func_0"
    ∧ build_function_id "UPPER" 1 = "upper_1"
    ∧ to_snake_case "HTTPServer" = "http_server" := by
  refine ⟨?_, by decide, by decide, by decide, by decide⟩
  exact (c7_function_call_cache trivialEnv 4 "f" [Expr.string "ignored"]
    [("f_1", Value.num (mkRat 7 1))]).1 (Value.num (mkRat 7 1)) (by decide)

/-! ## Engine bookkeeping lemmas

The caches only grow: a recorded result or error survives every later
commit, and a layer that does not mention a name leaves that name's result
untouched. -/

section EngineLemmas

theorem lookup_cons_isSome {β : Type} (k n : String) (v : β) (l : List (String × β))
    (h : (l.lookup n).isSome) : (((k, v) :: l).lookup n).isSome := by
  cases hnk : n == k
  · simpa [List.lookup, hnk] using h
  · simp [List.lookup, hnk]

theorem lookup_cons_ne {β : Type} {k n : String} (v : β) (l : List (String × β))
    (h : n ≠ k) : ((k, v) :: l).lookup n = l.lookup n := by
  have hb : (n == k) = false := beq_eq_false_iff_ne.mpr h
  simp [List.lookup, hb]

theorem commitResults_resultMono :
    ∀ (rs : List (String × Except CalcError Value)) (st : EngineState) (n : String),
      (getResult st n).isSome → (getResult (commitResults st rs) n).isSome := by
  intro rs
  induction rs with
  | nil => intro st n h; exact h
  | cons p rest ih =>
      intro st n h
      obtain ⟨m, r⟩ := p
      cases r with
      | ok v =>
          simp only [commitResults]
          exact ih _ n (lookup_cons_isSome m n v _ h)
      | error e =>
          simp only [commitResults]
          exact ih _ n h

theorem commitResults_errorMono :
    ∀ (rs : List (String × Except CalcError Value)) (st : EngineState) (n : String),
      (getError st n).isSome → (getError (commitResults st rs) n).isSome := by
  intro rs
  induction rs with
  | nil => intro st n h; exact h
  | cons p rest ih =>
      intro st n h
      obtain ⟨m, r⟩ := p
      cases r with
      | ok v =>
          simp only [commitResults]
          exact ih _ n h
      | error e =>
          simp only [commitResults]
          exact ih _ n (lookup_cons_isSome m n _ _ h)

theorem commitResults_records :
    ∀ (rs : List (String × Except CalcError Value)) (st : EngineState) (n : String),
      (∃ r, (n, r) ∈ rs) →
      (getResult (commitResults st rs) n).isSome ∨
        (getError (commitResults st rs) n).isSome := by
  intro rs
  induction rs with
  | nil =>
      intro st n h
      rcases h with ⟨r, hr⟩
      exact absurd hr (List.not_mem_nil (n, r))
  | cons p rest ih =>
      intro st n h
      rcases h with ⟨r, hr⟩
      obtain ⟨m, r0⟩ := p
      rcases List.mem_cons.mp hr with he | he
      · have hm : n = m := congrArg Prod.fst he
        cases r0 with
        | ok v =>
            simp only [commitResults]
            refine Or.inl (commitResults_resultMono rest _ n ?_)
            show ((((m, v) :: st.formulaResultCache).lookup n)).isSome
            rw [hm]
            simp [List.lookup]
        | error e =>
            simp only [commitResults]
            refine Or.inr (commitResults_errorMono rest _ n ?_)
            show ((((m, _) :: st.errors).lookup n)).isSome
            rw [hm]
            simp [List.lookup]
      · cases r0 with
        | ok v => simp only [commitResults]; exact ih _ n ⟨r, he⟩
        | error e => simp only [commitResults]; exact ih _ n ⟨r, he⟩

theorem commitResults_result_stable :
    ∀ (rs : List (String × Except CalcError Value)) (st : EngineState) (n : String),
      (∀ pr ∈ rs, pr.1 ≠ n) →
      getResult (commitResults st rs) n = getResult st n := by
  intro rs
  induction rs with
  | nil => intro st n _; rfl
  | cons p rest ih =>
      intro st n h
      obtain ⟨m, r0⟩ := p
      have hm : m ≠ n := h (m, r0) (List.mem_cons_self _ _)
      have hrest : ∀ pr ∈ rest, pr.1 ≠ n := fun pr hpr => h pr (List.mem_cons_of_mem _ hpr)
      cases r0 with
      | ok v =>
          simp only [commitResults]
          rw [ih _ n hrest]
          exact lookup_cons_ne v _ (Ne.symm hm)
      | error e =>
          simp only [commitResults]
          exact ih _ n hrest

theorem layerResults_keys (xops : ExternOps) (fs : List Formula) (st : EngineState) :
    ∀ (layer : List String) (frc : List (String × Value))
      (pr : String × Except CalcError Value),
      pr ∈ (layerResults xops fs st layer frc).1 → pr.1 ∈ layer := by
  intro layer
  induction layer with
  | nil => intro frc pr h; exact absurd h (List.not_mem_nil pr)
  | cons m rest ih =>
      intro frc pr h
      simp only [layerResults] at h
      cases hf : fs.find? (fun f => f.name == m) with
      | none =>
          rw [hf] at h
          exact List.mem_cons_of_mem m (ih frc pr h)
      | some f =>
          rw [hf] at h
          dsimp only at h
          rcases List.mem_cons.mp h with he | he
          · rw [he]
            exact List.mem_cons_self m rest
          · exact List.mem_cons_of_mem m (ih _ pr he)

theorem layerResults_mem (xops : ExternOps) (fs : List Formula) (st : EngineState)
    (n : String) :
    ∀ (layer : List String) (frc : List (String × Value)),
      n ∈ layer → (fs.find? (fun f => f.name == n)).isSome →
      ∃ r, (n, r) ∈ (layerResults xops fs st layer frc).1 := by
  intro layer
  induction layer with
  | nil => intro frc h _; exact absurd h (List.not_mem_nil n)
  | cons m rest ih =>
      intro frc hmem hfind
      rcases List.mem_cons.mp hmem with he | he
      · subst he
        cases hf : fs.find? (fun f => f.name == n) with
        | none => rw [hf] at hfind; exact absurd hfind (by simp)
        | some f =>
            refine ⟨(tryExecuteFormula xops { st with functionResultCache := frc } f.body).1, ?_⟩
            simp only [layerResults, hf]
            exact List.mem_cons_self _ _
      · cases hf : fs.find? (fun f => f.name == m) with
        | none =>
            rcases ih frc he hfind with ⟨r, hr⟩
            refine ⟨r, ?_⟩
            simp only [layerResults, hf]
            exact hr
        | some f =>
            rcases ih ((tryExecuteFormula xops { st with functionResultCache := frc } f.body).2)
              he hfind with ⟨r, hr⟩
            refine ⟨r, ?_⟩
            simp only [layerResults, hf]
            exact List.mem_cons_of_mem _ hr

theorem execLayer_resultMono (xops : ExternOps) (fs : List Formula) (st : EngineState)
    (layer : List String) (n : String) (h : (getResult st n).isSome) :
    (getResult (execLayer xops fs st layer) n).isSome :=
  commitResults_resultMono _ _ n h

theorem execLayer_errorMono (xops : ExternOps) (fs : List Formula) (st : EngineState)
    (layer : List String) (n : String) (h : (getError st n).isSome) :
    (getError (execLayer xops fs st layer) n).isSome :=
  commitResults_errorMono _ _ n h

theorem execLayer_records (xops : ExternOps) (fs : List Formula) (st : EngineState)
    (layer : List String) (n : String) (hn : n ∈ layer)
    (hfind : (fs.find? (fun f => f.name == n)).isSome) :
    (getResult (execLayer xops fs st layer) n).isSome ∨
      (getError (execLayer xops fs st layer) n).isSome := by
  rcases layerResults_mem xops fs st n layer st.functionResultCache hn hfind with ⟨r, hr⟩
  exact commitResults_records _ _ n ⟨r, hr⟩

theorem execLayer_result_stable (xops : ExternOps) (fs : List Formula) (st : EngineState)
    (layer : List String) (n : String) (hn : n ∉ layer) :
    getResult (execLayer xops fs st layer) n = getResult st n := by
  apply commitResults_result_stable
  intro pr hpr heq
  exact hn (heq ▸ layerResults_keys xops fs st layer st.functionResultCache pr hpr)

theorem execLayers_resultMono (xops : ExternOps) (fs : List Formula) (n : String) :
    ∀ (layers : List (List String)) (st : EngineState),
      (getResult st n).isSome → (getResult (execLayers xops fs layers st) n).isSome := by
  intro layers
  induction layers with
  | nil => intro st h; exact h
  | cons L rest ih =>
      intro st h
      exact ih _ (execLayer_resultMono xops fs st L n h)

theorem execLayers_errorMono (xops : ExternOps) (fs : List Formula) (n : String) :
    ∀ (layers : List (List String)) (st : EngineState),
      (getError st n).isSome → (getError (execLayers xops fs layers st) n).isSome := by
  intro layers
  induction layers with
  | nil => intro st h; exact h
  | cons L rest ih =>
      intro st h
      exact ih _ (execLayer_errorMono xops fs st L n h)

theorem execLayers_records (xops : ExternOps) (fs : List Formula) (n : String) :
    ∀ (layers : List (List String)) (st : EngineState),
      (∃ L ∈ layers, n ∈ L) → (fs.find? (fun f => f.name == n)).isSome →
      (getResult (execLayers xops fs layers st) n).isSome ∨
        (getError (execLayers xops fs layers st) n).isSome := by
  intro layers
  induction layers with
  | nil =>
      intro st h _
      rcases h with ⟨L, hL, _⟩
      exact absurd hL (List.not_mem_nil L)
  | cons L0 rest ih =>
      intro st h hfind
      rcases h with ⟨L, hL, hnL⟩
      rcases List.mem_cons.mp hL with hh | hh
      · rcases execLayer_records xops fs st L0 n (hh ▸ hnL) hfind with h1 | h1
        · exact Or.inl (execLayers_resultMono xops fs n rest _ h1)
        · exact Or.inr (execLayers_errorMono xops fs n rest _ h1)
      · exact ih _ ⟨L, hh, hnL⟩ hfind

theorem execLayers_result_stable (xops : ExternOps) (fs : List Formula) (n : String) :
    ∀ (layers : List (List String)) (st : EngineState),
      (∀ L ∈ layers, n ∉ L) →
      getResult (execLayers xops fs layers st) n = getResult st n := by
  intro layers
  induction layers with
  | nil => intro st _; rfl
  | cons L0 rest ih =>
      intro st h
      have h0 : n ∉ L0 := h L0 (List.mem_cons_self _ _)
      have hrest : ∀ L ∈ rest, n ∉ L := fun L hL => h L (List.mem_cons_of_mem _ hL)
      show getResult (execLayers xops fs rest (execLayer xops fs st L0)) n = getResult st n
      rw [ih _ hrest]
      exact execLayer_result_stable xops fs st L0 n h0

theorem execLayers_append (xops : ExternOps) (fs : List Formula) :
    ∀ (l1 l2 : List (List String)) (st : EngineState),
      execLayers xops fs (l1 ++ l2) st = execLayers xops fs l2 (execLayers xops fs l1 st) := by
  intro l1
  induction l1 with
  | nil => intro l2 st; rfl
  | cons L rest ih =>
      intro l2 st
      show execLayers xops fs (rest ++ l2) (execLayer xops fs st L) = _
      rw [ih]
      rfl

theorem addDetachedErrors_mono :
    ∀ (ds : List String) (errs : List (String × String)) (n : String),
      ((errs.lookup n).isSome) → (((addDetachedErrors errs ds).lookup n).isSome) := by
  intro ds
  induction ds with
  | nil => intro errs n h; exact h
  | cons m rest ih =>
      intro errs n h
      exact ih _ n (lookup_cons_isSome m n _ errs h)

theorem addDetachedErrors_records :
    ∀ (ds : List String) (errs : List (String × String)) (n : String),
      n ∈ ds → ((addDetachedErrors errs ds).lookup n).isSome := by
  intro ds
  induction ds with
  | nil => intro errs n h; exact absurd h (List.not_mem_nil n)
  | cons m rest ih =>
      intro errs n h
      rcases List.mem_cons.mp h with he | he
      · refine addDetachedErrors_mono rest _ n ?_
        rw [he]
        simp [List.lookup]
      · exact ih _ n he

theorem buildGraph_ok :
    ∀ (fs : List Formula) (g0 g : List (String × List String)),
      buildGraph fs g0 = Except.ok g →
      g = g0 ++ depGraph fs ∧ ((keysG g0).Nodup → (keysG g).Nodup) := by
  intro fs
  induction fs with
  | nil =>
      intro g0 g h
      have hg : g0 = g := Except.ok.inj h
      subst hg
      exact ⟨by simp [depGraph], fun h => h⟩
  | cons f rest ih =>
      intro g0 g h
      by_cases hk : f.name ∈ keysG g0
      · rw [buildGraph, if_pos hk] at h
        exact absurd h (by simp)
      · rw [buildGraph, if_neg hk] at h
        rcases ih _ g h with ⟨hg, hnd⟩
        constructor
        · rw [hg, List.append_assoc]
          rfl
        · intro h0
          refine hnd ?_
          have hkeys : keysG (g0 ++ [(f.name, f.depends_on)]) = keysG g0 ++ [f.name] := by
            simp [keysG]
          rw [hkeys]
          refine List.Nodup.append h0 (List.nodup_singleton _) ?_
          intro x hx hx2
          rw [List.mem_singleton.mp hx2] at hx
          exact hk hx

theorem execute_ok_eq {xops : ExternOps} {fs : List Formula} {st0 st' : EngineState}
    (hex : execute xops fs st0 = Except.ok st') :
    (keysG (depGraph fs)).Nodup ∧
    st' = execLayers xops fs (topological_sort (depGraph fs)).1
      { st0 with errors := addDetachedErrors st0.errors (topological_sort (depGraph fs)).2 } := by
  unfold execute at hex
  cases hbg : buildGraph fs [] with
  | error e => rw [hbg] at hex; exact absurd hex (by simp)
  | ok g =>
      rw [hbg] at hex
      dsimp only at hex
      rcases buildGraph_ok fs [] g hbg with ⟨hg, hnd⟩
      have hg2 : g = depGraph fs := by simpa using hg
      subst hg2
      exact ⟨hnd (by simp [keysG]), (Except.ok.inj hex).symm⟩

theorem find_name_isSome {fs : List Formula} {f : Formula} (hf : f ∈ fs) :
    (fs.find? (fun f2 => f2.name == f.name)).isSome := by
  induction fs with
  | nil => exact absurd hf (List.not_mem_nil f)
  | cons f0 rest ih =>
      rcases List.mem_cons.mp hf with he | he
      · subst he
        simp [List.find?]
      · cases hp : (f0.name == f.name)
        · simp only [List.find?, hp]
          exact ih he
        · simp [List.find?, hp]

end EngineLemmas

/-! ## Claim C2 -/

set_option maxRecDepth 40000 in
/-- **C2, counterexample.**  A two-formula cyclic batch executes with `Ok`,
yet formula `x` ends the batch with neither a result (`get_result` is
`none`) nor an error (`get_errors` has no entry for it): the claimed
"no submitted formula ends the batch with neither a result nor an error"
fails on cycles, whose nodes the sort silently drops. -/
theorem c2_counterexample :
    (execute trivialXops cyclicBatch newEngine).map
        (fun st => ((getResult st "x").isNone && (getError st "x").isNone)) =
      Except.ok true := by decide

/-- **C2, amended.**  After `execute` returns `Ok`: every submitted formula
whose name was placed in some layer ends the batch with a result or an
error, and every detached node receives an error entry — both
unconditionally; and if additionally the batch's dependency graph is
resolved (every declared dependency names a submitted formula) and acyclic,
then every submitted formula ends the batch with a result or an error.
(The original claim fails without the acyclicity hypothesis: see the
counterexample, where a cycle node — neither layered nor detached — ends
with neither.) -/
theorem c2_amended (xops : ExternOps) (fs : List Formula) (st0 st' : EngineState)
    (f : Formula) (hex : execute xops fs st0 = Except.ok st') (hf : f ∈ fs) :
    ((∃ L ∈ (topological_sort (depGraph fs)).1, f.name ∈ L) →
      (getResult st' f.name).isSome ∨ (getError st' f.name).isSome)
    ∧ (∀ n ∈ (topological_sort (depGraph fs)).2, (getError st' n).isSome)
    ∧ (ResolvedG (depGraph fs) → AcyclicG (depGraph fs) →
      (getResult st' f.name).isSome ∨ (getError st' f.name).isSome) := by
  rcases execute_ok_eq hex with ⟨hnd, hst⟩
  have hlayered : (∃ L ∈ (topological_sort (depGraph fs)).1, f.name ∈ L) →
      (getResult st' f.name).isSome ∨ (getError st' f.name).isSome := by
    intro hmem
    rw [hst]
    exact execLayers_records xops fs f.name (topological_sort (depGraph fs)).1 _
      hmem (find_name_isSome hf)
  refine ⟨hlayered, ?_, ?_⟩
  · intro n hn
    rw [hst]
    refine execLayers_errorMono xops fs n (topological_sort (depGraph fs)).1 _ ?_
    exact addDetachedErrors_records (topological_sort (depGraph fs)).2 st0.errors n hn
  · intro hres hacyc
    have hkey : f.name ∈ keysG (depGraph fs) :=
      mem_keysG.mpr ⟨f.depends_on, List.mem_map.mpr ⟨f, hf, rfl⟩⟩
    have hflat := topo_sort_complete hnd hres hacyc f.name hkey
    rcases List.mem_flatten.mp hflat with ⟨L, hL, hnL⟩
    exact hlayered ⟨L, hL, hnL⟩

set_option maxRecDepth 40000 in
/-- **C2, witness**: the amended theorem at the one-formula batch
`soloBatch`, whose graph is trivially resolved and acyclic; the
resolved-and-acyclic clause yields the concrete outcome. -/
theorem c2_amended_witness :
    (getResult soloState "solo").isSome ∨ (getError soloState "solo").isSome := by
  have hnil : ∀ k, depsOf (depGraph soloBatch) k = [] := by
    intro k
    show (if ("solo" : String) = k then soloFormula.depends_on else depsOf [] k) = []
    by_cases h : ("solo" : String) = k
    · rw [if_pos h]
      decide
    · rw [if_neg h]
      rfl
  have hacyc : AcyclicG (depGraph soloBatch) := by
    intro k
    exact Acc.intro k (fun d hd => absurd ((hnil k) ▸ hd) (List.not_mem_nil d))
  exact (c2_amended trivialXops soloBatch newEngine soloState soloFormula rfl
    (List.mem_cons_self soloFormula [])).2.2 (by decide) hacyc

/-! ## Claim C3 -/

set_option maxRecDepth 40000 in
/-- **C3, counterexample.**  In the batch `a`, `b` (depending on `a`), `c`
(depending on `a` and `b`), the claimed layer separation fails: `b` is a
declared dependency of `c`, yet the sort emits the layers
`[[a], [b, c], [c]]`, whose middle layer contains both — the candidate pass
inserts `b` into `satisfied_keys` mid-iteration and then admits `c` in the
same pass (and re-emits `c` one layer later, since nothing records that it
was already emitted).  The observed-value half fails with it: during the
layer `[b, c]`, the formula-result cache that `c`\x27s worker consults has
no entry for `b`, while `get_result(\x27b\x27)` at batch end is `2`;
concretely, `c` ends the batch with both an error (from its first, premature
execution) and a result `3` (from its re-execution). -/
theorem c3_counterexample :
    "b" ∈ fmlC.depends_on ∧
    (topological_sort (depGraph batchABC)).1 = [["a"], ["b", "c"], ["c"]] ∧
    (∃ L ∈ (topological_sort (depGraph batchABC)).1, fmlC.name ∈ L ∧ "b" ∈ L) ∧
    getResult (execLayers trivialXops batchABC [["a"]]
      { newEngine with
          errors := addDetachedErrors newEngine.errors
            (topological_sort (depGraph batchABC)).2 }) "b" = none ∧
    getResult abcState "b" = some (Value.num (mkRat 2 1)) ∧
    (getError abcState "c").isSome ∧
    getResult abcState "c" = some (Value.num (mkRat 3 1)) := by
  refine ⟨by decide, by decide, by decide, by decide, by decide, by decide, by decide⟩

/-- **C3, amended.**  If `A` is a declared dependency of formula `B` in a
batch that executes with `Ok`, then whenever `B`\x27s name sits in the layer
of index `i`, `A` appears in some layer of index at most `i` (possibly `i`
itself — layers are *not* dependency-free); and whenever `B`\x27s name sits
in a layer `LB` such that `A` is in neither `LB` nor any later layer, the
formula-result-cache entry for `A` that `B`\x27s workers observe — the
lookup in the state reached after the layers before `LB`, which is exactly
what `get_output_from(\x27A\x27)` consults — equals `get_result(\x27A\x27)`
at batch end. -/
theorem c3_amended (xops : ExternOps) (fs : List Formula)
    (st0 st' : EngineState) (fb : Formula) (A : String)
    (hex : execute xops fs st0 = Except.ok st') (hfb : fb ∈ fs)
    (hA : A ∈ fb.depends_on) :
    (∀ i L, (topological_sort (depGraph fs)).1[i]? = some L → fb.name ∈ L →
        A ∈ (((topological_sort (depGraph fs)).1.take (i + 1)).flatten))
    ∧ ∀ pre LB post, (topological_sort (depGraph fs)).1 = pre ++ LB :: post →
        fb.name ∈ LB → (∀ L ∈ LB :: post, A ∉ L) →
        getResult (execLayers xops fs pre
          { st0 with
              errors := addDetachedErrors st0.errors (topological_sort (depGraph fs)).2 })
          A = getResult st' A := by
  rcases execute_ok_eq hex with ⟨hnd, hst⟩
  have hmemg : (fb.name, fb.depends_on) ∈ depGraph fs := List.mem_map.mpr ⟨fb, hfb, rfl⟩
  have hdeps : depsOf (depGraph fs) fb.name = fb.depends_on := depsOf_eq_of_mem hnd hmemg
  constructor
  · intro i L hgi hb
    exact topo_sort_deps_take hnd i L hgi fb.name hb A (hdeps ▸ hA)
  · intro pre LB post hsplit hbLB hnotin
    rw [hst, hsplit, execLayers_append]
    exact (execLayers_result_stable xops fs A (LB :: post) _ hnotin).symm

set_option maxRecDepth 40000 in
/-- **C3, witness**: the amended theorem at the two-formula chain batch,
where `derived` declares a dependency on `base`. -/
theorem c3_amended_witness :
    (∀ i L, (topological_sort (depGraph chainBatch)).1[i]? = some L →
        chainB.name ∈ L →
        "base" ∈ (((topological_sort (depGraph chainBatch)).1.take (i + 1)).flatten))
    ∧ ∀ pre LB post, (topological_sort (depGraph chainBatch)).1 = pre ++ LB :: post →
        chainB.name ∈ LB → (∀ L ∈ LB :: post, "base" ∉ L) →
        getResult (execLayers trivialXops chainBatch pre
          { newEngine with
              errors := addDetachedErrors newEngine.errors
                (topological_sort (depGraph chainBatch)).2 })
          "base" = getResult chainState "base" :=
  c3_amended trivialXops chainBatch newEngine chainState chainB "base" rfl
    (List.mem_cons_of_mem chainA (List.mem_cons_self chainB [])) (by decide)

/-! ## Claim C8 -/

set_option maxRecDepth 40000 in
/-- **C8.**  The precedence ladder of the recursive-descent analysis:
`return 2 + 3 * 4` parses as `2 + (3 * 4)` and evaluates to `Number 14`;
`return 2 ^ 3 ^ 2` parses right-associatively as `2 ^ (3 ^ 2)` and evaluates
to `Number 512`; `return true or false and true` parses as
`true or (false and true)` and evaluates to `Bool true`; and `mod` binds
tighter than `*`: `return 2 * 3 mod 4` parses as `2 * (3 mod 4)`. -/
theorem c8_parser_precedence (xops : ExternOps) :
    parseProgram "return 2 + 3 * 4" =
      Except.ok (Program.mk (Statement.returnS (Expr.add (Expr.number (mkRat 2 1))
        (Expr.multiply (Expr.number (mkRat 3 1)) (Expr.number (mkRat 4 1))))))
    ∧ (tryExecuteFormula xops newEngine "return 2 + 3 * 4").1 =
        Except.ok (Value.num (mkRat 14 1))
    ∧ parseProgram "return 2 ^ 3 ^ 2" =
      Except.ok (Program.mk (Statement.returnS (Expr.power (Expr.number (mkRat 2 1))
        (Expr.power (Expr.number (mkRat 3 1)) (Expr.number (mkRat 2 1))))))
    ∧ (tryExecuteFormula xops newEngine "return 2 ^ 3 ^ 2").1 =
        Except.ok (Value.num (mkRat 512 1))
    ∧ parseProgram "return true or false and true" =
      Except.ok (Program.mk (Statement.returnS (Expr.or (Expr.bool true)
        (Expr.and (Expr.bool false) (Expr.bool true)))))
    ∧ (tryExecuteFormula xops newEngine "return true or false and true").1 =
        Except.ok (Value.bool true)
    ∧ parseProgram "return 2 * 3 mod 4" =
      Except.ok (Program.mk (Statement.returnS (Expr.multiply (Expr.number (mkRat 2 1))
        (Expr.modulo (Expr.number (mkRat 3 1)) (Expr.number (mkRat 4 1)))))) :=
  ⟨rfl, rfl, rfl, rfl, rfl, rfl, rfl⟩

set_option maxRecDepth 40000 in
/-- **C8, witness**: the evaluations at the concrete external-operations
instance. -/
theorem c8_parser_precedence_witness :
    (tryExecuteFormula trivialXops newEngine "return 2 + 3 * 4").1 =
      Except.ok (Value.num (mkRat 14 1))
    ∧ (tryExecuteFormula trivialXops newEngine "return 2 ^ 3 ^ 2").1 =
      Except.ok (Value.num (mkRat 512 1)) :=
  ⟨(c8_parser_precedence trivialXops).2.1, (c8_parser_precedence trivialXops).2.2.2.1⟩

/-! ## Claim C9 -/

theorem stripPre_eq : ∀ {p l r : List Char}, stripPre p l = some r → l = p ++ r := by
  intro p
  induction p with
  | nil =>
      intro l r h
      simp [stripPre] at h
      simp [h]
  | cons pc ps ih =>
      intro l r h
      cases l with
      | nil => simp [stripPre] at h
      | cons c cs =>
          rw [stripPre] at h
          by_cases hpc : pc = c
          · rw [if_pos hpc] at h
            rw [List.cons_append, ← hpc, ih h]
          · rw [if_neg hpc] at h
            exact absurd h (by simp)

theorem dropWhile_head_false {α : Type} {p : α → Bool} {l : List α} {x : α} {xs : List α}
    (h : l.dropWhile p = x :: xs) : p x = false := by
  have := List.head?_dropWhile_not p l
  rw [h] at this
  exact this

/-- Every captured dependency comes from an exact occurrence of the pattern
`get_output_from('NAME')` — literal quotes, no space, a non-empty quote-free
name. -/
theorem tryDepMatch_eq {l : List Char} {nm : String} {r : List Char}
    (h : tryDepMatch l = some (nm, r)) :
    l = depPattern ++ nm.toList ++ [quoteChar, ')'] ++ r ∧ nm.toList ≠ [] ∧
      ∀ ch ∈ nm.toList, ch ≠ quoteChar := by
  unfold tryDepMatch at h
  cases hst : stripPre depPattern l with
  | none => rw [hst] at h; exact absurd h (by simp)
  | some rest =>
      rw [hst] at h
      dsimp only at h
      cases hdw : rest.dropWhile (fun c => c ≠ quoteChar) with
      | nil => rw [hdw] at h; exact absurd h (by simp)
      | cons q r3 =>
          rw [hdw] at h
          dsimp only at h
          by_cases hemp : (rest.takeWhile (fun c => c ≠ quoteChar)).isEmpty
          · rw [if_pos hemp] at h
            exact absurd h (by simp)
          · rw [if_neg hemp] at h
            cases r3 with
            | nil => exact absurd h (by simp)
            | cons rp r4 =>
                dsimp only at h
                by_cases hrp : rp = ')'
                · rw [if_pos hrp] at h
                  rcases Option.some.inj h with h2
                  have hnm : nm = String.mk (rest.takeWhile (fun c => c ≠ quoteChar)) :=
                    (congrArg Prod.fst h2).symm
                  have hr : r = r4 := (congrArg Prod.snd h2).symm
                  have hq : q = quoteChar := by
                    have hf := dropWhile_head_false hdw
                    simpa using hf
                  have hrest : rest = rest.takeWhile (fun c => c ≠ quoteChar) ++
                      q :: rp :: r4 := by
                    rw [← hdw, List.takeWhile_append_dropWhile]
                  refine ⟨?_, ?_, ?_⟩
                  · rw [stripPre_eq hst, hrest, hnm, hq, hrp, hr]
                    simp
                  · rw [hnm]
                    intro he
                    rw [show String.toList (String.mk (rest.takeWhile
                      (fun c => c ≠ quoteChar))) = rest.takeWhile (fun c => c ≠ quoteChar)
                      from rfl] at he
                    rw [he] at hemp
                    exact hemp rfl
                  · rw [hnm]
                    intro ch hch
                    have := List.mem_takeWhile_imp hch
                    simpa using this
                · rw [if_neg hrp] at h
                  exact absurd h (by simp)

/-- The scan only emits pattern occurrences. -/
theorem scanDeps_sub : ∀ (fuel : Nat) (l : List Char) (nm : String),
    nm ∈ scanDeps fuel l →
    ∃ pre post, l = pre ++ (depPattern ++ nm.toList ++ [quoteChar, ')']) ++ post ∧
      nm.toList ≠ [] ∧ ∀ ch ∈ nm.toList, ch ≠ quoteChar := by
  intro fuel
  induction fuel with
  | zero =>
      intro l nm h
      exact absurd h (List.not_mem_nil nm)
  | succ f ih =>
      intro l nm h
      cases l with
      | nil => exact absurd h (List.not_mem_nil nm)
      | cons c rest =>
          rw [scanDeps] at h
          cases hm : tryDepMatch (c :: rest) with
          | none =>
              rw [hm] at h
              rcases ih rest nm h with ⟨pre, post, heq, hne, hq⟩
              exact ⟨c :: pre, post, by rw [heq]; simp, hne, hq⟩
          | some p =>
              obtain ⟨pn, pr⟩ := p
              rw [hm] at h
              dsimp only at h
              rcases List.mem_cons.mp h with h | h
              · subst h
                rcases tryDepMatch_eq hm with ⟨heq, hne, hq⟩
                exact ⟨[], pr, by rw [heq]; simp, hne, hq⟩
              · rcases ih pr nm h with ⟨pre, post, heq, hne, hq⟩
                rcases tryDepMatch_eq hm with ⟨heq0, _, _⟩
                refine ⟨depPattern ++ pn.toList ++ [quoteChar, ')'] ++ pre, post, ?_, hne, hq⟩
                rw [heq0, heq]
                simp

/-- **C9.**  `Formula::build_depends_on` extracts dependencies purely
textually: every name in `depends_on` arises from an exact occurrence of
`get_output_from('NAME')` in the body — single quotes, no characters between
the parenthesis and the quote, non-empty quote-free name — so a call written
with whitespace inside the parentheses or with a computed argument
contributes nothing (concrete omissions below), even though at run time the
evaluator's `GetOutputFrom` accepts any expression evaluating to a string
and looks that name up in the formula-result cache. -/
theorem c9_textual_extraction :
    (∀ (body : String) (nm : String), nm ∈ build_depends_on body →
      ∃ pre post, body.toList = pre ++ (depPattern ++ nm.toList ++ [quoteChar, ')']) ++ post ∧
        nm.toList ≠ [] ∧ ∀ ch ∈ nm.toList, ch ≠ quoteChar)
    ∧ build_depends_on "return get_output_from( \x27a\x27 )" = []
    ∧ build_depends_on "return get_output_from(\x27a\x27 + \x27b\x27) + get_output_from(\x27c\x27)" = ["c"]
    ∧ (∀ (env : Env) (n : Nat) (e : Expr) (c c1 : List (String × Value)) (name : String),
        evalExpr env n e c = (Except.ok (Value.str name), c1) →
        (∀ v, env.formulaResultCache.lookup name = some v →
          evalExpr env (n + 1) (Expr.getOutputFrom e) c = (Except.ok v, c1))
        ∧ (env.formulaResultCache.lookup name = none →
          evalExpr env (n + 1) (Expr.getOutputFrom e) c =
            (Except.error (CalcError.formulaNotFound name), c1))) := by
  refine ⟨?_, by decide, by decide, ?_⟩
  · intro body nm h
    exact scanDeps_sub _ _ nm h
  · intro env n e c c1 name he
    constructor
    · intro v hv
      simp [evalExpr, he, bindE, hv]
    · intro hv
      simp [evalExpr, he, bindE, hv]

/-- **C9, witness.**  The extraction of `return get_output_from('tax')`
is `["tax"]`, whose pattern occurrence the theorem certifies; the evaluator
resolves `get_output_from` through the formula-result cache. -/
theorem c9_textual_extraction_witness :
    build_depends_on "return get_output_from(\x27tax\x27)" = ["tax"]
    ∧ ("tax".toList ≠ [] ∧ ∀ ch ∈ "tax".toList, ch ≠ quoteChar)
    ∧ evalExpr trivialEnvTax 2 (Expr.getOutputFrom (Expr.string "tax")) [] =
        (Except.ok (Value.num (mkRat 9 1)), []) := by
  refine ⟨by decide, ?_, ?_⟩
  · rcases c9_textual_extraction.1 "return get_output_from(\x27tax\x27)" "tax"
      (by decide) with ⟨pre, post, _, hne, hq⟩
    exact ⟨hne, hq⟩
  · exact ((c9_textual_extraction.2.2.2 trivialEnvTax 1 (Expr.string "tax") [] [] "tax"
      (by decide)).1 (Value.num (mkRat 9 1)) (by decide))

/-! ## Claim C4 -/

/-- The three-node chain-with-shortcut `gABC` is acyclic (used by the C4
counterexample, whose hypotheses must be genuinely satisfiable). -/
theorem acyclic_abc : AcyclicG gABC := by
  have accA : Acc (DepRel gABC) "a" :=
    Acc.intro _ (fun d hd => absurd (show d ∈ ([] : List String) from hd)
      (List.not_mem_nil d))
  have accB : Acc (DepRel gABC) "b" :=
    Acc.intro _ (fun d hd => by
      have hda : d = "a" := List.mem_singleton.mp (show d ∈ ["a"] from hd)
      rw [hda]
      exact accA)
  have accC : Acc (DepRel gABC) "c" :=
    Acc.intro _ (fun d hd => by
      rcases List.mem_cons.mp (show d ∈ ["a", "b"] from hd) with h | h
      · rw [h]
        exact accA
      · rw [List.mem_singleton.mp h]
        exact accB)
  intro k
  by_cases ha : k = "a"
  · rw [ha]
    exact accA
  · by_cases hb : k = "b"
    · rw [hb]
      exact accB
    · by_cases hc : k = "c"
      · rw [hc]
        exact accC
      · refine Acc.intro _ (fun d hd => ?_)
        have hde : depsOf gABC k = [] := by
          simp [gABC, depsOf, Ne.symm ha, Ne.symm hb, Ne.symm hc]
        rw [DepRel, hde] at hd
        exact absurd hd (List.not_mem_nil d)

/-- **C4, counterexample.**  The resolved, acyclic graph
`a:[], b:[a], c:[a,b]` refutes both halves of the claim: the sort emits
`[[a], [b, c], [c]]`, so `c` appears in *two* layers (indices 1 and 2), not
exactly one — the candidate pass admits `c` right after emitting its
dependency `b` in the same pass, and re-emits it in the next iteration
because nothing records that it was already emitted; and since a dependency
path of length 2 exists from `c` (`c → b → a`), the occurrence of `c` at
index 1 sits below its longest-path length. -/
theorem c4_counterexample :
    ResolvedG gABC ∧ AcyclicG gABC ∧
    (topological_sort gABC).1 = [["a"], ["b", "c"], ["c"]] ∧
    DepPath gABC "c" 2 :=
  ⟨by decide, acyclic_abc, by decide,
    DepPath.step "c" "b" 1 (by decide)
      (DepPath.step "b" "a" 0 (by decide) (DepPath.leaf "a" (by decide)))⟩

/-- **C4, amended.**  For every graph with duplicate-free keys: if the
dependencies all resolve and the graph is acyclic, every node appears in at
least one layer (but possibly several); unconditionally, every layer member
is a node of the graph, the declared dependencies of a member of layer `i`
all lie in layers of index at most `i` (not necessarily strictly below —
layers are not dependency-free), every member of layer `i + 1` has a
dependency in layer `i` or in its own layer, and layer 0 is exactly the set
of nodes with no dependencies. -/
theorem c4_amended {K : Type} [DecidableEq K] (g : List (K × List K))
    (hnd : (keysG g).Nodup) :
    (ResolvedG g → AcyclicG g → ∀ k ∈ keysG g, ∃ L ∈ (topological_sort g).1, k ∈ L)
    ∧ (∀ L ∈ (topological_sort g).1, ∀ k ∈ L, k ∈ keysG g)
    ∧ (∀ i L, (topological_sort g).1[i]? = some L → ∀ k ∈ L,
        ∀ d ∈ depsOf g k, d ∈ (((topological_sort g).1.take (i + 1)).flatten))
    ∧ (∀ i Lp L, (topological_sort g).1[i]? = some Lp →
        (topological_sort g).1[i + 1]? = some L → ∀ k ∈ L,
        ∃ d ∈ depsOf g k, d ∈ Lp ∨ d ∈ L)
    ∧ (∀ k, k ∈ ((topological_sort g).1.head?.getD []) ↔
        k ∈ keysG g ∧ depsOf g k = []) := by
  refine ⟨?_, topo_sort_layers_keys hnd, topo_sort_deps_take hnd,
    topo_sort_succ_dep hnd, topo_sort_head hnd⟩
  intro hres hacyc k hkey
  have hflat := topo_sort_complete hnd hres hacyc k hkey
  rcases List.mem_flatten.mp hflat with ⟨L, hL, hkL⟩
  exact ⟨L, hL, hkL⟩

/-- **C4, witness.**  The amended theorem at the chain `b → a`: its layers
compute to `[[a], [b]]`, node `b` appears in a layer, layer 1\x27s member
`b` has its dependency `a` in layer 0, and layer 0 is the no-dependency
node `a`. -/
theorem c4_amended_witness :
    (∃ L ∈ (topological_sort [("a", ([] : List String)), ("b", ["a"])]).1, "b" ∈ L)
    ∧ (topological_sort [("a", ([] : List String)), ("b", ["a"])]).1 =
        [["a"], ["b"]] := by
  refine ⟨(c4_amended [("a", ([] : List String)), ("b", ["a"])] (by decide)).1
    (by decide) acyclic_ab "b" (by decide), by decide⟩

end FormCalc
